import Mathlib

/-!
# Warp: mixed-workload scheduler and circular partially-compressible source

A shallow embedding of `pkg/bench/mixed.go` and
`pkg/generator/circular_partialcompress.go`, followed by the properties
established about them.

Conventions of the embedding.

* `float64` weights are read in two ways. Where a property is one of exact
  arithmetic, or holds whatever the rounding, they are rationals: comparisons,
  sums, quotients and the conversion `int(x)` are the exact ones (`normalize`,
  `slotsFor`, `Generate`). Where rounding, overflow or a NaN decides, as for
  the number of slots, they are values of `F64`: the finite numbers, the
  infinities and a NaN, every operation rounding its exact result to the
  nearest `float64`, a tie to the even significand (`normalize64`,
  `slotsFor64`, `Generate64`). What the language leaves to the implementation,
  fusing `x*y + z` into one rounding and the conversion to `int` of a value
  that `int` cannot hold, is an argument (`Target`).
* `int64` values are integers; an operation that can leave the 64-bit range
  is wrapped with `wrap64`.
* A Go map is a list of entries with pairwise distinct keys. The order in
  which a `range` loop visits a map is not fixed by the language: for the
  distribution it is the order of the list, and a claim about every order
  speaks of every list with the same entries; for the object pool, where the
  loop returns from its first iteration, the entry visited first is selected
  by an argument.
* A byte is a natural number; a slice of bytes is a list.
* The storage client, the client pool and the collector are outside the
  code: what a call returns is an argument of the iteration (`Outcome`), what
  the iteration does to them is its list of events, in source order. Workers
  are taken one iteration after the other, as the locks order them.
* A run-time panic, and a loop that does not finish, is `none`.
-/

set_option autoImplicit false
set_option linter.unusedVariables false

namespace Warp

/-! ## Machine integers -/

/-- Two's-complement wrap of an integer into the `int64` range. -/
def wrap64 (x : Int) : Int := (x + 2 ^ 63) % 2 ^ 64 - 2 ^ 63

/-- Go's conversion `int(x)` of a float inside the range of `int`: truncation
toward zero. -/
def goInt (x : ℚ) : Int := if 0 ≤ x then ⌊x⌋ else ⌈x⌉

/-! ## float64 arithmetic -/

/-- A `float64` value: a finite number, an infinity or a NaN. The two zeros
are one value: the code at hand never divides by a zero, which is the one
operation that tells them apart. -/
inductive F64 where
  | fin (q : ℚ)
  | pinf
  | ninf
  | nan
deriving DecidableEq

/-- Rounding to the nearest integer, a tie going to the even one. -/
def roundHalfEven (x : ℚ) : Int :=
  if x - ⌊x⌋ < 1 / 2 then ⌊x⌋
  else if 1 / 2 < x - ⌊x⌋ then ⌊x⌋ + 1
  else if ⌊x⌋ % 2 = 0 then ⌊x⌋ else ⌊x⌋ + 1

/-- The `float64` nearest to a rational, a tie going to the even significand:
53 significant bits, exponents from -1022 (below, the spacing stays 2^-1074),
an infinity from 2^1024 on. -/
def F64.round (q : ℚ) : F64 :=
  if q = 0 then .fin 0
  else
    let e : Int := max (Int.log 2 |q|) (-1022)
    let r : ℚ := roundHalfEven (|q| / 2 ^ (e - 52)) * 2 ^ (e - 52)
    if (2 : ℚ) ^ (1024 : Int) ≤ r then (if 0 < q then .pinf else .ninf)
    else .fin (if 0 < q then r else -r)

/-- The sum `x + y` of two `float64` values. -/
def F64.add : F64 → F64 → F64
  | .fin a, .fin b => F64.round (a + b)
  | .nan, _ => .nan
  | _, .nan => .nan
  | .pinf, .ninf => .nan
  | .ninf, .pinf => .nan
  | .pinf, _ => .pinf
  | _, .pinf => .pinf
  | .ninf, _ => .ninf
  | _, .ninf => .ninf

/-- The product `x * y` of two `float64` values. -/
def F64.mul : F64 → F64 → F64
  | .fin a, .fin b => F64.round (a * b)
  | .nan, _ => .nan
  | _, .nan => .nan
  | .fin a, .pinf => if a = 0 then .nan else if 0 < a then .pinf else .ninf
  | .fin a, .ninf => if a = 0 then .nan else if 0 < a then .ninf else .pinf
  | .pinf, .fin b => if b = 0 then .nan else if 0 < b then .pinf else .ninf
  | .ninf, .fin b => if b = 0 then .nan else if 0 < b then .ninf else .pinf
  | .pinf, .pinf => .pinf
  | .ninf, .ninf => .pinf
  | .pinf, .ninf => .ninf
  | .ninf, .pinf => .ninf

/-- The quotient `x / y` of two `float64` values. A zero divisor is taken as
the positive zero. -/
def F64.div : F64 → F64 → F64
  | .fin a, .fin b =>
    if b = 0 then (if a = 0 then .nan else if 0 < a then .pinf else .ninf)
    else F64.round (a / b)
  | .nan, _ => .nan
  | _, .nan => .nan
  | .fin _, _ => .fin 0
  | .pinf, .fin b => if 0 ≤ b then .pinf else .ninf
  | .ninf, .fin b => if 0 ≤ b then .ninf else .pinf
  | _, _ => .nan

/-- The fused multiply-add: `x * y + z` rounded once. A finite product takes
an infinite or NaN `z` as it is; an infinite or NaN factor makes the product
exact, and the result is its sum with `z`. -/
def F64.fma : F64 → F64 → F64 → F64
  | .fin a, .fin b, .fin c => F64.round (a * b + c)
  | .fin _, .fin _, z => z
  | x, y, z => F64.add (F64.mul x y) z

/-- The comparison `x < y` of two `float64` values; false with a NaN on either
side. -/
def F64.lt : F64 → F64 → Bool
  | .fin a, .fin b => decide (a < b)
  | .ninf, .fin _ => true
  | .ninf, .pinf => true
  | .fin _, .pinf => true
  | _, _ => false

/-- The rational a finite `float64` stands for; 0 for an infinity and a NaN. -/
def F64.toRat : F64 → ℚ
  | .fin q => q
  | _ => 0

/-- A value the type `float64` has: a finite one is its own rounding. -/
def IsFloat64 : F64 → Prop
  | .fin q => F64.round q = .fin q
  | _ => True

/-- A multiple of the smallest spacing `2^-1074` of the `float64` values. -/
def OnGrid (r : ℚ) : Prop := ∃ n : Int, r = n * 2 ^ (-1074 : Int)

/-- What the language leaves to the implementation: whether `x*y + z` is
fused into one rounding, and the result of the conversion to `int` of a value
that `int` cannot represent. -/
structure Target where
  fused : Bool
  undef : F64 → Int

/-- Go's conversion `int(x)` of a `float64`, `int` being 64 bits wide:
truncation toward zero, and the implementation's value for a NaN, an infinity
and a number outside the range. -/
def goInt64 (t : Target) : F64 → Int
  | .fin q =>
    if -(2 : Int) ^ 63 ≤ goInt q ∧ goInt q < 2 ^ 63 then goInt q else t.undef (.fin q)
  | x => t.undef x

/-! ## pkg/generator: the reader -/

namespace Generator

/-- The struct `circularCompressibleReader`: the buffer, the running position,
the end position and the number of bytes still to deliver. -/
structure circularCompressibleReader where
  buf : List Nat
  pos : Int
  end_ : Int
  remain : Int
deriving DecidableEq, Repr

/-- The fields of `generator.Object` used by the source and by the benchmark. -/
structure Object where
  Reader : Option circularCompressibleReader
  Name : String
  ContentType : String
  Size : Int
deriving DecidableEq, Repr

/-- Errors of the reader: `io.EOF` and the two errors built by `Seek`. -/
inductive IoError where
  | EOF
  | invalidWhence (whence : Int)
  | negativePosition (abs : Int)
deriving DecidableEq, Repr

/-- What one `Read` call leaves behind: the bytes stored into `p[:n]`, the
returned `n` and `err`, and the reader afterwards. -/
structure ReadResult where
  data : List Nat
  n : Int
  err : Option IoError
  cr : circularCompressibleReader
deriving DecidableEq, Repr

/-- The loop `for i := range p { p[i] = cr.buf[cr.pos%len(cr.buf)]; cr.pos++ }`
run for `k` slots from position `pos`: the bytes stored and the final position.
The remainder by an empty buffer and an index outside the buffer panic. -/
def readLoop (buf : List Nat) : Nat → Int → Option (List Nat × Int)
  | 0, pos => some ([], pos)
  | k + 1, pos =>
    if buf.length = 0 then none
    else
      let idx := Int.tmod pos buf.length
      if idx < 0 then none
      else
        match buf[idx.toNat]? with
        | none => none
        | some b =>
          match readLoop buf k (wrap64 (pos + 1)) with
          | none => none
          | some (bs, pos2) => some (b :: bs, pos2)

/-- The method `Read`, for a destination slice of length `lenP`. -/
def circularCompressibleReader.Read (cr : circularCompressibleReader) (lenP : Nat) :
    Option ReadResult :=
  if cr.remain ≤ 0 then
    some { data := [], n := 0, err := some .EOF, cr := cr }
  else
    let n : Nat := if (lenP : Int) > cr.remain then cr.remain.toNat else lenP
    match readLoop cr.buf n cr.pos with
    | none => none
    | some (data, pos2) =>
      some { data := data, n := n, err := none,
             cr := { cr with pos := pos2, remain := cr.remain - n } }

/-- The constants `io.SeekStart`, `io.SeekCurrent`, `io.SeekEnd`. -/
def SeekStart : Int := 0

def SeekCurrent : Int := 1

def SeekEnd : Int := 2

/-- The `switch whence` of `Seek`: the offset `abs`, or `none` in the default
case. -/
def circularCompressibleReader.seekAbs (cr : circularCompressibleReader) (offset whence : Int) :
    Option Int :=
  if whence = SeekStart then some offset
  else if whence = SeekCurrent then
    some (wrap64 (wrap64 (wrap64 (cr.pos - cr.end_) + cr.remain) + offset))
  else if whence = SeekEnd then some (wrap64 (cr.remain + offset))
  else none

/-- The method `Seek`: the returned offset, the returned error and the reader
afterwards. -/
def circularCompressibleReader.Seek (cr : circularCompressibleReader) (offset whence : Int) :
    Int × Option IoError × circularCompressibleReader :=
  match cr.seekAbs offset whence with
  | none => (0, some (.invalidWhence whence), cr)
  | some abs =>
    if abs < 0 then (0, some (.negativePosition abs), cr)
    else if abs > wrap64 (cr.end_ - cr.pos) then
      (wrap64 (cr.end_ - cr.pos), some .EOF, { cr with remain := 0 })
    else
      (abs, none, { cr with remain := wrap64 (wrap64 (cr.end_ - cr.pos) - abs) })

/-- Successive `Read` calls with destination lengths `ns`: all the bytes
delivered, in order, and the reader afterwards. -/
def readSeq : circularCompressibleReader → List Nat → Option (List Nat × circularCompressibleReader)
  | cr, [] => some ([], cr)
  | cr, n :: ns =>
    match cr.Read n with
    | none => none
    | some r =>
      match readSeq r.cr ns with
      | none => none
      | some (bs, cr2) => some (r.data ++ bs, cr2)

/-- The circular repetition of buffer `B`: `n` bytes from offset `start`, the
`i`-th being `B[(start + i) mod len(B)]`. -/
def circularBytes (B : List Nat) (start n : Nat) : List Nat :=
  (List.range n).map (fun i => B.getD ((start + i) % B.length) 0)

/-- A reader over `B` for an object of `s` bytes starting at buffer position
`p`, once `k` of its bytes have been read. -/
def readerAfter (B : List Nat) (p s k : Nat) : circularCompressibleReader :=
  { buf := B, pos := (p : Int) + k, end_ := (p : Int) + s, remain := (s : Int) - k }

/-- The offset a seek aims at, counted from the start of the object, for a
reader that has delivered `k` of its `s` bytes: `offset` taken from the start,
from the current offset `k`, or from the end `s`. This follows the description
of seeking, not the code. -/
def seekTarget (whence offset : Int) (k s : Nat) : Int :=
  if whence = SeekStart then offset
  else if whence = SeekCurrent then (k : Int) + offset
  else (s : Int) + offset

/-! ## pkg/generator: the source -/

/-- The struct `CircularPartialCompressibleOpts`. -/
structure CircularPartialCompressibleOpts where
  seed : Option Int
  size : Int
  percentCompressible : Int
  compressibleChunkSize : Int
deriving DecidableEq, Repr

/-- The constructor `WithPartialCompressability`. -/
def WithPartialCompressability (percent : Int) : CircularPartialCompressibleOpts :=
  { seed := none, size := 2 ^ 20 + 1, percentCompressible := percent,
    compressibleChunkSize := 32000 }

/-- The setter `Size`. -/
def CircularPartialCompressibleOpts.Size (o : CircularPartialCompressibleOpts) (s : Int) :
    CircularPartialCompressibleOpts :=
  { o with size := s }

/-- Errors of option validation and of source construction. -/
inductive OptError where
  | sizeNotPositive (size : Int)
  | sizeNotAboveChunk (size chunk : Int)
  | percentNotPositive (size : Int)
deriving DecidableEq, Repr

/-- The method `validate`: `none` is the nil error. -/
def CircularPartialCompressibleOpts.validate (o : CircularPartialCompressibleOpts) :
    Option OptError :=
  if o.size ≤ 0 then some (.sizeNotPositive o.size)
  else if o.size ≤ o.compressibleChunkSize then
    some (.sizeNotAboveChunk o.size o.compressibleChunkSize)
  else if o.percentCompressible ≤ 0 then some (.percentNotPositive o.size)
  else none

/-- The struct `circularPartialCompressibleSrc` (the generator handle and the
options have no counterpart: what is drawn from them is passed in). -/
structure circularPartialCompressibleSrc where
  buf : List Nat
  obj : Object
  pos : Int
deriving DecidableEq, Repr

/-- The inner loop `for j := i; j < i+chunk; j++ { buf[j] = 0 }`, for `n`
iterations from `j`. A store outside the buffer panics. -/
def zeroChunk : List Nat → Int → Nat → Option (List Nat)
  | buf, _, 0 => some buf
  | buf, j, n + 1 =>
    if 0 ≤ j ∧ j < buf.length then zeroChunk (buf.set j.toNat 0) (j + 1) n
    else none

/-- The loop `for i := 0; i < size; i += chunk` of
`newCircularPartialCompressible`, from offset `i` with `chunkCount` chunks
already counted. Each iteration takes one unit of `fuel`; the remainder by a
zero interval panics. -/
def chunkLoop (size chunk interval : Int) :
    Nat → Int → Int → List Nat → Option (List Nat)
  | fuel, i, chunkCount, buf =>
    if i < size then
      match fuel with
      | 0 => none
      | fuel + 1 =>
        if interval = 0 then none
        else if Int.tmod (chunkCount + 1) interval ≠ 0 then
          chunkLoop size chunk interval fuel (i + chunk) (chunkCount + 1) buf
        else if i + chunk > size then
          chunkLoop size chunk interval fuel (i + chunk) (chunkCount + 1) buf
        else
          match zeroChunk buf i (i + chunk - i).toNat with
          | none => none
          | some buf2 => chunkLoop size chunk interval fuel (i + chunk) (chunkCount + 1) buf2
    else some buf

/-- The function `newCircularPartialCompressible`. The bytes `io.ReadFull`
draws from the generator are `rnd 0, rnd 1, ...`. The outer result is `none`
on a panic (the division `100 / percentCompressible` by zero, or one inside
the loop); the loop is given `size` iterations, which suffice whenever the
chunk size is positive. The buffer is allocated, so `size` and the offsets
`i + chunk ≤ 2 * size` computed from validated options are far inside the
`int` range. -/
def newCircularPartialCompressible (o : CircularPartialCompressibleOpts) (rnd : Nat → Nat) :
    Option (Except OptError circularPartialCompressibleSrc) :=
  let size := o.size
  if size ≤ 0 then some (.error (.sizeNotPositive size))
  else
    let buf := (List.range size.toNat).map rnd
    if o.percentCompressible = 0 then none
    else
      let chunkIntervalToMakeCompressible := Int.tdiv 100 o.percentCompressible
      match chunkLoop size o.compressibleChunkSize chunkIntervalToMakeCompressible
          size.toNat 0 0 buf with
      | none => none
      | some buf2 =>
        some (.ok { buf := buf2,
                    obj := { Reader := none, Name := "",
                             ContentType := "application/octet-stream", Size := 0 },
                    pos := 0 })

/-- Position `j` lies in a chunk of `chunk` bytes whose 1-based index
`j / chunk + 1` is a multiple of `interval` and which ends inside the buffer of
`size` bytes. -/
def zeroedAt (size chunk interval j : Nat) : Prop :=
  interval ∣ (j / chunk + 1) ∧ (j / chunk + 1) * chunk ≤ size

instance (size chunk interval : Nat) : DecidablePred (zeroedAt size chunk interval) :=
  fun j => inferInstanceAs (Decidable (_ ∧ _))

/-- Modelled from the spec: the type `circularReader` that `Object` instantiates
is declared outside the files at hand. Its composite literal sets the four
fields `buf`, `pos`, `end`, `remain` of `circularCompressibleReader`, and the
spec has it serve `size` bytes from the cursor, wrapping modulo the buffer
length, which is `circularCompressibleReader.Read`. -/
abbrev circularReader := circularCompressibleReader

/-- The method `Object`. The size drawn by `getSize` and the name stored by
`setName` are passed in. The remainder by an empty buffer panics. -/
def circularPartialCompressibleSrc.Object (r : circularPartialCompressibleSrc)
    (size : Int) (name : String) : Option (Generator.Object × circularPartialCompressibleSrc) :=
  let rd : circularReader :=
    { buf := r.buf, pos := r.pos, end_ := wrap64 (r.pos + size), remain := size }
  let obj : Generator.Object := { r.obj with Size := size, Name := name, Reader := some rd }
  if r.buf.length = 0 then none
  else some (obj, { r with obj := obj, pos := Int.tmod (wrap64 (r.pos + size)) r.buf.length })

/-- Successive `Object` calls, one for each drawn size (the names play no
part): the objects returned and the source afterwards. -/
def objects : circularPartialCompressibleSrc → List Int →
    Option (List Generator.Object × circularPartialCompressibleSrc)
  | r, [] => some ([], r)
  | r, s :: ss =>
    match r.Object s "" with
    | none => none
    | some (o, r2) =>
      match objects r2 ss with
      | none => none
      | some (os, r3) => some (o :: os, r3)

/-- The payload of an object: what its reader delivers when it is read to the
end, `c` bytes at a time. -/
def payload (c : Nat) (o : Generator.Object) : Option (List Nat) :=
  match o.Reader with
  | none => none
  | some rd => (readSeq rd (List.replicate o.Size.toNat c)).map Prod.fst

/-- The payloads of a sequence of objects, one after the other. -/
def payloads (c : Nat) : List Generator.Object → Option (List Nat)
  | [] => some []
  | o :: os =>
    match payload c o, payloads c os with
    | some a, some b => some (a ++ b)
    | _, _ => none

end Generator

/-! ## pkg/bench: the operation mix -/

namespace Bench

open Generator

/-- Errors returned by `Generate` and `normalize`. -/
inductive GenError where
  | deleteBiggerThanPut
  | negativeDistribution (op : String)
  | totalIsZero
deriving DecidableEq, Repr

/-- The map access `m.Distribution[op]`: the zero value for a missing key. -/
def weight (d : List (String × ℚ)) (op : String) : ℚ :=
  match d.find? (fun e => e.1 == op) with
  | some e => e.2
  | none => 0

/-- The effect of `sort.Slice` with the comparison
`m.rng.Int63()&1 == 0` on a slice of length `n`. The comparison never looks at
the elements and the generator is seeded with the constant `0xabad1dea`, so
the swaps performed depend on `n` alone: slot `i` of the result holds the
element that was in slot `perm n i`. The permutation itself is that of the Go
library and is left open. -/
structure Shuffle where
  perm : (n : Nat) → Equiv.Perm (Fin n)

/-- The shuffled slice. -/
def Shuffle.apply {α : Type} (sh : Shuffle) (xs : List α) : List α :=
  List.ofFn (fun i : Fin xs.length => xs.get (sh.perm xs.length i))

/-- The struct `MixedDistribution` (the lock and the generator handle have no
counterpart). -/
structure MixedDistribution where
  Distribution : List (String × ℚ)
  ops : List String
  objects : List (String × Object)
  current : Int

/-- The constant `genOps` of `Generate`. -/
def genOps : Nat := 1000

/-- First loop of `normalize`, in exact arithmetic: reject a negative weight,
accumulate the total. -/
def sumWeights : List (String × ℚ) → ℚ → Except GenError ℚ
  | [], total => .ok total
  | (op, dist) :: rest, total =>
    if dist < 0 then .error (.negativeDistribution op)
    else sumWeights rest (total + dist)

/-- The method `normalize`, in exact arithmetic. -/
def normalize (m : MixedDistribution) : Except GenError MixedDistribution :=
  match sumWeights m.Distribution 0 with
  | .error e => .error e
  | .ok total =>
    if total = 0 then .error .totalIsZero
    else .ok { m with Distribution := m.Distribution.map (fun e => (e.1, e.2 / total)) }

/-- Number of slots `add := int(0.5 + dist*genOps)` given to one entry, in
exact arithmetic. -/
def slotsFor (dist : ℚ) : Int := goInt (0.5 + dist * genOps)

/-- The loop of `Generate` that fills `m.ops`, entry by entry in the order the
map is ranged over. -/
def materialize : List (String × ℚ) → List String
  | [] => []
  | (op, dist) :: rest => List.replicate (slotsFor dist).toNat op ++ materialize rest

/-- The method `Generate`, in exact arithmetic. -/
def Generate (sh : Shuffle) (m : MixedDistribution) (allocObjs : Int) :
    Except GenError MixedDistribution :=
  if weight m.Distribution "DELETE" > weight m.Distribution "PUT" then
    .error .deleteBiggerThanPut
  else
    match normalize { m with objects := [] } with
    | .error e => .error e
    | .ok m2 => .ok { m2 with ops := sh.apply (materialize m2.Distribution) }

/-- The method `randomObj`. The range loop returns from its first iteration:
`first` selects the entry the loop happens to visit first. An empty pool
panics. -/
def randomObj (m : MixedDistribution) (first : Nat) : Option (Object × MixedDistribution) :=
  match m.objects[first % m.objects.length]? with
  | some (_, o) => some (o, m)
  | none => none

/-- The method `deleteRandomObj`: the entry visited first is deleted by key and
its object returned. An empty pool panics. -/
def deleteRandomObj (m : MixedDistribution) (first : Nat) :
    Option (Object × MixedDistribution) :=
  match m.objects[first % m.objects.length]? with
  | some (k, o) => some (o, { m with objects := m.objects.filter (fun e => e.1 != k) })
  | none => none

/-- The method `addObj`: the map store `m.objects[o.Name] = o`. -/
def addObj (m : MixedDistribution) (o : Object) : MixedDistribution :=
  if m.objects.any (fun e => e.1 == o.Name) then
    { m with objects := m.objects.map (fun e => if e.1 == o.Name then (e.1, o) else e) }
  else
    { m with objects := m.objects ++ [(o.Name, o)] }

/-- Successive `deleteRandomObj` calls, one for each choice of first-visited
entry: the objects returned, in order, and the state afterwards. -/
def deleteSeq : MixedDistribution → List Nat → Option (List Object × MixedDistribution)
  | m, [] => some ([], m)
  | m, f :: fs =>
    match deleteRandomObj m f with
    | none => none
    | some (o, m2) =>
      match deleteSeq m2 fs with
      | none => none
      | some (os, m3) => some (o :: os, m3)

/-- The pool as the code builds it: keys pairwise distinct, each entry keyed by
its object's name. -/
def PoolOk (m : MixedDistribution) : Prop :=
  (m.objects.map Prod.fst).Nodup ∧ ∀ e ∈ m.objects, e.1 = e.2.Name

/-- A pool of three uploaded objects. -/
def threeObjects : MixedDistribution :=
  { Distribution := [], ops := [], current := 0,
    objects :=
      [("a", { Reader := none, Name := "a", ContentType := "application/octet-stream", Size := 1 }),
       ("b", { Reader := none, Name := "b", ContentType := "application/octet-stream", Size := 2 }),
       ("c", { Reader := none, Name := "c", ContentType := "application/octet-stream", Size := 3 })] }

/-- Three operation types of equal weight. -/
def threeWay : MixedDistribution :=
  { Distribution := [("PUT", 1), ("GET", 1), ("STAT", 1)], ops := [], objects := [], current := 0 }

/-- The map `{PUT: 1, GET: 1}` ranged over as PUT, GET. -/
def putGet : MixedDistribution :=
  { Distribution := [("PUT", 1), ("GET", 1)], ops := [], objects := [], current := 0 }

/-- The same map ranged over as GET, PUT. -/
def getPut : MixedDistribution :=
  { Distribution := [("GET", 1), ("PUT", 1)], ops := [], objects := [], current := 0 }

/-- The method `getOp`: the slot at the cursor and the state with the cursor
advanced. An index outside `m.ops` panics. The cursor is below `len(m.ops)`
when it is incremented, so the sum stays inside the `int` range. -/
def getOp (m : MixedDistribution) : Option (String × MixedDistribution) :=
  if m.current < 0 then none
  else
    match m.ops[m.current.toNat]? with
    | none => none
    | some op => some (op, { m with current := Int.tmod (m.current + 1) m.ops.length })

/-- Successive `getOp` calls: the operation types handed out, in order, and the
state afterwards. -/
def getOps : MixedDistribution → Nat → Option (List String × MixedDistribution)
  | m, 0 => some ([], m)
  | m, j + 1 =>
    match getOp m with
    | none => none
    | some (op, m1) =>
      match getOps m1 j with
      | none => none
      | some (ops, m2) => some (op :: ops, m2)

/-- A sequence of four slots with the cursor on the third. -/
def fourSlots : MixedDistribution :=
  { Distribution := [], ops := ["PUT", "GET", "STAT", "DELETE"], objects := [], current := 2 }

/-- The map with PUT 3 and GET 1. -/
def putThreeGetOne : MixedDistribution :=
  { Distribution := [("PUT", 3), ("GET", 1)], ops := [], objects := [], current := 0 }

/-- The map access `m.Distribution[op]` on `float64` weights: the zero value
for a missing key. -/
def weight64 (d : List (String × F64)) (op : String) : F64 :=
  match d.find? (fun e => e.1 == op) with
  | some e => e.2
  | none => .fin 0

/-- The struct `MixedDistribution` with its weights as `float64` values. -/
structure MixedDistribution64 where
  Distribution : List (String × F64)
  ops : List String
  objects : List (String × Object)
  current : Int

/-- First loop of `normalize` in `float64`: `dist < 0` rejects a negative
weight and lets a NaN pass, `total += dist` rounds. The entries are in the
order this loop visits them. -/
def sumWeights64 : List (String × F64) → F64 → Except GenError F64
  | [], total => .ok total
  | (op, dist) :: rest, total =>
    if F64.lt dist (.fin 0) then .error (.negativeDistribution op)
    else sumWeights64 rest (F64.add total dist)

/-- The method `normalize` in `float64`: `total == 0` is false of a NaN and of
an infinity. -/
def normalize64 (m : MixedDistribution64) : Except GenError MixedDistribution64 :=
  match sumWeights64 m.Distribution (.fin 0) with
  | .error e => .error e
  | .ok total =>
    if total = .fin 0 then .error .totalIsZero
    else .ok { m with Distribution := m.Distribution.map (fun e => (e.1, F64.div e.2 total)) }

/-- Number of slots `add := int(0.5 + dist*genOps)` in `float64`; `genOps` is
the constant 1000 converted to `float64`. -/
def slotsFor64 (t : Target) (dist : F64) : Int :=
  goInt64 t (if t.fused then F64.fma dist (.fin 1000) (.fin (1 / 2))
    else F64.add (.fin (1 / 2)) (F64.mul dist (.fin 1000)))

/-- The loop of `Generate` that fills `m.ops`, on `float64` weights. A count
that is not positive appends nothing. -/
def materialize64 (t : Target) : List (String × F64) → List String
  | [] => []
  | (op, dist) :: rest => List.replicate (slotsFor64 t dist).toNat op ++ materialize64 t rest

/-- The method `Generate` in `float64`. The loop that fills `m.ops` visits the
map in an order of its own, `order`, which need not be that of the loops of
`normalize`. -/
def Generate64 (sh order : Shuffle) (t : Target) (m : MixedDistribution64) (allocObjs : Int) :
    Except GenError MixedDistribution64 :=
  if F64.lt (weight64 m.Distribution "PUT") (weight64 m.Distribution "DELETE") then
    .error .deleteBiggerThanPut
  else
    match normalize64 { m with objects := [] } with
    | .error e => .error e
    | .ok m2 => .ok { m2 with ops := sh.apply (materialize64 t (order.apply m2.Distribution)) }

/-- The method `getOp` on the state with `float64` weights. -/
def getOp64 (m : MixedDistribution64) : Option (String × MixedDistribution64) :=
  if m.current < 0 then none
  else
    match m.ops[m.current.toNat]? with
    | none => none
    | some op => some (op, { m with current := Int.tmod (m.current + 1) m.ops.length })

/-- Successive `getOp` calls on the state with `float64` weights. -/
def getOps64 : MixedDistribution64 → Nat → Option (List String × MixedDistribution64)
  | m, 0 => some ([], m)
  | m, j + 1 =>
    match getOp64 m with
    | none => none
    | some (op, m1) =>
      match getOps64 m1 j with
      | none => none
      | some (ops, m2) => some (op :: ops, m2)

/-- The exact total of the weights of a distribution. -/
def exactTotal (d : List (String × F64)) : ℚ := (d.map (fun e => e.2.toRat)).sum

/-- The order of the entries as they are. -/
def sameOrder : Shuffle := ⟨fun _ => Equiv.refl _⟩

/-- An implementation that rounds the product before the sum and converts
what `int` cannot represent to the smallest `int`, as the compiler does for
amd64. -/
def amd64 : Target := { fused := false, undef := fun _ => -(2 ^ 63) }

/-- Three operation types of equal weight, as `float64` values. -/
def threeWay64 : MixedDistribution64 :=
  { Distribution := [("PUT", .fin 1), ("GET", .fin 1), ("STAT", .fin 1)], ops := [],
    objects := [], current := 0 }

/-- Two weights of `2^1023` each: their sum is beyond the largest `float64`. -/
def twoHuge : MixedDistribution64 :=
  { Distribution := [("PUT", .fin (2 ^ 1023)), ("GET", .fin (2 ^ 1023))], ops := [],
    objects := [], current := 0 }

/-- The map `{GET: 201, PUT: 199}` as `float64` values. -/
def get201put199 : MixedDistribution64 :=
  { Distribution := [("GET", .fin 201), ("PUT", .fin 199)], ops := [], objects := [],
    current := 0 }

/-- The four operation types with the weights 45, 30, 15 and 10, as `float64`
values. -/
def fourTypes64 : MixedDistribution64 :=
  { Distribution := [("GET", .fin 45), ("STAT", .fin 30), ("PUT", .fin 15), ("DELETE", .fin 10)],
    ops := [], objects := [], current := 0 }

/-! ## pkg/bench: the worker iterations of Prepare and Start -/

/-- Modelled from the spec: the struct `Operation` is declared outside the
files at hand. These are the fields the composite literals of `Start` set,
and `Err`, empty for success; the time stamps are left out. -/
structure Operation where
  OpType : String
  Thread : Nat
  Size : Int
  File : String
  ObjPerOp : Int
  Endpoint : String
  Err : String
deriving DecidableEq, Repr

/-- What a worker iteration does to its surroundings: `g.Client()` hands out
a client, the release function `cldone()` returns it, `rcv <- op` sends a
record to the collector. -/
inductive Event where
  | acquire
  | release
  | send (op : Operation)
deriving DecidableEq, Repr

/-- What one iteration gets from outside: the entry the pool's range loop
yields first; the size drawn by `getSize` and the name stored by `setName`;
the endpoint of the client; the error of the storage call (`GetObject`,
`PutObject`, `RemoveObject` or `StatObject`) as the text `err.Error()`, `none`
for nil; the number `n` of bytes written by `PutObject`, copied by `io.Copy`,
or reported by `StatObject`; the error of `io.Copy`. -/
structure Outcome where
  first : Nat
  size : Int
  name : String
  endpoint : String
  err : Option String
  n : Int
  copyErr : Option String
deriving DecidableEq, Repr

/-- The text `fmt.Sprint("unexpected download size. want:", want, ", got:", got)`. -/
def downloadSizeMsg (want got : Int) : String :=
  "unexpected download size. want:" ++ toString want ++ ", got:" ++ toString got

/-- The text `fmt.Sprint("short upload. want:", want, ", got:", got)`. -/
def shortUploadMsg (want got : Int) : String :=
  "short upload. want:" ++ toString want ++ ", got:" ++ toString got

/-- The text `fmt.Sprint("unexpected stat size. want:", want, ", got:", got)`. -/
def statSizeMsg (want got : Int) : String :=
  "unexpected stat size. want:" ++ toString want ++ ", got:" ++ toString got

/-- How a worker iteration ends: it runs to its end, or it panics; either way
with the events so far. -/
inductive IterResult where
  | finished (events : List Event) (m : MixedDistribution)
      (src : circularPartialCompressibleSrc)
  | panicked (events : List Event)

/-- The events of an iteration. -/
def IterResult.events : IterResult → List Event
  | .finished events _ _ => events
  | .panicked events => events

/-- The object pool after an iteration that ran to its end. -/
def IterResult.pool : IterResult → Option (List (String × Object))
  | .finished _ m _ => some m.objects
  | .panicked _ => none

/-- The assignment `op.Err = err.Error()` under `if err != nil`. -/
def setErr (op : Operation) (err : Option String) : Operation :=
  match err with
  | some e => { op with Err := e }
  | none => op

/-- The literal `Operation{...}` of the four branches of `Start`, for worker
`i`; `Thread` is `uint16(i)`. -/
def newOp (operation : String) (i : Nat) (size : Int) (file endpoint : String) : Operation :=
  { OpType := operation, Thread := i % 65536, Size := size, File := file, ObjPerOp := 1,
    Endpoint := endpoint, Err := "" }

/-- The record the GET branch sends for the picked object `obj`: after a
failed `GetObject`, or after the copy of the body. -/
def getRecord (i : Nat) (obj : Object) (x : Outcome) : Operation :=
  let op := newOp "GET" i obj.Size obj.Name x.endpoint
  match x.err with
  | some e => { op with Err := e }
  | none =>
    let op1 := setErr op x.copyErr
    if x.n ≠ obj.Size ∧ op1.Err = "" then { op1 with Err := downloadSizeMsg obj.Size x.n }
    else op1

/-- The record the PUT branch sends for the generated object `obj`. -/
def putRecord (i : Nat) (obj : Object) (x : Outcome) : Operation :=
  let op1 := setErr (newOp "PUT" i obj.Size obj.Name x.endpoint) x.err
  if x.n ≠ obj.Size then
    if op1.Err = "" then { op1 with Err := shortUploadMsg obj.Size x.n } else op1
  else op1

/-- The record the DELETE branch sends for the popped object `obj`. -/
def deleteRecord (i : Nat) (obj : Object) (x : Outcome) : Operation :=
  setErr (newOp "DELETE" i 0 obj.Name x.endpoint) x.err

/-- The record the STAT branch sends for the picked object `obj`. -/
def statRecord (i : Nat) (obj : Object) (x : Outcome) : Operation :=
  let op1 := setErr (newOp "STAT" i 0 obj.Name x.endpoint) x.err
  if x.n ≠ obj.Size ∧ op1.Err = "" then { op1 with Err := statSizeMsg obj.Size x.n }
  else op1

/-- One pass through the body of the worker loop of `Start`, when the context
is not done, for worker `i`. In GET and STAT the client is acquired after the
object is picked and released after the record is sent; in PUT and DELETE it is
released before the record is sent; in DELETE it is acquired before the object
is popped. PUT registers `*obj` as `Object` returned it; what the upload has
read from its reader is not tracked. -/
def startIteration (i : Nat) (m : MixedDistribution) (src : circularPartialCompressibleSrc)
    (x : Outcome) : IterResult :=
  match getOp m with
  | none => .panicked []
  | some (operation, m1) =>
    if operation = "GET" then
      match randomObj m1 x.first with
      | none => .panicked []
      | some (obj, m2) => .finished [.acquire, .send (getRecord i obj x), .release] m2 src
    else if operation = "PUT" then
      match src.Object x.size x.name with
      | none => .panicked []
      | some (obj, src1) =>
        let op := putRecord i obj x
        let m2 := if op.Err = "" then addObj m1 obj else m1
        .finished [.acquire, .release, .send op] m2 src1
    else if operation = "DELETE" then
      match deleteRandomObj m1 x.first with
      | none => .panicked [.acquire]
      | some (obj, m2) => .finished [.acquire, .release, .send (deleteRecord i obj x)] m2 src
    else if operation = "STAT" then
      match randomObj m1 x.first with
      | none => .panicked []
      | some (obj, m2) => .finished [.acquire, .send (statRecord i obj x), .release] m2 src
    else .finished [] m1 src

/-- What one pass through the body of the worker loop of `Prepare` leaves: the
events, the states, and the error with which the worker returns, if any. -/
structure PrepareResult where
  events : List Event
  m : MixedDistribution
  src : circularPartialCompressibleSrc
  err : Option String

/-- One pass through the body of the worker loop of `Prepare`, when the
context is not done. `obj` points into the source, so `obj.Reader = nil` clears
the reader there too. `none` is the panic of `Object`. -/
def prepareIteration (m : MixedDistribution) (src : circularPartialCompressibleSrc)
    (x : Outcome) : Option PrepareResult :=
  match src.Object x.size x.name with
  | none => none
  | some (obj, src1) =>
    match x.err with
    | some e =>
      some { events := [.acquire], m := m, src := src1, err := some ("upload error: " ++ e) }
    | none =>
      if x.n ≠ obj.Size then
        some { events := [.acquire], m := m, src := src1,
               err := some ("short upload. want: " ++ toString obj.Size ++ ", got " ++
                 toString x.n) }
      else
        some { events := [.acquire, .release],
               m := addObj m { obj with Reader := none },
               src := { src1 with obj := { obj with Reader := none } },
               err := none }

/-- The records sent to the collector. -/
def sent : List Event → List Operation
  | [] => []
  | .send op :: rest => op :: sent rest
  | _ :: rest => sent rest

/-- The number of clients handed out. -/
def acquired (events : List Event) : Nat := events.count .acquire

/-- The number of clients returned. -/
def released (events : List Event) : Nat := events.count .release

/-- The size the object was declared with: the drawn size for PUT, the size of
the object picked from the pool otherwise. -/
def declaredSize (operation : String) (m1 : MixedDistribution) (x : Outcome) : Int :=
  if operation = "PUT" then x.size
  else
    match randomObj m1 x.first with
    | some (obj, _) => obj.Size
    | none => 0

/-- The storage call, or the body copy for GET, returned an error, or a size
mismatch was detected: bytes read for GET, bytes written for PUT, reported size
for STAT, against the declared size. This follows the description, not the
code. -/
def opFailed (operation : String) (x : Outcome) (declared : Int) : Prop :=
  if operation = "GET" then x.err ≠ none ∨ x.copyErr ≠ none ∨ x.n ≠ declared
  else if operation = "PUT" ∨ operation = "STAT" then x.err ≠ none ∨ x.n ≠ declared
  else x.err ≠ none

/-- The upload returned no error and wrote exactly the declared number of
bytes. -/
def uploadOk (x : Outcome) : Prop := x.err = none ∧ x.n = x.size

instance (x : Outcome) : Decidable (uploadOk x) := inferInstanceAs (Decidable (_ ∧ _))

/-- Every error handed in from outside has a non-empty text. -/
def ErrorsHaveText (x : Outcome) : Prop :=
  (∀ e, x.err = some e → e ≠ "") ∧ (∀ e, x.copyErr = some e → e ≠ "")

instance (x : Outcome) : Decidable (ErrorsHaveText x) :=
  decidable_of_iff (x.err ≠ some "" ∧ x.copyErr ≠ some "")
    ⟨fun h => ⟨fun e he hemp => h.1 (by rw [he, hemp]), fun e he hemp => h.2 (by rw [he, hemp])⟩,
     fun h => ⟨fun he => h.1 "" he rfl, fun he => h.2 "" he rfl⟩⟩

/-- A step of a run: an iteration of a `Prepare` worker, or of worker `i` of
`Start`. -/
inductive Step where
  | prepare (x : Outcome)
  | start (i : Nat) (x : Outcome)
deriving DecidableEq, Repr

/-- The outcome handed to a step. -/
def Step.outcome : Step → Outcome
  | .prepare x => x
  | .start _ x => x

/-- The state of a run, with the names of the objects whose upload returned no
error and wrote the declared number of bytes so far. -/
structure RunState where
  m : MixedDistribution
  src : circularPartialCompressibleSrc
  uploaded : List String

/-- One step of a run; `none` when the iteration panics. -/
def runStep (st : RunState) : Step → Option RunState
  | .prepare x =>
    match prepareIteration st.m st.src x with
    | none => none
    | some r =>
      some { m := r.m, src := r.src,
             uploaded := if uploadOk x then x.name :: st.uploaded else st.uploaded }
  | .start i x =>
    match startIteration i st.m st.src x with
    | .panicked _ => none
    | .finished _ m2 src2 =>
      some { m := m2, src := src2,
             uploaded :=
               if (getOp st.m).map Prod.fst = some "PUT" ∧ uploadOk x then
                 x.name :: st.uploaded
               else st.uploaded }

/-- A run: steps one after the other, as the pool lock orders them. -/
def run : RunState → List Step → Option RunState
  | st, [] => some st
  | st, s :: rest =>
    match runStep st s with
    | none => none
    | some st2 => run st2 rest

/-- A sequence holding the single slot PUT, the pool empty. -/
def putOnly : MixedDistribution :=
  { Distribution := [], ops := ["PUT"], objects := [], current := 0 }

/-- A source over three bytes. -/
def srcABC : circularPartialCompressibleSrc :=
  { buf := [10, 20, 30],
    obj := { Reader := none, Name := "", ContentType := "application/octet-stream", Size := 0 },
    pos := 0 }

/-- An upload of two bytes that succeeds. -/
def uploadTwo : Outcome :=
  { first := 0, size := 2, name := "x.crnd", endpoint := "http://host", err := none, n := 2,
    copyErr := none }

/-- An upload of two bytes that returns an error. -/
def uploadFails : Outcome :=
  { first := 0, size := 2, name := "x.crnd", endpoint := "http://host",
    err := some "connection refused", n := 0, copyErr := none }

/-- An upload of two bytes that writes one. -/
def uploadShort : Outcome :=
  { first := 0, size := 2, name := "x.crnd", endpoint := "http://host", err := none, n := 1,
    copyErr := none }

/-- An upload of two bytes that writes both and returns an error whose text
`err.Error()` is the empty string, as `errors.New("")` has. -/
def uploadEmptyErr : Outcome :=
  { first := 0, size := 2, name := "x.crnd", endpoint := "http://host", err := some "", n := 2,
    copyErr := none }

/-- A run of three steps: an upload in `Prepare`, then two PUT iterations of
`Start`, the first failing and the second writing too little. -/
def threeSteps : List Step :=
  [.prepare uploadTwo, .start 0 uploadFails, .start 1 uploadShort]

/-- The state a run starts in: the pool empty, nothing uploaded. -/
def freshRun : RunState :=
  { m := putOnly, src := srcABC, uploaded := [] }

end Bench

/-! # Properties -/

theorem wrap64_of_fits (x : Int) (h1 : -(2 ^ 63) ≤ x) (h2 : x < 2 ^ 63) : wrap64 x = x := by
  unfold wrap64
  omega

namespace Generator

/-! ## Reading -/

theorem circularBytes_zero (B : List Nat) (start : Nat) : circularBytes B start 0 = [] := by
  simp [circularBytes]

theorem circularBytes_succ (B : List Nat) (start n : Nat) :
    circularBytes B start (n + 1) =
      B.getD (start % B.length) 0 :: circularBytes B (start + 1) n := by
  simp only [circularBytes, List.range_succ_eq_map, List.map_cons, List.map_map,
    Nat.add_zero]
  congr 1
  apply List.map_congr_left
  intro i _
  simp only [Function.comp_apply]
  congr 2
  omega

theorem circularBytes_append (B : List Nat) (start a b : Nat) :
    circularBytes B start (a + b) = circularBytes B start a ++ circularBytes B (start + a) b := by
  induction a generalizing start with
  | zero => simp [circularBytes_zero]
  | succ a ih =>
    rw [show a + 1 + b = (a + b) + 1 by omega, circularBytes_succ, circularBytes_succ, ih]
    simp only [List.cons_append]
    congr 3
    omega

theorem length_circularBytes (B : List Nat) (start n : Nat) :
    (circularBytes B start n).length = n := by
  simp [circularBytes]

/-- The copy loop from a position inside the `int64` range. -/
theorem readLoop_eq (B : List Nat) (hB : B ≠ []) (n pos : Nat)
    (h : (pos : Int) + n < 2 ^ 63) :
    readLoop B n pos = some (circularBytes B pos n, ((pos + n : Nat) : Int)) := by
  induction n generalizing pos with
  | zero => simp [readLoop, circularBytes_zero]
  | succ n ih =>
    have hlen : B.length ≠ 0 := fun h0 => hB (List.length_eq_zero.mp h0)
    have hlt : pos % B.length < B.length := Nat.mod_lt _ (Nat.pos_of_ne_zero hlen)
    have hidx : Int.tmod (pos : Int) (B.length : Int) = ((pos % B.length : Nat) : Int) :=
      (Int.ofNat_tmod pos B.length).symm
    have hw : wrap64 ((pos : Int) + 1) = ((pos + 1 : Nat) : Int) := by
      rw [wrap64_of_fits] <;> push_cast <;> omega
    have hnext := ih (pos + 1) (by push_cast at h ⊢; omega)
    rw [readLoop]
    simp only [hlen, if_false, hidx, hw, hnext]
    have hnn : ¬ ((pos % B.length : Nat) : Int) < 0 := by omega
    simp only [hnn, if_false, Int.toNat_ofNat, List.getElem?_eq_getElem hlt]
    rw [circularBytes_succ, List.getD_eq_getElem _ _ hlt]
    have hadd : pos + 1 + n = pos + (n + 1) := by omega
    rw [hadd]

/-- One `Read` call on a reader that has delivered `k` of its `s` bytes. -/
theorem Read_readerAfter (B : List Nat) (hB : B ≠ []) (p s k lenP : Nat) (hk : k ≤ s)
    (hfit : (p : Int) + s < 2 ^ 63) :
    (readerAfter B p s k).Read lenP = some
      { data := circularBytes B (p + k) (min lenP (s - k)),
        n := (min lenP (s - k) : Nat),
        err := if k = s then some .EOF else none,
        cr := readerAfter B p s (k + min lenP (s - k)) } := by
  unfold circularCompressibleReader.Read
  by_cases hks : k = s
  · subst hks
    simp [readerAfter, circularBytes_zero]
  · have hlt : k < s := lt_of_le_of_ne hk hks
    have hrem : ¬ ((readerAfter B p s k).remain ≤ 0) := by
      simp only [readerAfter]; omega
    simp only [hrem, if_false, hks]
    have hn : (if (lenP : Int) > (readerAfter B p s k).remain
        then (readerAfter B p s k).remain.toNat else lenP) = min lenP (s - k) := by
      simp only [readerAfter]
      split_ifs with hc <;> omega
    rw [hn]
    have hpos : (readerAfter B p s k).pos = ((p + k : Nat) : Int) := by
      simp [readerAfter]
    have hbuf : (readerAfter B p s k).buf = B := rfl
    rw [hpos, hbuf, readLoop_eq B hB (min lenP (s - k)) (p + k) (by push_cast; omega)]
    simp only [readerAfter, Option.some.injEq, ReadResult.mk.injEq,
      circularCompressibleReader.mk.injEq, true_and, and_true, if_false]
    constructor <;> push_cast <;> omega

/-- A run of `Read` calls delivers the object's bytes in order and stops at its
declared size. -/
theorem readSeq_readerAfter (B : List Nat) (hB : B ≠ []) (p s : Nat)
    (hfit : (p : Int) + s < 2 ^ 63) (ns : List Nat) (k : Nat) (hk : k ≤ s) :
    readSeq (readerAfter B p s k) ns = some
      (circularBytes B (p + k) (min ns.sum (s - k)),
       readerAfter B p s (k + min ns.sum (s - k))) := by
  induction ns generalizing k with
  | nil => simp [readSeq, circularBytes_zero]
  | cons n ns ih =>
    rw [readSeq, Read_readerAfter B hB p s k n hk hfit]
    simp only
    rw [ih (k + min n (s - k)) (by omega)]
    simp only [Option.some.injEq, Prod.mk.injEq, List.sum_cons]
    have hsplit : min (n + ns.sum) (s - k) =
        min n (s - k) + min ns.sum (s - (k + min n (s - k))) := by omega
    constructor
    · rw [hsplit, circularBytes_append]
      congr 2
      omega
    · congr 1
      omega

/-- C4: a reader over a non-empty buffer `B`, created at position `p` for `s`
bytes (the literal built by `Object`), answers every `Read` with
`min(len(dest), remaining)` bytes, the next ones of the circular repetition of
`B` from `p`, without error while bytes remain, and with 0 bytes and
end-of-stream exactly when none remain; so every run of reads with non-empty
destinations delivers `B[(p+i) mod len(B)]` for `i` up to the bytes asked for,
never beyond `s`, and all `s` once `s` calls have been made. -/
theorem Read_delivers_declared_size (B : List Nat) (p s : Nat) (hB : B ≠ [])
    (hfit : (p : Int) + s < 2 ^ 63) :
    readerAfter B p s 0 =
      { buf := B, pos := p, end_ := wrap64 ((p : Int) + s), remain := s } ∧
    (∀ k lenP : Nat, k ≤ s →
      (readerAfter B p s k).Read lenP = some
        { data := circularBytes B (p + k) (min lenP (s - k)),
          n := (min lenP (s - k) : Nat),
          err := if k = s then some .EOF else none,
          cr := readerAfter B p s (k + min lenP (s - k)) }) ∧
    (∀ ns : List Nat, (∀ n ∈ ns, 0 < n) →
      readSeq (readerAfter B p s 0) ns = some
        (circularBytes B p (min ns.sum s), readerAfter B p s (min ns.sum s)) ∧
      (s ≤ ns.length → min ns.sum s = s)) := by
  refine ⟨?_, ?_, ?_⟩
  · rw [wrap64_of_fits _ (by omega) hfit]
    simp [readerAfter]
  · intro k lenP hk
    exact Read_readerAfter B hB p s k lenP hk hfit
  · intro ns hpos
    constructor
    · have h := readSeq_readerAfter B hB p s hfit ns 0 (Nat.zero_le _)
      simpa using h
    · intro hlen
      have hsum : ns.length ≤ ns.sum := by
        clear hlen
        induction ns with
        | nil => simp
        | cons n ns ih =>
          have h1 := hpos n (by simp)
          have h2 := ih (fun x hx => hpos x (List.mem_cons_of_mem _ hx))
          simp only [List.length_cons, List.sum_cons]
          omega
      omega

/-- Witness for C4: a 7-byte object from position 1 of a 3-byte buffer, read
three bytes at a time. -/
theorem Read_delivers_declared_size_witness :
    readSeq (readerAfter [10, 20, 30] 1 7 0) [3, 3, 3] =
      some ([20, 30, 10, 20, 30, 10, 20], readerAfter [10, 20, 30] 1 7 7) ∧
    (readerAfter [10, 20, 30] 1 7 7).Read 3 = some
      { data := [], n := 0, err := some .EOF, cr := readerAfter [10, 20, 30] 1 7 7 } :=
  ⟨((Read_delivers_declared_size [10, 20, 30] 1 7 (by decide) (by decide)).2.2 [3, 3, 3]
      (by decide)).1,
   (Read_delivers_declared_size [10, 20, 30] 1 7 (by decide) (by decide)).2.1 7 3
      (by decide)⟩

/-! ## Seeking -/

/-- C5 (the code at failing inputs), on a 3-byte object over `[10, 20, 30]`
from position 0. `Seek(1, SeekStart)` on the fresh reader returns 1 without
error, and the reads that follow deliver `[10, 20]`, the first two bytes, not
the bytes `[20, 30]` from offset 1 onward. After all three bytes were read,
`Seek(0, SeekStart)` returns 0 without error and the next read delivers
nothing. After two bytes were read, `Seek(2, SeekStart)` returns 1 and
end-of-stream. `Seek` never moves `pos`. -/
theorem Seek_does_not_reposition :
    (readerAfter [10, 20, 30] 0 3 0).Seek 1 SeekStart =
      (1, none, { buf := [10, 20, 30], pos := 0, end_ := 3, remain := 2 }) ∧
    readSeq ((readerAfter [10, 20, 30] 0 3 0).Seek 1 SeekStart).2.2 [3, 3] =
      some ([10, 20], { buf := [10, 20, 30], pos := 2, end_ := 3, remain := 0 }) ∧
    circularBytes [10, 20, 30] (0 + 1) (3 - 1) = [20, 30] ∧
    (readerAfter [10, 20, 30] 0 3 3).Seek 0 SeekStart =
      (0, none, { buf := [10, 20, 30], pos := 3, end_ := 3, remain := 0 }) ∧
    readSeq ((readerAfter [10, 20, 30] 0 3 3).Seek 0 SeekStart).2.2 [3] =
      some ([], { buf := [10, 20, 30], pos := 3, end_ := 3, remain := 0 }) ∧
    (readerAfter [10, 20, 30] 0 3 2).Seek 2 SeekStart =
      (1, some .EOF, { buf := [10, 20, 30], pos := 2, end_ := 3, remain := 0 }) := by
  decide

/-- The offset `abs` that `Seek` computes on a reader that has delivered `k` of
its `s` bytes: `offset` itself from the start and from the current position,
and `remain + offset` from the end. -/
theorem seekAbs_readerAfter (B : List Nat) (p s k : Nat) (offset whence : Int)
    (hk : k ≤ s) (hfit : (p : Int) + s < 2 ^ 63)
    (hoff : -(2 ^ 63) ≤ offset ∧ offset < 2 ^ 63) :
    (readerAfter B p s k).seekAbs offset whence =
      if whence = SeekStart ∨ whence = SeekCurrent then some offset
      else if whence = SeekEnd then some (wrap64 ((s : Int) - k + offset))
      else none := by
  have h1 : wrap64 ((p : Int) + k - (p + s)) = (k : Int) - s := by
    rw [wrap64_of_fits] <;> omega
  have h2 : wrap64 ((k : Int) - s + (s - k)) = 0 := by
    rw [wrap64_of_fits] <;> omega
  have h3 : wrap64 (0 + offset) = offset := by
    rw [wrap64_of_fits] <;> omega
  simp only [circularCompressibleReader.seekAbs, readerAfter, h1, h2, h3]
  by_cases hs : whence = SeekStart
  · simp [hs]
  · by_cases hc : whence = SeekCurrent
    · simp [hs, hc]
    · simp [hs, hc]

/-- What `Seek` does with the offset `a` it has computed. -/
theorem Seek_of_seekAbs (B : List Nat) (p s k : Nat) (offset whence a : Int)
    (hk : k ≤ s) (hfit : (p : Int) + s < 2 ^ 63)
    (ha : (readerAfter B p s k).seekAbs offset whence = some a) :
    (readerAfter B p s k).Seek offset whence =
      if a < 0 then (0, some (.negativePosition a), readerAfter B p s k)
      else if a > (s : Int) - k then
        ((s : Int) - k, some .EOF, { readerAfter B p s k with remain := 0 })
      else (a, none, { readerAfter B p s k with remain := (s : Int) - k - a }) := by
  have h4 : wrap64 ((p : Int) + s - (p + k)) = (s : Int) - k := by
    rw [wrap64_of_fits] <;> omega
  have h4b : wrap64 ((readerAfter B p s k).end_ - (readerAfter B p s k).pos) = (s : Int) - k := by
    simpa [readerAfter] using h4
  unfold circularCompressibleReader.Seek
  rw [ha]
  simp only [h4b]
  by_cases hneg : a < 0
  · simp [hneg]
  · by_cases hbig : a > (s : Int) - k
    · simp [hneg, hbig]
    · have hsub : wrap64 ((s : Int) - k - a) = s - k - a := by
        rw [wrap64_of_fits] <;> omega
      simp [hneg, hbig, hsub]

/-- C6: on a reader that has delivered `k` of its `s` bytes. A seek whose
target is negative returns an error and leaves the reader as it was; a seek
whose target lies beyond `s` returns end-of-stream and sets `remain` to 0,
after which every `Read` returns 0 bytes and end-of-stream; a seek with a
`whence` other than the three origins returns an error and leaves the reader as
it was. The first two hold for the target read as the offset `abs` that `Seek`
computes, and for the target counted from the start of the object
(`seekTarget`); there, from the end, `s + offset` is taken to be an `int64`. -/
theorem Seek_negative_beyond_unknown (B : List Nat) (p s k : Nat) (offset whence : Int)
    (hk : k ≤ s) (hfit : (p : Int) + s < 2 ^ 63)
    (hoff : -(2 ^ 63) ≤ offset ∧ offset < 2 ^ 63) :
    (∀ a, (readerAfter B p s k).seekAbs offset whence = some a → a < 0 →
      (readerAfter B p s k).Seek offset whence =
        (0, some (.negativePosition a), readerAfter B p s k)) ∧
    (∀ a, (readerAfter B p s k).seekAbs offset whence = some a → (s : Int) < a →
      (readerAfter B p s k).Seek offset whence =
        ((s : Int) - k, some .EOF, { readerAfter B p s k with remain := 0 })) ∧
    ((whence = SeekStart ∨ whence = SeekCurrent ∨ whence = SeekEnd) →
      seekTarget whence offset k s < 0 →
      ∃ a, (readerAfter B p s k).Seek offset whence =
        (0, some (.negativePosition a), readerAfter B p s k)) ∧
    ((whence = SeekStart ∨ whence = SeekCurrent ∨ whence = SeekEnd) →
      (s : Int) < seekTarget whence offset k s →
      (whence = SeekEnd → seekTarget whence offset k s < 2 ^ 63) →
      (readerAfter B p s k).Seek offset whence =
        ((s : Int) - k, some .EOF, { readerAfter B p s k with remain := 0 })) ∧
    (∀ lenP : Nat,
      circularCompressibleReader.Read { readerAfter B p s k with remain := 0 } lenP =
        some { data := [], n := 0, err := some .EOF,
               cr := { readerAfter B p s k with remain := 0 } }) ∧
    (¬ (whence = SeekStart ∨ whence = SeekCurrent ∨ whence = SeekEnd) →
      (readerAfter B p s k).Seek offset whence =
        (0, some (.invalidWhence whence), readerAfter B p s k)) := by
  have habs := seekAbs_readerAfter B p s k offset whence hk hfit hoff
  refine ⟨?_, ?_, ?_, ?_, ?_, ?_⟩
  · intro a ha hneg
    rw [Seek_of_seekAbs B p s k offset whence a hk hfit ha, if_pos hneg]
  · intro a ha hbig
    have h1 : ¬ a < 0 := by omega
    have h2 : a > (s : Int) - k := by omega
    rw [Seek_of_seekAbs B p s k offset whence a hk hfit ha, if_neg h1, if_pos h2]
  · intro hw hT
    rcases hw with hw | hw | hw
    · subst hw
      have ha : (readerAfter B p s k).seekAbs offset SeekStart = some offset := by
        rw [habs]; simp
      have hneg : offset < 0 := by simpa [seekTarget] using hT
      exact ⟨offset, by rw [Seek_of_seekAbs B p s k offset _ offset hk hfit ha, if_pos hneg]⟩
    · subst hw
      have ha : (readerAfter B p s k).seekAbs offset SeekCurrent = some offset := by
        rw [habs]; simp
      have hneg : offset < 0 := by
        simp [seekTarget, SeekStart, SeekCurrent] at hT
        omega
      exact ⟨offset, by rw [Seek_of_seekAbs B p s k offset _ offset hk hfit ha, if_pos hneg]⟩
    · subst hw
      simp [seekTarget, SeekStart, SeekCurrent, SeekEnd] at hT
      have hwr : wrap64 ((s : Int) - k + offset) = (s : Int) - k + offset := by
        rw [wrap64_of_fits] <;> omega
      have ha : (readerAfter B p s k).seekAbs offset SeekEnd =
          some ((s : Int) - k + offset) := by
        rw [habs, hwr]; simp [SeekStart, SeekCurrent, SeekEnd]
      have hneg : (s : Int) - k + offset < 0 := by omega
      exact ⟨_, by rw [Seek_of_seekAbs B p s k offset _ _ hk hfit ha, if_pos hneg]⟩
  · intro hw hT hrep
    rcases hw with hw | hw | hw
    · subst hw
      have ha : (readerAfter B p s k).seekAbs offset SeekStart = some offset := by
        rw [habs]; simp
      have hT2 : (s : Int) < offset := by simpa [seekTarget] using hT
      have h1 : ¬ offset < 0 := by omega
      have h2 : offset > (s : Int) - k := by omega
      rw [Seek_of_seekAbs B p s k offset _ offset hk hfit ha, if_neg h1, if_pos h2]
    · subst hw
      have ha : (readerAfter B p s k).seekAbs offset SeekCurrent = some offset := by
        rw [habs]; simp
      have hT2 : (s : Int) < k + offset := by
        simpa [seekTarget, SeekStart, SeekCurrent] using hT
      have h1 : ¬ offset < 0 := by omega
      have h2 : offset > (s : Int) - k := by omega
      rw [Seek_of_seekAbs B p s k offset _ offset hk hfit ha, if_neg h1, if_pos h2]
    · have hrep := hrep hw
      subst hw
      simp [seekTarget, SeekStart, SeekCurrent, SeekEnd] at hT hrep
      have hwr : wrap64 ((s : Int) - k + offset) = (s : Int) - k + offset := by
        rw [wrap64_of_fits] <;> omega
      have ha : (readerAfter B p s k).seekAbs offset SeekEnd =
          some ((s : Int) - k + offset) := by
        rw [habs, hwr]; simp [SeekStart, SeekCurrent, SeekEnd]
      have h1 : ¬ (s : Int) - k + offset < 0 := by omega
      have h2 : (s : Int) - k + offset > (s : Int) - k := by omega
      rw [Seek_of_seekAbs B p s k offset _ _ hk hfit ha, if_neg h1, if_pos h2]
  · intro lenP
    simp [circularCompressibleReader.Read]
  · intro hw
    push_neg at hw
    simp [circularCompressibleReader.Seek, circularCompressibleReader.seekAbs, hw.1, hw.2.1,
      hw.2.2]

/-- Witness for C6: after one of three bytes, seeking 5 back from the current
position is refused and seeking 1 past the end gives end-of-stream. -/
theorem Seek_negative_beyond_unknown_witness :
    (∃ a, (readerAfter [10, 20, 30] 0 3 1).Seek (-5) SeekCurrent =
      (0, some (.negativePosition a), readerAfter [10, 20, 30] 0 3 1)) ∧
    (readerAfter [10, 20, 30] 0 3 1).Seek 1 SeekEnd =
      (((3 : Nat) : Int) - ((1 : Nat) : Int), some .EOF,
        { readerAfter [10, 20, 30] 0 3 1 with remain := 0 }) :=
  ⟨(Seek_negative_beyond_unknown [10, 20, 30] 0 3 1 (-5) SeekCurrent (by decide) (by decide)
      (by decide)).2.2.1 (by decide) (by decide),
   (Seek_negative_beyond_unknown [10, 20, 30] 0 3 1 1 SeekEnd (by decide) (by decide)
      (by decide)).2.2.2.1 (by decide) (by decide) (by decide)⟩

/-- For C6, the one excluded case: from the end, an offset that takes the
target past the `int64` range wraps and is reported as a negative position. -/
theorem Seek_end_wraps :
    (readerAfter [10, 20, 30] 0 3 0).Seek (2 ^ 63 - 1) SeekEnd =
      (0, some (.negativePosition (-(2 ^ 63) + 2)), readerAfter [10, 20, 30] 0 3 0) := by
  decide

/-! ## Construction of the buffer -/

theorem zeroChunk_spec (n : Nat) : ∀ (buf : List Nat) (i : Nat), i + n ≤ buf.length →
    ∃ r, zeroChunk buf (i : Int) n = some r ∧ r.length = buf.length ∧
      ∀ j, r[j]? = if i ≤ j ∧ j < i + n then some 0 else buf[j]? := by
  induction n with
  | zero =>
    intro buf i _
    refine ⟨buf, by simp [zeroChunk], rfl, ?_⟩
    intro j
    have : ¬ (i ≤ j ∧ j < i) := by omega
    simp [this]
  | succ n ih =>
    intro buf i hi
    have hin : (0 : Int) ≤ (i : Int) ∧ (i : Int) < (buf.length : Int) := by omega
    obtain ⟨r, hr, hlen, hget⟩ := ih (buf.set i 0) (i + 1) (by simp; omega)
    refine ⟨r, ?_, by simpa using hlen, ?_⟩
    · rw [zeroChunk]
      simp only [hin, and_self, if_true, Int.toNat_ofNat]
      have hcast : ((i : Int) + 1) = ((i + 1 : Nat) : Int) := by push_cast; rfl
      rw [hcast, hr]
    · intro j
      rw [hget j, List.getElem?_set]
      by_cases hij : i = j
      · subst hij
        have h1 : ¬ (i + 1 ≤ i ∧ i < i + 1 + n) := by omega
        have h2 : i ≤ i ∧ i < i + (n + 1) := by omega
        have h3 : i < buf.length := by omega
        simp [h1, h2, h3]
      · by_cases hr2 : i + 1 ≤ j ∧ j < i + 1 + n
        · have h2 : i ≤ j ∧ j < i + (n + 1) := by omega
          simp [hr2, h2]
        · have h2 : ¬ (i ≤ j ∧ j < i + (n + 1)) := by omega
          simp [hr2, h2, hij]

/-- The chunk loop, entered at chunk `c` (offset `c * chunk`), finishes within
the fuel and zeroes, from there on, exactly the positions of `zeroedAt`. -/
theorem chunkLoop_spec (S C k : Nat) (hC : 0 < C) (hk : 0 < k) (fuel : Nat) :
    ∀ (c : Nat) (buf : List Nat), buf.length = S → S ≤ c * C + fuel →
    ∃ r, chunkLoop (S : Int) (C : Int) (k : Int) fuel ((c * C : Nat) : Int) (c : Int) buf
        = some r ∧ r.length = S ∧
      ∀ j, j < S → r[j]? = if c * C ≤ j ∧ zeroedAt S C k j then some 0 else buf[j]? := by
  induction fuel with
  | zero =>
    intro c buf hlen hfuel
    refine ⟨buf, ?_, hlen, ?_⟩
    · rw [chunkLoop]
      have : ¬ (((c * C : Nat) : Int) < (S : Int)) := by omega
      simp only [this, if_false]
    · intro j hj
      have : ¬ (c * C ≤ j ∧ zeroedAt S C k j) := by omega
      simp [this]
  | succ fuel ih =>
    intro c buf hlen hfuel
    by_cases hdone : S ≤ c * C
    · refine ⟨buf, ?_, hlen, ?_⟩
      · rw [chunkLoop]
        have : ¬ (((c * C : Nat) : Int) < (S : Int)) := by omega
        simp only [this, if_false]
      · intro j hj
        have : ¬ (c * C ≤ j ∧ zeroedAt S C k j) := by omega
        simp [this]
    · have hlt : ((c * C : Nat) : Int) < (S : Int) := by omega
      have hnext : (c + 1) * C = c * C + C := by ring
      have hk0 : ¬ ((k : Int) = 0) := by omega
      have hi : ((c * C : Nat) : Int) + (C : Int) = (((c + 1) * C : Nat) : Int) := by
        rw [hnext]; push_cast; rfl
      have hcc : (c : Int) + 1 = ((c + 1 : Nat) : Int) := by push_cast; rfl
      have hmod : Int.tmod ((c + 1 : Nat) : Int) (k : Int) = (((c + 1) % k : Nat) : Int) :=
        (Int.ofNat_tmod (c + 1) k).symm
      have hchunk : ∀ j, c * C ≤ j → j < (c + 1) * C → j / C = c := fun j h1 h2 =>
        Nat.div_eq_of_lt_le h1 h2
      have hfuel2 : S ≤ (c + 1) * C + fuel := by rw [hnext]; omega
      rw [chunkLoop]
      simp only [hlt, if_true, hk0, if_false, hi, hcc, hmod]
      by_cases hdiv : (c + 1) % k = 0
      · have hd : k ∣ c + 1 := Nat.dvd_of_mod_eq_zero hdiv
        have hz : ¬ ((((c + 1) % k : Nat) : Int) ≠ 0) := by omega
        simp only [hz, if_false]
        by_cases hover : (c + 1) * C > S
        · have ho : (((c + 1) * C : Nat) : Int) > (S : Int) := by omega
          simp only [ho, if_true]
          obtain ⟨r, hr, hrl, hget⟩ := ih (c + 1) buf hlen hfuel2
          refine ⟨r, hr, hrl, ?_⟩
          intro j hj
          rw [hget j hj]
          by_cases h1 : (c + 1) * C ≤ j
          · have h2 : c * C ≤ j := by omega
            simp [h1, h2]
          · by_cases h2 : c * C ≤ j
            · have hjc := hchunk j h2 (by omega)
              have hnz : ¬ zeroedAt S C k j := by
                rintro ⟨-, hb⟩
                rw [hjc] at hb
                omega
              simp [h1, hnz]
            · simp [h1, h2]
        · have ho : ¬ ((((c + 1) * C : Nat) : Int) > (S : Int)) := by omega
          simp only [ho, if_false]
          have hcnt : ((((c + 1) * C : Nat) : Int) - ((c * C : Nat) : Int)).toNat = C := by
            rw [hnext]; push_cast; omega
          rw [hcnt]
          obtain ⟨b2, hb2, hb2l, hb2g⟩ := zeroChunk_spec C buf (c * C) (by omega)
          rw [hb2]
          simp only
          obtain ⟨r, hr, hrl, hget⟩ := ih (c + 1) b2 (by omega) hfuel2
          refine ⟨r, hr, hrl, ?_⟩
          intro j hj
          rw [hget j hj, hb2g j]
          by_cases h1 : (c + 1) * C ≤ j
          · have h2 : c * C ≤ j := by omega
            have h3 : ¬ (j < c * C + C) := by omega
            simp [h1, h2, h3]
          · by_cases h2 : c * C ≤ j
            · have hjc := hchunk j h2 (by omega)
              have hzj : zeroedAt S C k j := by
                refine ⟨?_, ?_⟩
                · rw [hjc]; exact hd
                · rw [hjc]; omega
              have h3 : c * C ≤ j ∧ j < c * C + C := by omega
              simp [h1, h2, h3, hzj]
            · have h3 : ¬ (c * C ≤ j ∧ j < c * C + C) := by omega
              simp [h1, h2, h3]
      · have hz : (((c + 1) % k : Nat) : Int) ≠ 0 := by omega
        simp only [hz, if_true, ne_eq, not_false_eq_true]
        obtain ⟨r, hr, hrl, hget⟩ := ih (c + 1) buf hlen hfuel2
        refine ⟨r, hr, hrl, ?_⟩
        intro j hj
        rw [hget j hj]
        by_cases h1 : (c + 1) * C ≤ j
        · have h2 : c * C ≤ j := by omega
          simp [h1, h2]
        · by_cases h2 : c * C ≤ j
          · have hjc := hchunk j h2 (by omega)
            have hnz : ¬ zeroedAt S C k j := by
              rintro ⟨ha, -⟩
              rw [hjc] at ha
              exact hdiv (Nat.mod_eq_zero_of_dvd ha)
            simp [h1, hnz]
          · simp [h1, h2]

theorem count_zeroedAt_chunks (S C k : Nat) (hC : 0 < C) (c : Nat) (hc : c ≤ S / C) :
    Nat.count (zeroedAt S C k) (c * C) = c / k * C := by
  induction c with
  | zero => simp
  | succ c ih =>
    have hnext : (c + 1) * C = c * C + C := by ring
    have hin : (c + 1) * C ≤ S := (Nat.le_div_iff_mul_le hC).mp hc
    have hdivc : ∀ i, i < C → (c * C + i) / C = c := fun i hi =>
      Nat.div_eq_of_lt_le (by omega) (by omega)
    rw [hnext, Nat.count_add, ih (by omega), Nat.succ_div]
    by_cases hd : k ∣ c + 1
    · have hall : ∀ i < C, zeroedAt S C k (c * C + i) := by
        intro i hi
        refine ⟨?_, ?_⟩
        · rw [hdivc i hi]; exact hd
        · rw [hdivc i hi]; exact hin
      rw [Nat.count_of_forall hall]
      simp [hd, add_mul]
    · have hnone : ∀ i < C, ¬ zeroedAt S C k (c * C + i) := by
        rintro i hi ⟨ha, -⟩
        rw [hdivc i hi] at ha
        exact hd ha
      rw [Nat.count_of_forall_not hnone]
      simp [hd]

/-- The number of positions of `zeroedAt` in a buffer of `S` bytes. -/
theorem count_zeroedAt (S C k : Nat) (hC : 0 < C) :
    Nat.count (zeroedAt S C k) S = S / C / k * C := by
  have hS : S = S / C * C + S % C := by
    have := Nat.div_add_mod S C
    rw [Nat.mul_comm] at this
    omega
  have htail : ∀ i < S % C, ¬ zeroedAt S C k (S / C * C + i) := by
    rintro i hi ⟨-, hb⟩
    have hlt : S % C < C := Nat.mod_lt _ hC
    have hq : (S / C * C + i) / C = S / C := Nat.div_eq_of_lt_le (by omega) (by
      have : (S / C + 1) * C = S / C * C + C := by ring
      omega)
    rw [hq] at hb
    have : (S / C + 1) * C = S / C * C + C := by ring
    omega
  have hadd := Nat.count_add (zeroedAt S C k) (S / C * C) (S % C)
  rw [← hS, Nat.count_of_forall_not htail, count_zeroedAt_chunks S C k hC _ le_rfl] at hadd
  exact hadd

/-- C7: for a buffer of `S` bytes, chunks of `C` bytes with `0 < C < S`, and
`percentCompressible` between 1 and 100, with `k = 100 / percentCompressible`,
construction succeeds and the buffer it builds has zero at every position of a
chunk whose 1-based index is a multiple of `k` and that ends inside the buffer,
and the random byte everywhere else; these positions number
`((S / C) / k) * C`, and for 25 percent this number is at most, and less than
one chunk below, `(S / C) / 4 * C` taken with exact division by 4. -/
theorem newCircularPartialCompressible_zeroes (S C pc : Nat) (seed : Option Int)
    (rnd : Nat → Nat) (hC : 0 < C) (hS : C < S) (hpc : 1 ≤ pc ∧ pc ≤ 100) :
    (∃ src, newCircularPartialCompressible
        { seed := seed, size := S, percentCompressible := pc, compressibleChunkSize := C } rnd
          = some (.ok src) ∧
      src.buf.length = S ∧
      ∀ j, j < S → src.buf[j]? = some (if zeroedAt S C (100 / pc) j then 0 else rnd j)) ∧
    Nat.count (zeroedAt S C (100 / pc)) S = S / C / (100 / pc) * C ∧
    (pc = 25 →
      (Nat.count (zeroedAt S C (100 / pc)) S : ℚ) ≤ ((S / C : Nat) : ℚ) / 4 * C ∧
      ((S / C : Nat) : ℚ) / 4 * C - (Nat.count (zeroedAt S C (100 / pc)) S : ℚ) < C) := by
  have hk : 0 < 100 / pc := Nat.div_pos hpc.2 (by omega)
  refine ⟨?_, count_zeroedAt S C _ hC, ?_⟩
  · have hbuf : ((List.range S).map rnd).length = S := by simp
    obtain ⟨r, hr, hrl, hget⟩ := chunkLoop_spec S C (100 / pc) hC hk S 0
      ((List.range S).map rnd) hbuf (by omega)
    have hSpos : ¬ ((S : Int) ≤ 0) := by omega
    have hint : Int.tdiv 100 (pc : Int) = ((100 / pc : Nat) : Int) := rfl
    refine ⟨⟨r, ⟨none, "", "application/octet-stream", 0⟩, 0⟩, ?_, hrl, ?_⟩
    · unfold newCircularPartialCompressible
      have hpc0 : ¬ ((pc : Int) = 0) := by omega
      simp only [hSpos, if_false, Int.toNat_ofNat, hint, hpc0]
      simp only [Nat.zero_mul, Nat.cast_zero] at hr
      rw [hr]
    · intro j hj
      rw [hget j hj]
      by_cases hz : zeroedAt S C (100 / pc) j
      · simp [hz]
      · simp [hz, List.getElem?_range hj]
  · intro h25
    subst h25
    rw [count_zeroedAt S C _ hC]
    have hk4 : 100 / 25 = 4 := by norm_num
    rw [hk4]
    have hq : S / C = 4 * (S / C / 4) + S / C % 4 := (Nat.div_add_mod (S / C) 4).symm
    have hr : S / C % 4 < 4 := Nat.mod_lt _ (by norm_num)
    have hqQ : ((S / C : Nat) : ℚ) = 4 * ((S / C / 4 : Nat) : ℚ) + ((S / C % 4 : Nat) : ℚ) := by
      exact_mod_cast hq
    have hrQ : ((S / C % 4 : Nat) : ℚ) ≤ 3 := by
      have : S / C % 4 ≤ 3 := by omega
      exact_mod_cast this
    have hr0 : (0 : ℚ) ≤ ((S / C % 4 : Nat) : ℚ) := Nat.cast_nonneg _
    have hCQ : (0 : ℚ) < (C : ℚ) := by exact_mod_cast hC
    push_cast
    rw [hqQ]
    constructor
    · have : (0 : ℚ) ≤ ((S / C % 4 : Nat) : ℚ) / 4 * C := by positivity
      nlinarith
    · have : ((S / C % 4 : Nat) : ℚ) / 4 * C ≤ 3 / 4 * C := by
        apply mul_le_mul_of_nonneg_right _ hCQ.le
        linarith
      nlinarith

/-- Witness for C7: 23 bytes in chunks of 2 at 25 percent: chunks 4 and 8 are
zeroed. -/
theorem newCircularPartialCompressible_zeroes_witness :
    (∃ src, newCircularPartialCompressible
        { seed := none, size := ((23 : Nat) : Int), percentCompressible := ((25 : Nat) : Int),
          compressibleChunkSize := ((2 : Nat) : Int) } (fun i => i + 1) = some (.ok src) ∧
      src.buf.length = 23 ∧
      ∀ j, j < 23 → src.buf[j]? = some (if zeroedAt 23 2 (100 / 25) j then 0 else j + 1)) ∧
    Nat.count (zeroedAt 23 2 (100 / 25)) 23 = 23 / 2 / (100 / 25) * 2 :=
  ⟨(newCircularPartialCompressible_zeroes 23 2 25 none (fun i => i + 1) (by decide)
      (by decide) (by decide)).1,
   (newCircularPartialCompressible_zeroes 23 2 25 none (fun i => i + 1) (by decide)
      (by decide) (by decide)).2.1⟩

/-! ## Successive objects -/

theorem circularBytes_mod (B : List Nat) (start n : Nat) :
    circularBytes B (start % B.length) n = circularBytes B start n := by
  simp only [circularBytes]
  apply List.map_congr_left
  intro i _
  rw [Nat.mod_add_mod]

/-- Reading an object of `s` bytes to the end, `c > 0` bytes at a time. -/
theorem payload_eq (B : List Nat) (hB : B ≠ []) (q s c : Nat) (hc : 0 < c)
    (hfit : (q : Int) + s < 2 ^ 63) (name ct : String) :
    payload c { Reader := some (readerAfter B q s 0), Name := name, ContentType := ct,
                Size := (s : Int) } = some (circularBytes B q s) := by
  have hsum : (List.replicate s c).sum = s * c := by simp
  have hmin : min (s * c) s = s := by
    have : s ≤ s * c := Nat.le_mul_of_pos_right s hc
    omega
  have h := readSeq_readerAfter B hB q s hfit (List.replicate s c) 0 (Nat.zero_le _)
  simp only [Nat.add_zero, Nat.sub_zero, hsum, hmin, Nat.zero_add] at h
  simp only [payload, Int.toNat_ofNat, h, Option.map]

/-- Successive `Object` calls from cursor `q`. -/
theorem objects_from (B : List Nat) (hB : B ≠ []) (c : Nat) (hc : 0 < c) (ss : List Nat) :
    ∀ (q : Nat) (obj0 : Object), q < B.length →
    (∀ s ∈ ss, (B.length : Int) + s ≤ 2 ^ 63) →
    ∃ os src2, objects { buf := B, obj := obj0, pos := (q : Int) } (ss.map Nat.cast)
        = some (os, src2) ∧
      src2.buf = B ∧
      src2.pos = (((q + ss.sum) % B.length : Nat) : Int) ∧
      os.length = ss.length ∧
      (∀ i, i < ss.length → ∃ o, os[i]? = some o ∧ o.Size = ((ss.getD i 0 : Nat) : Int) ∧
        o.Reader = some (readerAfter B ((q + (ss.take i).sum) % B.length) (ss.getD i 0) 0)) ∧
      payloads c os = some (circularBytes B q ss.sum) := by
  induction ss with
  | nil =>
    intro q obj0 hq _
    refine ⟨[], ⟨B, obj0, (q : Int)⟩, by simp [objects], rfl, ?_, rfl, ?_, ?_⟩
    · simp [Nat.mod_eq_of_lt hq]
    · intro i hi
      simp at hi
    · simp [payloads, circularBytes_zero]
  | cons s ss ih =>
    intro q obj0 hq hfit
    have hlen : B.length ≠ 0 := fun h0 => hB (List.length_eq_zero.mp h0)
    have hs := hfit s (by simp)
    have hw : wrap64 ((q : Int) + (s : Int)) = ((q + s : Nat) : Int) := by
      rw [wrap64_of_fits] <;> push_cast <;> omega
    have hmodlt : (q + s) % B.length < B.length := Nat.mod_lt _ (Nat.pos_of_ne_zero hlen)
    have hrd : (⟨B, (q : Int), ((q + s : Nat) : Int), (s : Int)⟩ : circularCompressibleReader) =
        readerAfter B q s 0 := by
      simp [readerAfter]
    obtain ⟨os, src2, hobj, hbuf, hpos, hlenos, hrds, hpay⟩ :=
      ih ((q + s) % B.length) ⟨some (readerAfter B q s 0), "", obj0.ContentType, (s : Int)⟩
        hmodlt (fun x hx => hfit x (List.mem_cons_of_mem _ hx))
    refine ⟨⟨some (readerAfter B q s 0), "", obj0.ContentType, (s : Int)⟩ :: os, src2,
      ?_, hbuf, ?_, by simp [hlenos], ?_, ?_⟩
    · simp only [List.map_cons, objects, circularPartialCompressibleSrc.Object, hlen,
        if_false, hw, hrd]
      rw [← Int.ofNat_tmod, hobj]
    · rw [hpos]
      simp only [List.sum_cons]
      rw [Nat.mod_add_mod, Nat.add_assoc]
    · intro i hi
      cases i with
      | zero =>
        refine ⟨⟨some (readerAfter B q s 0), "", obj0.ContentType, (s : Int)⟩,
          by simp, by simp, ?_⟩
        simp [Nat.mod_eq_of_lt hq]
      | succ i =>
        obtain ⟨o, ho, hsz, hr⟩ := hrds i (by simpa using hi)
        refine ⟨o, by simpa using ho, by simpa using hsz, ?_⟩
        rw [hr]
        simp only [List.take_succ_cons, List.sum_cons, List.getD_cons_succ]
        rw [Nat.mod_add_mod, Nat.add_assoc]
    · simp only [payloads, hpay]
      rw [payload_eq B hB q s c hc (by omega)]
      simp only [List.sum_cons]
      rw [circularBytes_append, circularBytes_mod]

/-- C10: on a fresh source over a buffer of `L > 0` bytes, successive `Object`
calls with drawn sizes `s1, ..., sn` (each leaving `L + si` inside the `int64`
range) succeed; the `i`-th object's reader starts at `(s1 + ... + s(i-1)) mod L`
and serves `si` bytes; the cursor afterwards is `(s1 + ... + sn) mod L`, inside
`[0, L)`; and the payloads, one after the other, are the first `s1 + ... + sn`
bytes of the circular repetition of the buffer from offset 0. -/
theorem Object_continues_stream (B : List Nat) (obj0 : Object) (ss : List Nat) (c : Nat)
    (hB : B ≠ []) (hc : 0 < c) (hfit : ∀ s ∈ ss, (B.length : Int) + s ≤ 2 ^ 63) :
    ∃ os src2, objects { buf := B, obj := obj0, pos := 0 } (ss.map Nat.cast) = some (os, src2) ∧
      os.length = ss.length ∧
      (∀ i, i < ss.length → ∃ o, os[i]? = some o ∧ o.Size = ((ss.getD i 0 : Nat) : Int) ∧
        o.Reader = some
          { buf := B, pos := (((ss.take i).sum % B.length : Nat) : Int),
            end_ := (((ss.take i).sum % B.length : Nat) : Int) + ((ss.getD i 0 : Nat) : Int),
            remain := ((ss.getD i 0 : Nat) : Int) }) ∧
      src2.pos = ((ss.sum % B.length : Nat) : Int) ∧
      0 ≤ src2.pos ∧ src2.pos < (B.length : Int) ∧
      payloads c os = some (circularBytes B 0 ss.sum) := by
  have hpos : 0 < B.length := List.length_pos.mpr hB
  obtain ⟨os, src2, hobj, -, hp, hlen, hrds, hpay⟩ :=
    objects_from B hB c hc ss 0 obj0 hpos hfit
  simp only [Nat.zero_add] at hp hrds
  refine ⟨os, src2, by simpa using hobj, hlen, ?_, hp, ?_, ?_, hpay⟩
  · intro i hi
    obtain ⟨o, ho, hsz, hr⟩ := hrds i hi
    refine ⟨o, ho, hsz, ?_⟩
    rw [hr]
    simp [readerAfter]
  · rw [hp]
    exact Int.ofNat_nonneg _
  · rw [hp]
    exact_mod_cast Nat.mod_lt _ hpos

/-- Witness for C10: objects of 2, 5, 0 and 1 bytes from a 3-byte buffer. -/
theorem Object_continues_stream_witness :
    ∃ os src2,
      objects { buf := [10, 20, 30],
                obj := { Reader := none, Name := "", ContentType := "", Size := 0 },
                pos := 0 } (([2, 5, 0, 1] : List Nat).map Nat.cast) = some (os, src2) ∧
      os.length = ([2, 5, 0, 1] : List Nat).length ∧
      src2.pos = ((([2, 5, 0, 1] : List Nat).sum % ([10, 20, 30] : List Nat).length : Nat) : Int) ∧
      payloads 2 os = some (circularBytes [10, 20, 30] 0 ([2, 5, 0, 1] : List Nat).sum) := by
  obtain ⟨os, src2, h1, h2, -, h4, -, -, h7⟩ :=
    Object_continues_stream [10, 20, 30]
      { Reader := none, Name := "", ContentType := "", Size := 0 } [2, 5, 0, 1] 2
      (by decide) (by decide) (by decide)
  exact ⟨os, src2, h1, h2, h4, h7⟩

/-! ## Validated options -/

/-- A percentage above 100 makes the chunk interval `100 / percentCompressible`
zero, and the first `chunkCount % interval` panics. -/
theorem newCircularPartialCompressible_panics_above_100 (o : CircularPartialCompressibleOpts)
    (rnd : Nat → Nat) (hs : 0 < o.size) (hp : 100 < o.percentCompressible) :
    newCircularPartialCompressible o rnd = none := by
  have hs0 : ¬ (o.size ≤ 0) := by omega
  have hp0 : ¬ (o.percentCompressible = 0) := by omega
  have hdiv : Int.tdiv 100 o.percentCompressible = 0 :=
    Int.tdiv_eq_zero_of_lt (by decide) hp
  obtain ⟨k, hk⟩ : ∃ k, o.size.toNat = k + 1 := ⟨o.size.toNat - 1, by omega⟩
  unfold newCircularPartialCompressible
  simp only [hs0, if_false, hp0, hdiv, hk]
  rw [chunkLoop]
  simp [hs]

/-- C17 (the code at failing inputs): `validate` accepts
`WithPartialCompressability(101)`, and `WithPartialCompressability(200)` with
`Size(64001)`, and `newCircularPartialCompressible` panics on both, dividing by
the zero chunk interval, whatever the random bytes. -/
theorem validate_accepts_newCircular_panics (rnd : Nat → Nat) :
    (WithPartialCompressability 101).validate = none ∧
    newCircularPartialCompressible (WithPartialCompressability 101) rnd = none ∧
    ((WithPartialCompressability 200).Size 64001).validate = none ∧
    newCircularPartialCompressible ((WithPartialCompressability 200).Size 64001) rnd = none :=
  ⟨by decide,
   newCircularPartialCompressible_panics_above_100 _ rnd (by decide) (by decide),
   by decide,
   newCircularPartialCompressible_panics_above_100 _ rnd (by decide) (by decide)⟩

end Generator

namespace Bench

open Generator

theorem sumWeights_spec (d : List (String × ℚ)) (t : ℚ) :
    ((∃ e ∈ d, e.2 < 0) → ∃ err, sumWeights d t = .error err) ∧
    ((∀ e ∈ d, 0 ≤ e.2) → sumWeights d t = .ok (t + (d.map Prod.snd).sum)) := by
  induction d generalizing t with
  | nil => simp [sumWeights]
  | cons hd tl ih =>
    obtain ⟨op, dist⟩ := hd
    by_cases hneg : dist < 0
    · constructor
      · intro _
        exact ⟨.negativeDistribution op, by simp [sumWeights, hneg]⟩
      · intro h
        have := h (op, dist) (by simp)
        simp at this
        linarith
    · have hpos : 0 ≤ dist := not_lt.mp hneg
      constructor
      · rintro ⟨e, he, hlt⟩
        simp only [sumWeights, hneg, if_false]
        rcases List.mem_cons.mp he with rfl | h
        · exact absurd hlt hneg
        · exact (ih (t + dist)).1 ⟨e, h, hlt⟩
      · intro h
        simp only [sumWeights, hneg, if_false]
        rw [(ih (t + dist)).2 (fun e he => h e (List.mem_cons_of_mem _ he))]
        simp [add_assoc]

/-- C1: `Generate` returns an error exactly when the DELETE weight exceeds the
PUT weight, or some weight is negative, or the weights total zero (the empty
distribution included); otherwise it returns no error. -/
theorem Generate_error_iff (sh : Shuffle) (m : MixedDistribution) (allocObjs : Int) :
    (∃ err, Generate sh m allocObjs = .error err) ↔
      (weight m.Distribution "DELETE" > weight m.Distribution "PUT" ∨
        (∃ e ∈ m.Distribution, e.2 < 0) ∨
        (m.Distribution.map Prod.snd).sum = 0) := by
  unfold Generate
  by_cases hdp : weight m.Distribution "DELETE" > weight m.Distribution "PUT"
  · simp [hdp]
  · simp only [hdp, if_false, false_or]
    unfold normalize
    by_cases hneg : ∃ e ∈ m.Distribution, e.2 < 0
    · obtain ⟨err, herr⟩ := (sumWeights_spec m.Distribution 0).1 hneg
      simp [herr, hneg]
    · have hall : ∀ e ∈ m.Distribution, 0 ≤ e.2 := by
        intro e he
        by_contra hlt
        exact hneg ⟨e, he, not_le.mp hlt⟩
      have hsum := (sumWeights_spec m.Distribution 0).2 hall
      simp only [hsum, zero_add, hneg, false_or]
      by_cases hz : (m.Distribution.map Prod.snd).sum = 0
      · simp [hz]
      · simp [hz]

/-- What `Generate` returns on a distribution it accepts. -/
theorem Generate_ok_of_valid (sh : Shuffle) (m : MixedDistribution) (allocObjs : Int)
    (hdp : ¬ weight m.Distribution "DELETE" > weight m.Distribution "PUT")
    (hnn : ∀ e ∈ m.Distribution, 0 ≤ e.2)
    (hsum : (m.Distribution.map Prod.snd).sum ≠ 0) :
    Generate sh m allocObjs = .ok
      { Distribution := m.Distribution.map
          (fun e => (e.1, e.2 / (m.Distribution.map Prod.snd).sum)),
        ops := sh.apply (materialize (m.Distribution.map
          (fun e => (e.1, e.2 / (m.Distribution.map Prod.snd).sum)))),
        objects := [],
        current := m.current } := by
  unfold Generate normalize
  simp only [hdp, if_false]
  rw [(sumWeights_spec m.Distribution 0).2 hnn]
  simp [hsum]

theorem length_Shuffle_apply {α : Type} (sh : Shuffle) (xs : List α) :
    (sh.apply xs).length = xs.length := by
  simp [Shuffle.apply]

theorem slotsFor_of_nonneg (w : ℚ) (hw : 0 ≤ w) :
    slotsFor w = ⌊(1 / 2 : ℚ) + w * 1000⌋ ∧ 0 ≤ slotsFor w := by
  have h0 : (0 : ℚ) ≤ 0.5 + w * (genOps : ℚ) := by
    have : (0 : ℚ) ≤ w * (genOps : ℚ) := mul_nonneg hw (by simp [genOps])
    norm_num
    linarith
  have he : (0.5 : ℚ) + w * (genOps : ℚ) = 1 / 2 + w * 1000 := by
    simp [genOps]; norm_num
  constructor
  · simp only [slotsFor, goInt, h0, if_true]
    rw [he]
  · simp only [slotsFor, goInt, h0, if_true]
    exact Int.floor_nonneg.mpr h0

theorem Shuffle_perm_val_congr (sh : Shuffle) (n k : Nat) (h : n = k) (i : Nat)
    (hn : i < n) (hk : i < k) :
    (sh.perm n ⟨i, hn⟩).val = (sh.perm k ⟨i, hk⟩).val := by
  subst h
  rfl

/-- Slices of equal length are shuffled alike: slot `i` of both results comes
from one and the same source slot `j`. -/
theorem Shuffle_apply_same_slot {α : Type} (sh : Shuffle) (xs ys : List α)
    (h : xs.length = ys.length) (i : Nat) (hi : i < xs.length) :
    ∃ j, j < xs.length ∧ (sh.apply xs)[i]? = xs[j]? ∧ (sh.apply ys)[i]? = ys[j]? := by
  have hiy : i < ys.length := h ▸ hi
  refine ⟨(sh.perm xs.length ⟨i, hi⟩).val, (sh.perm xs.length ⟨i, hi⟩).isLt, ?_, ?_⟩
  · rw [List.getElem?_eq_getElem (by simpa [Shuffle.apply] using hi)]
    rw [List.getElem?_eq_getElem (sh.perm xs.length ⟨i, hi⟩).isLt]
    simp [Shuffle.apply]
  · rw [List.getElem?_eq_getElem (by simpa [Shuffle.apply] using hiy)]
    rw [Shuffle_perm_val_congr sh xs.length ys.length h i hi hiy]
    rw [List.getElem?_eq_getElem (sh.perm ys.length ⟨i, hiy⟩).isLt]
    simp [Shuffle.apply]

theorem slotsFor_half : slotsFor (1 / 2) = 500 := by
  rw [(slotsFor_of_nonneg (1 / 2) (by norm_num)).1, Int.floor_eq_iff]
  norm_num

/-- Two halves written in opposite orders disagree in every slot. -/
theorem replicate_append_swap_ne (a b : String) (hab : a ≠ b) (n j : Nat) (hj : j < n + n) :
    (List.replicate n a ++ List.replicate n b)[j]? ≠
      (List.replicate n b ++ List.replicate n a)[j]? := by
  by_cases hlt : j < n
  · rw [List.getElem?_append_left (by simpa using hlt),
      List.getElem?_append_left (by simpa using hlt)]
    simp [List.getElem?_replicate, hlt, hab]
  · have hge : n ≤ j := not_lt.mp hlt
    rw [List.getElem?_append_right (by simpa using hge),
      List.getElem?_append_right (by simpa using hge)]
    have : j - n < n := by omega
    simp [List.getElem?_replicate, this, Ne.symm hab]

theorem materialize_two_halves (a b : String) :
    materialize [(a, 1 / 2), (b, 1 / 2)] =
      List.replicate (slotsFor (1 / 2)).toNat a ++ List.replicate (slotsFor (1 / 2)).toNat b := by
  simp [materialize]

/-- C3 (the code at the failing input): the map with PUT and GET of weight 1
is accepted under both enumeration orders, and whatever permutation the seeded
shuffle applies to 1000 slots, the two sequences disagree in every slot. -/
theorem Generate_depends_on_range_order (sh : Shuffle) :
    putGet.Distribution.Perm getPut.Distribution ∧
    ∃ m1 m2 : MixedDistribution,
      Generate sh putGet 0 = .ok m1 ∧ Generate sh getPut 0 = .ok m2 ∧
      m1.ops.length = 1000 ∧ m2.ops.length = 1000 ∧
      ∀ i, i < 1000 → m1.ops[i]? ≠ m2.ops[i]? := by
  refine ⟨List.Perm.swap _ _ _, _, _,
    Generate_ok_of_valid sh putGet 0 (by simp [putGet, weight]) (by simp [putGet])
      (by simp [putGet]),
    Generate_ok_of_valid sh getPut 0 (by simp [getPut, weight]) (by simp [getPut])
      (by simp [getPut]), ?_⟩
  have h2 : ((1 : ℚ) + 1)⁻¹ = 1 / 2 := by norm_num
  have e1 : putGet.Distribution.map
      (fun e => (e.1, e.2 / (putGet.Distribution.map Prod.snd).sum)) =
      [("PUT", 1 / 2), ("GET", 1 / 2)] := by
    simp [putGet, h2]
  have e2 : getPut.Distribution.map
      (fun e => (e.1, e.2 / (getPut.Distribution.map Prod.snd).sum)) =
      [("GET", 1 / 2), ("PUT", 1 / 2)] := by
    simp [getPut, h2]
  have hn : (slotsFor (1 / 2)).toNat + (slotsFor (1 / 2)).toNat = 1000 := by
    rw [slotsFor_half]; rfl
  simp only [e1, e2, length_Shuffle_apply, materialize_two_halves]
  generalize (slotsFor (1 / 2)).toNat = n at hn
  refine ⟨by simpa using hn, by simpa using hn, ?_⟩
  intro i hi
  obtain ⟨j, hj, h1, h2⟩ := Shuffle_apply_same_slot sh
    (List.replicate n "PUT" ++ List.replicate n "GET")
    (List.replicate n "GET" ++ List.replicate n "PUT") (by simp)
    i (by simp only [List.length_append, List.length_replicate]; omega)
  rw [h1, h2]
  exact replicate_append_swap_ne "PUT" "GET" (by decide) n j (by simpa using hj)

/-! ## The object pool -/

/-- The entry a range loop yields first exists exactly when the pool is not
empty. -/
theorem first_entry (l : List (String × Object)) (first : Nat) :
    (l = [] → l[first % l.length]? = none) ∧
    (l ≠ [] → ∃ e ∈ l, l[first % l.length]? = some e) := by
  constructor
  · intro h
    subst h
    simp
  · intro h
    have hpos : 0 < l.length := List.length_pos.mpr h
    have hlt : first % l.length < l.length := Nat.mod_lt _ hpos
    exact ⟨l[first % l.length], List.getElem_mem hlt, List.getElem?_eq_getElem hlt⟩

/-- In a pool with pairwise distinct keys an entry is determined by its key. -/
theorem entry_eq_of_key_eq (l : List (String × Object)) (hnd : (l.map Prod.fst).Nodup)
    (x y : String × Object) (hx : x ∈ l) (hy : y ∈ l) (hk : x.1 = y.1) : x = y :=
  List.inj_on_of_nodup_map hnd hx hy hk

/-- Deleting by key takes out the one entry that carries the key. -/
theorem perm_cons_filter_key (l : List (String × Object)) (e : String × Object)
    (hnd : (l.map Prod.fst).Nodup) (he : e ∈ l) :
    l.Perm (e :: l.filter (fun x => x.1 != e.1)) := by
  induction l with
  | nil => simp at he
  | cons hd tl ih =>
    have hnd2 := hnd
    simp only [List.map_cons, List.nodup_cons] at hnd2
    obtain ⟨hnotin, hndtl⟩ := hnd2
    by_cases hk : hd.1 = e.1
    · have hhd : hd = e :=
        entry_eq_of_key_eq (hd :: tl) hnd hd e (List.mem_cons_self _ _) he hk
      subst hhd
      have hall : tl.filter (fun x => x.1 != hd.1) = tl := by
        rw [List.filter_eq_self]
        intro a ha
        have : a.1 ≠ hd.1 := by
          intro h
          apply hnotin
          rw [← h]
          exact List.mem_map_of_mem Prod.fst ha
        simpa using this
      simp [List.filter_cons, hall]
    · have hmem : e ∈ tl := by
        rcases List.mem_cons.mp he with h | h
        · exact absurd (by rw [h]) hk
        · exact h
      have hkeep : (hd.1 != e.1) = true := by simpa using hk
      rw [List.filter_cons, if_pos hkeep]
      exact ((ih hndtl hmem).cons hd).trans (List.Perm.swap _ _ _)

theorem PoolOk_filter (m : MixedDistribution) (k : String) (h : PoolOk m) :
    PoolOk { m with objects := m.objects.filter (fun x => x.1 != k) } :=
  ⟨List.Nodup.sublist ((List.filter_sublist m.objects).map Prod.fst) h.1,
   fun x hx => h.2 x (List.mem_of_mem_filter hx)⟩

/-- One call of `deleteRandomObj` on a non-empty pool. -/
theorem deleteRandomObj_nonempty (m : MixedDistribution) (first : Nat)
    (hne : m.objects ≠ []) :
    ∃ e ∈ m.objects, deleteRandomObj m first =
      some (e.2, { m with objects := m.objects.filter (fun x => x.1 != e.1) }) := by
  obtain ⟨e, he, hget⟩ := (first_entry m.objects first).2 hne
  refine ⟨e, he, ?_⟩
  unfold deleteRandomObj
  rw [hget]

/-- As many calls of `deleteRandomObj` as the pool has objects. -/
theorem deleteSeq_all (fs : List Nat) : ∀ m : MixedDistribution, PoolOk m →
    fs.length = m.objects.length →
    ∃ os m2, deleteSeq m fs = some (os, m2) ∧ m2.objects = [] ∧
      os.Perm (m.objects.map Prod.snd) := by
  induction fs with
  | nil =>
    intro m _ hlen
    have : m.objects = [] := List.length_eq_zero.mp hlen.symm
    exact ⟨[], m, by simp [deleteSeq], this, by simp [this]⟩
  | cons f fs ih =>
    intro m hok hlen
    have hne : m.objects ≠ [] := by
      intro h
      rw [h] at hlen
      simp at hlen
    obtain ⟨e, he, hdel⟩ := deleteRandomObj_nonempty m f hne
    have hperm0 := perm_cons_filter_key m.objects e hok.1 he
    have hlen2 : fs.length = (m.objects.filter (fun x => x.1 != e.1)).length := by
      have := hperm0.length_eq
      simp only [List.length_cons] at this hlen
      omega
    obtain ⟨os, m3, hseq, hempty, hperm⟩ :=
      ih { m with objects := m.objects.filter (fun x => x.1 != e.1) }
        (PoolOk_filter m e.1 hok) hlen2
    refine ⟨e.2 :: os, m3, ?_, hempty, ?_⟩
    · rw [deleteSeq, hdel]
      simp only
      rw [hseq]
    · have h1 := hperm0.map Prod.snd
      simp only [List.map_cons] at h1
      exact (List.Perm.cons e.2 hperm).trans h1.symm

/-- C8: on a non-empty pool `deleteRandomObj` returns the object of an entry
of the pool and deletes that entry and no other (the entries that stay keep
their order); hence as many successive calls as the pool has objects succeed,
return every object of the pool once, pairwise distinct, and leave the pool
empty. -/
theorem deleteRandomObj_exclusive (m : MixedDistribution) (hok : PoolOk m) :
    (∀ first : Nat, m.objects ≠ [] →
      ∃ e ∈ m.objects, ∃ m2,
        deleteRandomObj m first = some (e.2, m2) ∧
        e ∉ m2.objects ∧
        (∀ x ∈ m.objects, x ≠ e → x ∈ m2.objects) ∧
        m2.objects.Sublist m.objects ∧
        m2.objects.length + 1 = m.objects.length) ∧
    (∀ fs : List Nat, fs.length = m.objects.length →
      ∃ os m2, deleteSeq m fs = some (os, m2) ∧ m2.objects = [] ∧
        os.Perm (m.objects.map Prod.snd) ∧
        (os.map (fun o => o.Name)).Nodup ∧ os.Nodup) := by
  constructor
  · intro first hne
    obtain ⟨e, he, hdel⟩ := deleteRandomObj_nonempty m first hne
    refine ⟨e, he, _, hdel, ?_, ?_, List.filter_sublist _, ?_⟩
    · simp [List.mem_filter]
    · intro x hx hxe
      simp only [List.mem_filter]
      refine ⟨hx, ?_⟩
      have : x.1 ≠ e.1 := fun hk => hxe (entry_eq_of_key_eq m.objects hok.1 x e hx he hk)
      simpa using this
    · have := (perm_cons_filter_key m.objects e hok.1 he).length_eq
      simp only [List.length_cons] at this
      exact this.symm
  · intro fs hlen
    obtain ⟨os, m2, hseq, hempty, hperm⟩ := deleteSeq_all fs m hok hlen
    have hnames : (os.map (fun o => o.Name)).Nodup := by
      have hp : (os.map (fun o => o.Name)).Perm (m.objects.map Prod.fst) := by
        have h1 := hperm.map (fun o : Object => o.Name)
        have h2 : (m.objects.map Prod.snd).map (fun o : Object => o.Name) =
            m.objects.map Prod.fst := by
          rw [List.map_map]
          apply List.map_congr_left
          intro x hx
          exact (hok.2 x hx).symm
        rw [h2] at h1
        exact h1
      exact hp.nodup_iff.mpr hok.1
    exact ⟨os, m2, hseq, hempty, hperm, hnames, List.Nodup.of_map _ hnames⟩

/-- Witness for C8: three deletes on a pool of three objects. -/
theorem deleteRandomObj_exclusive_witness :
    PoolOk threeObjects ∧
    ∃ os m2, deleteSeq threeObjects [5, 0, 1] = some (os, m2) ∧ m2.objects = [] ∧
      os.Perm (threeObjects.objects.map Prod.snd) ∧
      (os.map (fun o => o.Name)).Nodup ∧ os.Nodup :=
  ⟨⟨by decide, by decide⟩,
   (deleteRandomObj_exclusive threeObjects ⟨by decide, by decide⟩).2 [5, 0, 1] (by decide)⟩

/-- The pool invariant holds for the empty pool left by `Generate` and is kept
by `addObj`. -/
theorem PoolOk_addObj (m : MixedDistribution) (o : Object) (h : PoolOk m) :
    PoolOk (addObj m o) := by
  unfold addObj
  split_ifs with hany
  · constructor
    · have : (m.objects.map (fun e => if e.1 == o.Name then (e.1, o) else e)).map Prod.fst =
          m.objects.map Prod.fst := by
        rw [List.map_map]
        apply List.map_congr_left
        intro x _
        simp only [Function.comp_apply]
        split_ifs <;> rfl
      simp only [this]
      exact h.1
    · intro e he
      simp only [List.mem_map] at he
      obtain ⟨x, hx, rfl⟩ := he
      split_ifs with hk
      · simpa using hk
      · exact h.2 x hx
  · constructor
    · simp only [List.map_append, List.map_cons, List.map_nil]
      rw [List.nodup_append]
      refine ⟨h.1, by simp, ?_⟩
      intro k hk1 hk2
      simp only [List.mem_singleton] at hk2
      subst hk2
      apply hany
      obtain ⟨x, hx, hxk⟩ := List.mem_map.mp hk1
      rw [List.any_eq_true]
      exact ⟨x, hx, by simpa using hxk⟩
    · intro e he
      rcases List.mem_append.mp he with h1 | h1
      · exact h.2 e h1
      · simp only [List.mem_singleton] at h1
        subst h1
        rfl

/-- What `randomObj` does on the empty and on a non-empty pool. -/
theorem randomObj_panics_iff_empty_aux (m : MixedDistribution) (first : Nat) :
    (m.objects = [] → randomObj m first = none) ∧
    (m.objects ≠ [] → ∃ e ∈ m.objects, randomObj m first = some (e.2, m)) := by
  constructor
  · intro hne
    simp only [randomObj, (first_entry m.objects first).1 hne]
  · intro hne
    obtain ⟨e, he, hget⟩ := (first_entry m.objects first).2 hne
    exact ⟨e, he, by simp only [randomObj, hget]⟩

/-- What `randomObj` does on the empty and on a non-empty pool. -/
theorem randomObj_cases (m : MixedDistribution) (first : Nat) :
    (m.objects = [] → randomObj m first = none) ∧
    (m.objects ≠ [] → ∃ e ∈ m.objects, randomObj m first = some (e.2, m)) := by
  constructor
  · intro hne
    simp only [randomObj, (first_entry m.objects first).1 hne]
  · intro hne
    obtain ⟨e, he, hget⟩ := (first_entry m.objects first).2 hne
    exact ⟨e, he, by simp only [randomObj, hget]⟩

/-- C9: `randomObj` and `deleteRandomObj` panic exactly on the empty pool; on
a non-empty pool `randomObj` returns the object of an entry of the pool and
leaves the state as it was. -/
theorem randomObj_panics_iff_empty (m : MixedDistribution) (first : Nat) :
    (randomObj m first = none ↔ m.objects = []) ∧
    (deleteRandomObj m first = none ↔ m.objects = []) ∧
    (m.objects ≠ [] → ∃ e ∈ m.objects, randomObj m first = some (e.2, m)) := by
  by_cases hne : m.objects = []
  · have hget := (first_entry m.objects first).1 hne
    refine ⟨?_, ?_, fun h => absurd hne h⟩
    · simp only [randomObj, hget, hne]
      simp
    · simp only [deleteRandomObj, hget, hne]
      simp
  · obtain ⟨e, he, hget⟩ := (first_entry m.objects first).2 hne
    refine ⟨?_, ?_, fun _ => ⟨e, he, ?_⟩⟩
    · simp only [randomObj, hget, hne]
      simp
    · simp only [deleteRandomObj, hget, hne]
      simp
    · simp only [randomObj, hget]

/-! ## The cursor -/

/-- One `getOp` call with the cursor at `c` inside the sequence. -/
theorem getOp_at (m : MixedDistribution) (c : Nat) (hc : m.current = (c : Int))
    (hlt : c < m.ops.length) :
    getOp m = some (m.ops.getD c "",
      { m with current := (((c + 1) % m.ops.length : Nat) : Int) }) := by
  unfold getOp
  have hneg : ¬ ((c : Int) < 0) := by omega
  have hmod : Int.tmod ((c : Int) + 1) (m.ops.length : Int) =
      (((c + 1) % m.ops.length : Nat) : Int) := by
    have : ((c : Int) + 1) = ((c + 1 : Nat) : Int) := by push_cast; rfl
    rw [this, ← Int.ofNat_tmod]
  simp only [hc, hneg, if_false, Int.toNat_ofNat, List.getElem?_eq_getElem hlt, hmod,
    List.getD_eq_getElem _ _ hlt]

/-- Any number of `getOp` calls from cursor `c`. -/
theorem getOps_from (j : Nat) : ∀ (m : MixedDistribution) (c : Nat), m.current = (c : Int) →
    c < m.ops.length →
    getOps m j = some
      ((List.range j).map (fun i => m.ops.getD ((c + i) % m.ops.length) ""),
       { m with current := (((c + j) % m.ops.length : Nat) : Int) }) := by
  induction j with
  | zero =>
    intro m c hc hlt
    simp only [getOps, List.range_zero, List.map_nil, Nat.add_zero, Nat.mod_eq_of_lt hlt, ← hc]
  | succ j ih =>
    intro m c hc hlt
    have hpos : 0 < m.ops.length := by omega
    have hnext : (c + 1) % m.ops.length < m.ops.length := Nat.mod_lt _ hpos
    rw [getOps, getOp_at m c hc hlt]
    simp only
    rw [ih { m with current := (((c + 1) % m.ops.length : Nat) : Int) }
      ((c + 1) % m.ops.length) rfl hnext]
    have hadd : ∀ i : Nat, c + 1 + i = c + (i + 1) := fun i => by omega
    simp only [Option.some.injEq, Prod.mk.injEq, List.range_succ_eq_map, List.map_cons,
      List.map_map, Nat.add_zero, Nat.mod_eq_of_lt hlt, true_and, Nat.mod_add_mod, hadd,
      Function.comp_def, Nat.succ_eq_add_one, and_self]

/-- A full cycle of `getOp` calls hands out the sequence rotated to the cursor. -/
theorem getOps_cycle (m : MixedDistribution) (c : Nat) (hc : m.current = (c : Int))
    (hlt : c < m.ops.length) :
    getOps m m.ops.length = some (m.ops.rotate c, m) := by
  rw [getOps_from m.ops.length m c hc hlt]
  have hm : ({ m with current := (((c + m.ops.length) % m.ops.length : Nat) : Int) } :
      MixedDistribution) = m := by
    rw [Nat.add_mod_right, Nat.mod_eq_of_lt hlt, ← hc]
  rw [hm]
  simp only [Option.some.injEq, Prod.mk.injEq, and_true]
  apply List.ext_getElem
  · simp
  · intro i h1 h2
    have hi : i < m.ops.length := by simpa using h1
    have hidx : (c + i) % m.ops.length < m.ops.length := Nat.mod_lt _ (by omega)
    rw [List.getElem_rotate]
    simp only [List.getElem_map, List.getElem_range, List.getD_eq_getElem _ _ hidx]
    congr 1
    rw [Nat.add_comm]

/-- C11: for a sequence of `n` slots and the cursor at `c < n`, `j` successive
`getOp` calls hand out `ops[(c + i) mod n]` for `i = 0, ..., j - 1` and leave
the cursor at `(c + j) mod n`, inside `[0, n)`, and everything else as it was;
`n` calls hand out the sequence rotated to `c`, every slot once, and leave the
cursor at `c`. -/
theorem getOp_round_robin (m : MixedDistribution) (c : Nat) (hc : m.current = (c : Int))
    (hlt : c < m.ops.length) :
    (∀ j : Nat, ∃ m2, getOps m j = some
        ((List.range j).map (fun i => m.ops.getD ((c + i) % m.ops.length) ""), m2) ∧
      m2.ops = m.ops ∧ m2.Distribution = m.Distribution ∧ m2.objects = m.objects ∧
      m2.current = (((c + j) % m.ops.length : Nat) : Int) ∧
      0 ≤ m2.current ∧ m2.current < (m.ops.length : Int)) ∧
    getOps m m.ops.length = some (m.ops.rotate c, m) ∧
    (m.ops.rotate c).Perm m.ops := by
  refine ⟨?_, getOps_cycle m c hc hlt, List.rotate_perm _ _⟩
  intro j
  have hpos : 0 < m.ops.length := by omega
  have hmod : (c + j) % m.ops.length < m.ops.length := Nat.mod_lt _ hpos
  refine ⟨_, getOps_from j m c hc hlt, rfl, rfl, rfl, rfl, Int.ofNat_nonneg _, ?_⟩
  show (((c + j) % m.ops.length : Nat) : Int) < (m.ops.length : Int)
  exact_mod_cast hmod

/-- Witness for C11: four slots, the cursor on the third; six calls, then a
full cycle. -/
theorem getOp_round_robin_witness :
    (∃ m2, getOps fourSlots 6 = some
        ((List.range 6).map (fun i => fourSlots.ops.getD ((2 + i) % fourSlots.ops.length) ""),
          m2) ∧
      m2.ops = fourSlots.ops ∧ m2.Distribution = fourSlots.Distribution ∧
      m2.objects = fourSlots.objects ∧
      m2.current = (((2 + 6) % fourSlots.ops.length : Nat) : Int) ∧
      0 ≤ m2.current ∧ m2.current < (fourSlots.ops.length : Int)) ∧
    getOps fourSlots fourSlots.ops.length = some (fourSlots.ops.rotate 2, fourSlots) :=
  ⟨(getOp_round_robin fourSlots 2 (by decide) (by decide)).1 6,
   (getOp_round_robin fourSlots 2 (by decide) (by decide)).2.1⟩

/-! ## Normalization -/

theorem sum_map_div (l : List ℚ) (t : ℚ) : (l.map (fun x => x / t)).sum = l.sum / t := by
  induction l with
  | nil => simp
  | cons a tl ih => simp [ih, add_div]

theorem le_sum_of_mem_nonneg (l : List ℚ) (h : ∀ x ∈ l, 0 ≤ x) (a : ℚ) (ha : a ∈ l) :
    a ≤ l.sum := by
  induction l with
  | nil => simp at ha
  | cons b tl ih =>
    have hb : 0 ≤ b := h b (by simp)
    have htl : 0 ≤ tl.sum := List.sum_nonneg (fun x hx => h x (List.mem_cons_of_mem _ hx))
    simp only [List.sum_cons]
    rcases List.mem_cons.mp ha with rfl | h2
    · linarith
    · have := ih (fun x hx => h x (List.mem_cons_of_mem _ hx)) h2
      linarith

/-- What `normalize` returns on non-negative weights of non-zero total. -/
theorem normalize_ok (m : MixedDistribution) (hnn : ∀ e ∈ m.Distribution, 0 ≤ e.2)
    (hsum : (m.Distribution.map Prod.snd).sum ≠ 0) :
    normalize m = .ok
      ⟨m.Distribution.map (fun e => (e.1, e.2 / (m.Distribution.map Prod.snd).sum)),
        m.ops, m.objects, m.current⟩ := by
  unfold normalize
  rw [(sumWeights_spec m.Distribution 0).2 hnn]
  simp [hsum]

/-- C13: on a distribution without negative weight and with positive total,
`normalize` succeeds and replaces each weight `w` by `w / total`, touching
nothing else; afterwards the weights sum to 1, each lies in `[0, 1]`, the ratio
of any two weights is the one it was, and `normalize` applied once more
returns the same state. -/
theorem normalize_sums_to_one (m : MixedDistribution)
    (hnn : ∀ e ∈ m.Distribution, 0 ≤ e.2)
    (hpos : 0 < (m.Distribution.map Prod.snd).sum) :
    ∃ m2, normalize m = .ok m2 ∧
      m2.Distribution = m.Distribution.map
        (fun e => (e.1, e.2 / (m.Distribution.map Prod.snd).sum)) ∧
      m2.ops = m.ops ∧ m2.objects = m.objects ∧ m2.current = m.current ∧
      (m2.Distribution.map Prod.snd).sum = 1 ∧
      (∀ e ∈ m2.Distribution, 0 ≤ e.2 ∧ e.2 ≤ 1) ∧
      (∀ e1 ∈ m.Distribution, ∀ e2 ∈ m.Distribution, e2.2 ≠ 0 →
        (e1.2 / (m.Distribution.map Prod.snd).sum) / (e2.2 / (m.Distribution.map Prod.snd).sum)
          = e1.2 / e2.2) ∧
      normalize m2 = .ok m2 := by
  set total := (m.Distribution.map Prod.snd).sum with htotal
  have hne : total ≠ 0 := ne_of_gt hpos
  have hsum1 : ((m.Distribution.map (fun e => (e.1, e.2 / total))).map Prod.snd).sum = 1 := by
    have : (m.Distribution.map (fun e => (e.1, e.2 / total))).map Prod.snd =
        (m.Distribution.map Prod.snd).map (fun x => x / total) := by
      simp [List.map_map, Function.comp_def]
    rw [this, sum_map_div]
    exact div_self hne
  have hnn2 : ∀ e ∈ m.Distribution.map (fun e => (e.1, e.2 / total)), 0 ≤ e.2 := by
    intro e he
    obtain ⟨e0, he0, rfl⟩ := List.mem_map.mp he
    exact div_nonneg (hnn e0 he0) hpos.le
  refine ⟨_, normalize_ok m hnn hne, rfl, rfl, rfl, rfl, hsum1, ?_, ?_, ?_⟩
  · intro e he
    refine ⟨hnn2 e he, ?_⟩
    obtain ⟨e0, he0, rfl⟩ := List.mem_map.mp he
    have hle : e0.2 ≤ total :=
      le_sum_of_mem_nonneg (m.Distribution.map Prod.snd)
        (by
          intro x hx
          obtain ⟨e1, he1, rfl⟩ := List.mem_map.mp hx
          exact hnn e1 he1)
        e0.2 (List.mem_map_of_mem Prod.snd he0)
    exact (div_le_one hpos).mpr hle
  · intro e1 _ e2 _ h2
    field_simp
  · have h := normalize_ok
      ⟨m.Distribution.map (fun e => (e.1, e.2 / total)), m.ops, m.objects, m.current⟩ hnn2
      (by simp only [hsum1]; norm_num)
    rw [h]
    dsimp only
    rw [hsum1]
    have hid : ∀ l : List (String × ℚ), l.map (fun e => (e.1, e.2 / 1)) = l := by
      intro l
      induction l with
      | nil => rfl
      | cons a tl ih => simp [ih]
    rw [hid]

/-- Witness for C13: PUT 3 and GET 1 become 3/4 and 1/4. -/
theorem normalize_sums_to_one_witness :
    ∃ m2, normalize putThreeGetOne = .ok m2 ∧
      m2.Distribution = putThreeGetOne.Distribution.map
        (fun e => (e.1, e.2 / (putThreeGetOne.Distribution.map Prod.snd).sum)) ∧
      (m2.Distribution.map Prod.snd).sum = 1 ∧
      normalize m2 = .ok m2 := by
  obtain ⟨m2, h1, h2, -, -, -, h6, -, -, h9⟩ :=
    normalize_sums_to_one putThreeGetOne (by simp [putThreeGetOne])
      (by simp [putThreeGetOne]; norm_num)
  exact ⟨m2, h1, h2, h6, h9⟩

/-! ## Slots per operation type -/

/-- The shuffle only moves elements. -/
theorem Shuffle_apply_perm {α : Type} (sh : Shuffle) (xs : List α) :
    (sh.apply xs).Perm xs := by
  have h := Equiv.Perm.ofFn_comp_perm (sh.perm xs.length) xs.get
  rw [List.ofFn_get] at h
  exact h

theorem floor_le_roundHalfEven (x : ℚ) : ⌊x⌋ ≤ roundHalfEven x := by
  unfold roundHalfEven
  split_ifs <;> omega

theorem roundHalfEven_abs (x : ℚ) : |(roundHalfEven x : ℚ) - x| ≤ 1 / 2 := by
  have h1 : (⌊x⌋ : ℚ) ≤ x := Int.floor_le x
  have h2 : x < (⌊x⌋ : ℚ) + 1 := Int.lt_floor_add_one x
  unfold roundHalfEven
  rw [abs_le]
  split_ifs with ha hb hc
  · constructor <;> linarith
  · push_cast
    constructor <;> linarith
  · constructor <;> linarith
  · push_cast
    constructor <;> linarith

theorem roundHalfEven_intCast (n : Int) : roundHalfEven (n : ℚ) = n := by
  unfold roundHalfEven
  simp

theorem roundHalfEven_nonneg (x : ℚ) (hx : 0 ≤ x) : 0 ≤ roundHalfEven x :=
  le_trans (Int.floor_nonneg.mpr hx) (floor_le_roundHalfEven x)

/-- The integer within less than a half is the one picked. -/
theorem roundHalfEven_eq_of_near (x : ℚ) (n : Int) (h : |x - n| < 1 / 2) :
    roundHalfEven x = n := by
  rw [abs_lt] at h
  obtain ⟨h1, h2⟩ := h
  unfold roundHalfEven
  by_cases hx : (n : ℚ) ≤ x
  · have hf : ⌊x⌋ = n := by
      rw [Int.floor_eq_iff]
      constructor <;> linarith
    rw [hf]
    rw [if_pos h2]
  · push_neg at hx
    have hf : ⌊x⌋ = n - 1 := by
      rw [Int.floor_eq_iff]
      push_cast
      constructor <;> linarith
    rw [hf]
    push_cast
    have h3 : ¬ (x - ((n : ℚ) - 1) < 1 / 2) := by
      push_neg
      linarith
    have h4 : (1 / 2 : ℚ) < x - ((n : ℚ) - 1) := by linarith
    simp only [h3, h4, if_false, if_true]
    ring

theorem two_zpow_pos (e : Int) : (0 : ℚ) < 2 ^ e := zpow_pos (by norm_num) e

theorem two_zpow_le {a b : Int} (h : a ≤ b) : (2 : ℚ) ^ a ≤ 2 ^ b :=
  zpow_le_zpow_right₀ (by norm_num) h

theorem two_zpow_lt {a b : Int} (h : a < b) : (2 : ℚ) ^ a < 2 ^ b :=
  zpow_lt_zpow_right₀ (by norm_num) h

theorem two_zpow_pred (e : Int) : (2 : ℚ) ^ (e - 1) = 2 ^ e / 2 := by
  rw [zpow_sub₀ (by norm_num), zpow_one]

theorem two_zpow_split (a b : Int) : (2 : ℚ) ^ (a + b) = 2 ^ a * 2 ^ b :=
  zpow_add₀ (by norm_num) a b

/-- The exponent and the significand that `F64.round` picks for a positive
number. -/
theorem round_spec (q : ℚ) (hq : 0 < q) :
    ∃ (e m : Int), -1022 ≤ e ∧ 0 ≤ m ∧
      m = roundHalfEven (q / 2 ^ (e - 52)) ∧
      ((2 : ℚ) ^ e ≤ q ∨ (e = -1022 ∧ q < 2 ^ (-1022 : Int))) ∧
      q < 2 ^ (e + 1) ∧
      |(m : ℚ) * 2 ^ (e - 52) - q| ≤ 2 ^ (e - 53) ∧
      F64.round q =
        if (2 : ℚ) ^ (1024 : Int) ≤ (m : ℚ) * 2 ^ (e - 52) then .pinf
        else .fin ((m : ℚ) * 2 ^ (e - 52)) := by
  have hlog1 : (2 : ℚ) ^ Int.log 2 q ≤ q := by
    have := Int.zpow_log_le_self (b := 2) (r := q) (by norm_num) hq
    simpa using this
  have hlog2 : q < (2 : ℚ) ^ (Int.log 2 q + 1) := by
    have := Int.lt_zpow_succ_log_self (b := 2) (by norm_num) q
    simpa using this
  set e : Int := max (Int.log 2 q) (-1022) with he
  have hqu : (0 : ℚ) < 2 ^ (e - 52) := two_zpow_pos _
  refine ⟨e, roundHalfEven (q / 2 ^ (e - 52)), le_max_right _ _,
    roundHalfEven_nonneg _ (div_nonneg hq.le hqu.le), rfl, ?_, ?_, ?_, ?_⟩
  · rcases le_total (-1022) (Int.log 2 q) with h | h
    · left
      rw [he, max_eq_left h]
      exact hlog1
    · rcases eq_or_lt_of_le h with h2 | h2
      · left
        rw [he, max_eq_left (le_of_eq h2.symm)]
        exact hlog1
      · right
        refine ⟨by rw [he, max_eq_right h], ?_⟩
        exact lt_of_lt_of_le hlog2 (two_zpow_le (by omega))
  · exact lt_of_lt_of_le hlog2 (two_zpow_le (by
      have := le_max_left (Int.log 2 q) (-1022)
      omega))
  · have h := roundHalfEven_abs (q / 2 ^ (e - 52))
    have heq : (roundHalfEven (q / 2 ^ (e - 52)) : ℚ) * 2 ^ (e - 52) - q =
        ((roundHalfEven (q / 2 ^ (e - 52)) : ℚ) - q / 2 ^ (e - 52)) * 2 ^ (e - 52) := by
      field_simp
    rw [heq, abs_mul, abs_of_pos hqu]
    have h53 : (2 : ℚ) ^ (e - 53) = 1 / 2 * 2 ^ (e - 52) := by
      have : e - 53 = (e - 52) - 1 := by ring
      rw [this, two_zpow_pred]
      ring
    rw [h53]
    exact mul_le_mul_of_nonneg_right h hqu.le
  · unfold F64.round
    have hq0 : ¬ q = 0 := ne_of_gt hq
    simp only [hq0, if_false, abs_of_pos hq, hq, if_true]

theorem round_zero : F64.round 0 = .fin 0 := by
  simp [F64.round]

/-- The exponent `F64.round` works with, from bounds on the number. -/
theorem max_log_eq (q : ℚ) (e : Int) (hq : 0 < q) (he : -1022 ≤ e)
    (hlo : (2 : ℚ) ^ e ≤ q ∨ e = -1022) (hhi : q < 2 ^ (e + 1)) :
    max (Int.log 2 q) (-1022) = e := by
  have h2 : Int.log 2 q < e + 1 := by
    have := (Int.lt_zpow_iff_log_lt (b := 2) (by norm_num) hq (x := e + 1)).mp (by simpa using hhi)
    exact this
  rcases hlo with h | h
  · have h1 : e ≤ Int.log 2 q :=
      (Int.zpow_le_iff_le_log (b := 2) (by norm_num) hq (x := e)).mp (by simpa using h)
    have : Int.log 2 q = e := by omega
    rw [this]
    exact max_eq_left he
  · subst h
    rcases le_total (Int.log 2 q) (-1022) with h3 | h3
    · exact max_eq_right h3
    · rw [max_eq_left h3]
      omega

/-- The rounding of a positive number, its exponent known. -/
theorem round_pos_eq (q : ℚ) (e : Int) (hq : 0 < q) (he : -1022 ≤ e)
    (hlo : (2 : ℚ) ^ e ≤ q ∨ e = -1022) (hhi : q < 2 ^ (e + 1)) :
    F64.round q =
      if (2 : ℚ) ^ (1024 : Int) ≤ (roundHalfEven (q / 2 ^ (e - 52)) : ℚ) * 2 ^ (e - 52) then .pinf
      else .fin ((roundHalfEven (q / 2 ^ (e - 52)) : ℚ) * 2 ^ (e - 52)) := by
  unfold F64.round
  have hq0 : ¬ q = 0 := ne_of_gt hq
  simp only [hq0, if_false, abs_of_pos hq, hq, if_true, max_log_eq q e hq he hlo hhi]

/-- A number that is close enough to `m * 2^(e-52)` rounds to it. -/
theorem round_eq_of_near (q : ℚ) (m e : Int) (hq : 0 < q) (he : -1022 ≤ e)
    (hlo : (2 : ℚ) ^ e ≤ q ∨ e = -1022) (hhi : q < 2 ^ (e + 1))
    (hnear : |q / 2 ^ (e - 52) - m| < 1 / 2)
    (hfin : (m : ℚ) * 2 ^ (e - 52) < 2 ^ (1024 : Int)) :
    F64.round q = .fin ((m : ℚ) * 2 ^ (e - 52)) := by
  rw [round_pos_eq q e hq he hlo hhi, roundHalfEven_eq_of_near _ m hnear, if_neg (not_le.mpr hfin)]

/-- A positive multiple of `2^(e-52)` below `2^(e+1)`, with `e` an exponent
of the format, is a `float64` value. -/
theorem round_exact (q : ℚ) (m e : Int) (hq : 0 < q) (he : -1022 ≤ e) (he2 : e ≤ 1023)
    (hm : q = m * 2 ^ (e - 52)) (hhi : q < 2 ^ (e + 1)) :
    F64.round q = .fin q := by
  obtain ⟨e1, m1, he1, hm1, hm1eq, hlo1, hhi1, -, hr⟩ := round_spec q hq
  have hle : e1 ≤ e := by
    rcases hlo1 with h | ⟨h, -⟩
    · have : (2 : ℚ) ^ e1 < 2 ^ (e + 1) := lt_of_le_of_lt h hhi
      have := (zpow_lt_zpow_iff_right₀ (a := (2 : ℚ)) (by norm_num)).mp this
      omega
    · omega
  obtain ⟨k, hk⟩ : ∃ k : Nat, e - e1 = (k : Int) := ⟨(e - e1).toNat, by omega⟩
  have hsplit : (2 : ℚ) ^ (e - 52) = 2 ^ k * 2 ^ (e1 - 52) := by
    have : e - 52 = (k : Int) + (e1 - 52) := by omega
    rw [this, two_zpow_split, zpow_natCast]
  have hquot : q / 2 ^ (e1 - 52) = ((m * 2 ^ k : Int) : ℚ) := by
    have hpos : (0 : ℚ) < 2 ^ (e1 - 52) := two_zpow_pos _
    rw [hm, hsplit, div_eq_iff hpos.ne.symm]
    push_cast
    ring
  have hm1v : (m1 : ℚ) * 2 ^ (e1 - 52) = q := by
    rw [hm1eq, hquot, roundHalfEven_intCast]
    rw [hm, hsplit]
    push_cast
    ring
  rw [hr, hm1v]
  have : ¬ ((2 : ℚ) ^ (1024 : Int) ≤ q) := by
    push_neg
    exact lt_of_lt_of_le hhi (two_zpow_le (by omega))
  rw [if_neg this]

/-- A number on the grid below the smallest normal number is a `float64`
value. -/
theorem round_grid_small (q : ℚ) (hq : 0 < q) (hg : OnGrid q) (hs : q < 2 ^ (-1022 : Int)) :
    F64.round q = .fin q := by
  obtain ⟨n, hn⟩ := hg
  exact round_exact q n (-1022) hq (by norm_num) (by norm_num) (by rw [hn]; norm_num)
    (lt_trans hs (two_zpow_lt (by norm_num)))

/-- A positive number rounds to an infinity or to a number on the grid, off
by at most the relative error `2^-53` and, below the normal range, the
absolute error `2^-1075`; a number on the grid has the relative error alone. -/
theorem round_pos_cases (q : ℚ) (hq : 0 < q) :
    F64.round q = .pinf ∨
    ∃ r : ℚ, F64.round q = .fin r ∧ 0 ≤ r ∧ OnGrid r ∧
      |r - q| ≤ 2 ^ (-53 : Int) * q + 2 ^ (-1075 : Int) ∧
      (OnGrid q → |r - q| ≤ 2 ^ (-53 : Int) * q) := by
  obtain ⟨e, m, he, hm, hmeq, hlo, hhi, herr, hr⟩ := round_spec q hq
  by_cases hover : (2 : ℚ) ^ (1024 : Int) ≤ (m : ℚ) * 2 ^ (e - 52)
  · left
    rw [hr, if_pos hover]
  · right
    rw [if_neg hover] at hr
    have hu : (2 : ℚ) ^ (e - 53) = 2 ^ (-53 : Int) * 2 ^ e := by
      have : e - 53 = (-53 : Int) + e := by ring
      rw [this, two_zpow_split]
    have hgrid : OnGrid ((m : ℚ) * 2 ^ (e - 52)) := by
      obtain ⟨k, hk⟩ : ∃ k : Nat, e + 1022 = (k : Int) := ⟨(e + 1022).toNat, by omega⟩
      refine ⟨m * 2 ^ k, ?_⟩
      have : e - 52 = (k : Int) + (-1074) := by omega
      rw [this, two_zpow_split, zpow_natCast]
      push_cast
      ring
    refine ⟨(m : ℚ) * 2 ^ (e - 52), hr, mul_nonneg (by exact_mod_cast hm) (two_zpow_pos _).le,
      hgrid, ?_, ?_⟩
    · rcases hlo with h | ⟨h, -⟩
      · have : (2 : ℚ) ^ (e - 53) ≤ 2 ^ (-53 : Int) * q := by
          rw [hu]
          exact mul_le_mul_of_nonneg_left h (two_zpow_pos _).le
        have h0 : (0 : ℚ) ≤ 2 ^ (-1075 : Int) := (two_zpow_pos _).le
        linarith
      · subst h
        have : (2 : ℚ) ^ ((-1022 : Int) - 53) = 2 ^ (-1075 : Int) := by norm_num
        rw [this] at herr
        have h0 : (0 : ℚ) ≤ 2 ^ (-53 : Int) * q := mul_nonneg (two_zpow_pos _).le hq.le
        linarith
    · intro hg
      rcases hlo with h | ⟨h, hs⟩
      · have : (2 : ℚ) ^ (e - 53) ≤ 2 ^ (-53 : Int) * q := by
          rw [hu]
          exact mul_le_mul_of_nonneg_left h (two_zpow_pos _).le
        linarith
      · have hx := round_grid_small q hq hg hs
        rw [hr] at hx
        have hx2 : (m : ℚ) * 2 ^ (e - 52) = q := by
          injection hx
        rw [hx2, sub_self, abs_zero]
        exact mul_nonneg (two_zpow_pos _).le hq.le

/-- Below `2^1023` nothing rounds to an infinity. -/
theorem round_pos_fin (q : ℚ) (hq : 0 < q) (hlt : q < 2 ^ (1023 : Int)) :
    ∃ r : ℚ, F64.round q = .fin r ∧ 0 ≤ r ∧ OnGrid r ∧
      |r - q| ≤ 2 ^ (-53 : Int) * q + 2 ^ (-1075 : Int) ∧
      (OnGrid q → |r - q| ≤ 2 ^ (-53 : Int) * q) := by
  rcases round_pos_cases q hq with h | h
  · exfalso
    obtain ⟨e, m, he, hm, hmeq, hlo, hhi, herr, hr⟩ := round_spec q hq
    have he2 : e ≤ 1022 := by
      rcases hlo with h1 | ⟨h1, -⟩
      · have : (2 : ℚ) ^ e < 2 ^ (1023 : Int) := lt_of_le_of_lt h1 hlt
        have := (zpow_lt_zpow_iff_right₀ (a := (2 : ℚ)) (by norm_num)).mp this
        omega
      · omega
    have hb : (m : ℚ) * 2 ^ (e - 52) < 2 ^ (1024 : Int) := by
      have h1 : (m : ℚ) * 2 ^ (e - 52) ≤ q + 2 ^ (e - 53) := by
        have := (abs_le.mp herr).2
        linarith
      have h2 : (2 : ℚ) ^ (e - 53) ≤ 2 ^ (1023 : Int) := two_zpow_le (by omega)
      have h3 : (2 : ℚ) ^ (1024 : Int) = 2 * 2 ^ (1023 : Int) := by norm_num
      linarith
    rw [hr, if_neg (not_le.mpr hb)] at h
    exact F64.noConfusion h
  · exact h

/-- From `2^1024` on everything rounds to the infinity. -/
theorem round_overflow (q : ℚ) (h : (2 : ℚ) ^ (1024 : Int) ≤ q) : F64.round q = .pinf := by
  have hq : 0 < q := lt_of_lt_of_le (two_zpow_pos _) h
  obtain ⟨e, m, he, hm, hmeq, hlo, hhi, herr, hr⟩ := round_spec q hq
  have he2 : 1024 ≤ e := by
    have : (2 : ℚ) ^ (1024 : Int) < 2 ^ (e + 1) := lt_of_le_of_lt h hhi
    have := (zpow_lt_zpow_iff_right₀ (a := (2 : ℚ)) (by norm_num)).mp this
    omega
  have hlo2 : (2 : ℚ) ^ e ≤ q := by
    rcases hlo with h1 | ⟨h1, -⟩
    · exact h1
    · omega
  have hpos : (0 : ℚ) < 2 ^ (e - 52) := two_zpow_pos _
  have hfl : ((2 : Int) ^ 52 : Int) ≤ m := by
    rw [hmeq]
    refine le_trans ?_ (floor_le_roundHalfEven _)
    rw [Int.le_floor, le_div_iff₀ hpos]
    have : (((2 : Int) ^ 52 : Int) : ℚ) * 2 ^ (e - 52) = 2 ^ e := by
      have h52 : (((2 : Int) ^ 52 : Int) : ℚ) = 2 ^ (52 : Int) := by norm_num
      rw [h52, ← two_zpow_split]
      congr 1
      ring
    rw [this]
    exact hlo2
  have hbig : (2 : ℚ) ^ (1024 : Int) ≤ (m : ℚ) * 2 ^ (e - 52) := by
    have h1 : (((2 : Int) ^ 52 : Int) : ℚ) * 2 ^ (e - 52) ≤ (m : ℚ) * 2 ^ (e - 52) :=
      mul_le_mul_of_nonneg_right (by exact_mod_cast hfl) hpos.le
    have h2 : (((2 : Int) ^ 52 : Int) : ℚ) * 2 ^ (e - 52) = 2 ^ e := by
      have h52 : (((2 : Int) ^ 52 : Int) : ℚ) = 2 ^ (52 : Int) := by norm_num
      rw [h52, ← two_zpow_split]
      congr 1
      ring
    rw [h2] at h1
    exact le_trans (two_zpow_le he2) h1
  rw [hr, if_pos hbig]

/-! ## The float64 total -/

theorem onGrid_zero : OnGrid 0 := ⟨0, by simp⟩

theorem onGrid_add (a b : ℚ) (ha : OnGrid a) (hb : OnGrid b) : OnGrid (a + b) := by
  obtain ⟨n, hn⟩ := ha
  obtain ⟨k, hk⟩ := hb
  exact ⟨n + k, by rw [hn, hk]; push_cast; ring⟩

/-- A finite `float64` value that is not negative lies on the grid. -/
theorem onGrid_of_isFloat64 (q : ℚ) (h : IsFloat64 (.fin q)) (hq : 0 ≤ q) : OnGrid q := by
  rcases eq_or_lt_of_le hq with h0 | h0
  · rw [← h0]
    exact onGrid_zero
  · rcases round_pos_cases q h0 with h1 | ⟨r, hr, -, hg, -, -⟩
    · have h2 : F64.round q = .fin q := h
      rw [h1] at h2
      exact F64.noConfusion h2
    · have h2 : F64.round q = .fin q := h
      rw [hr] at h2
      have : r = q := by injection h2
      rw [← this]
      exact hg

/-- The sum of two values on the grid, neither negative, is off by the
relative error `2^-53` at most, when it is finite. -/
theorem add_fin_cases (a b : ℚ) (ha : 0 ≤ a) (hb : 0 ≤ b) (hga : OnGrid a) (hgb : OnGrid b) :
    F64.add (.fin a) (.fin b) = .pinf ∨
    ∃ r : ℚ, F64.add (.fin a) (.fin b) = .fin r ∧ 0 ≤ r ∧ OnGrid r ∧
      (1 - 2 ^ (-53 : Int)) * (a + b) ≤ r ∧ r ≤ (1 + 2 ^ (-53 : Int)) * (a + b) := by
  have hab : 0 ≤ a + b := add_nonneg ha hb
  rcases eq_or_lt_of_le hab with h0 | h0
  · right
    refine ⟨0, ?_, le_refl _, onGrid_zero, ?_, ?_⟩
    · simp only [F64.add]
      rw [← h0]
      exact round_zero
    · rw [← h0]; simp
    · rw [← h0]; simp
  · rcases round_pos_cases (a + b) h0 with h1 | ⟨r, hr, hr0, hg, -, herr⟩
    · left
      simpa only [F64.add] using h1
    · right
      have herr := abs_le.mp (herr (onGrid_add a b hga hgb))
      refine ⟨r, by simpa only [F64.add] using hr, hr0, hg, ?_, ?_⟩
      · linarith [herr.1]
      · linarith [herr.2]

/-- Once the running total is an infinity or a NaN it stays one. -/
theorem sumWeights64_not_fin (d : List (String × F64)) :
    ∀ (acc x : F64), acc = .pinf ∨ acc = .nan → sumWeights64 d acc = .ok x →
      x = .pinf ∨ x = .nan := by
  induction d with
  | nil =>
    intro acc x hacc h
    simp only [sumWeights64, Except.ok.injEq] at h
    rw [← h]
    exact hacc
  | cons hd tl ih =>
    obtain ⟨op, dist⟩ := hd
    intro acc x hacc h
    simp only [sumWeights64] at h
    split_ifs at h with hneg
    refine ih (F64.add acc dist) x ?_ h
    rcases hacc with rfl | rfl
    · cases dist with
      | fin q => left; rfl
      | pinf => left; rfl
      | ninf => simp [F64.lt] at hneg
      | nan => right; rfl
    · right
      cases dist <;> rfl

theorem exactTotal_cons (op : String) (x : F64) (rest : List (String × F64)) :
    exactTotal ((op, x) :: rest) = x.toRat + exactTotal rest := by
  simp [exactTotal]

/-- A finite `float64` total: every weight is finite and not negative, and the
total is the exact one up to one relative error `2^-53` per addition. -/
theorem sumWeights64_fin (d : List (String × F64)) :
    ∀ (t T : ℚ), 0 ≤ t → OnGrid t → (∀ e ∈ d, IsFloat64 e.2) →
      sumWeights64 d (.fin t) = .ok (.fin T) →
      (∀ e ∈ d, ∃ q : ℚ, e.2 = .fin q ∧ 0 ≤ q ∧ OnGrid q) ∧ 0 ≤ exactTotal d ∧
      (1 - 2 ^ (-53 : Int)) ^ d.length * (t + exactTotal d) ≤ T ∧
      T ≤ (1 + 2 ^ (-53 : Int)) ^ d.length * (t + exactTotal d) := by
  induction d with
  | nil =>
    intro t T ht hg hf h
    simp only [sumWeights64, Except.ok.injEq, F64.fin.injEq] at h
    subst h
    simp [exactTotal]
  | cons hd tl ih =>
    obtain ⟨op, dist⟩ := hd
    intro t T ht hg hf h
    simp only [sumWeights64] at h
    split_ifs at h with hneg
    have hu0 : (0 : ℚ) ≤ 1 - 2 ^ (-53 : Int) := by norm_num
    have hu1 : (0 : ℚ) ≤ 1 + 2 ^ (-53 : Int) := by norm_num
    cases dist with
    | fin q =>
      have hq : 0 ≤ q := by
        simp only [F64.lt, decide_eq_true_eq] at hneg
        exact not_lt.mp hneg
      have hgq : OnGrid q := onGrid_of_isFloat64 q (hf (op, .fin q) (List.mem_cons_self _ _)) hq
      rcases add_fin_cases t q ht hq hg hgq with hinf | ⟨r, hr, hr0, hgr, hlo, hhi⟩
      · rw [hinf] at h
        rcases sumWeights64_not_fin tl .pinf _ (Or.inl rfl) h with h1 | h1 <;>
          exact F64.noConfusion h1
      · rw [hr] at h
        obtain ⟨ih1, ih2, ih3, ih4⟩ :=
          ih r T hr0 hgr (fun e he => hf e (List.mem_cons_of_mem _ he)) h
        refine ⟨?_, ?_, ?_, ?_⟩
        · intro e he
          rcases List.mem_cons.mp he with rfl | he
          · exact ⟨q, rfl, hq, hgq⟩
          · exact ih1 e he
        · rw [exactTotal_cons]
          exact add_nonneg hq ih2
        · rw [exactTotal_cons, List.length_cons, pow_succ]
          have hp : (0 : ℚ) ≤ (1 - 2 ^ (-53 : Int)) ^ tl.length := pow_nonneg hu0 _
          have h1 : (1 - 2 ^ (-53 : Int)) * (t + (F64.fin q).toRat + exactTotal tl) ≤
              r + exactTotal tl := by
            have : (1 - (2 : ℚ) ^ (-53 : Int)) * exactTotal tl ≤ exactTotal tl := by
              have hpos : (0 : ℚ) ≤ 2 ^ (-53 : Int) * exactTotal tl :=
                mul_nonneg (two_zpow_pos _).le ih2
              linarith
            simp only [F64.toRat]
            linarith
          calc (1 - 2 ^ (-53 : Int)) ^ tl.length * (1 - 2 ^ (-53 : Int)) *
                (t + ((F64.fin q).toRat + exactTotal tl))
              = (1 - 2 ^ (-53 : Int)) ^ tl.length *
                ((1 - 2 ^ (-53 : Int)) * (t + (F64.fin q).toRat + exactTotal tl)) := by ring
            _ ≤ (1 - 2 ^ (-53 : Int)) ^ tl.length * (r + exactTotal tl) :=
                mul_le_mul_of_nonneg_left h1 hp
            _ ≤ T := ih3
        · rw [exactTotal_cons, List.length_cons, pow_succ]
          have hp : (0 : ℚ) ≤ (1 + 2 ^ (-53 : Int)) ^ tl.length := pow_nonneg hu1 _
          have h1 : r + exactTotal tl ≤
              (1 + 2 ^ (-53 : Int)) * (t + (F64.fin q).toRat + exactTotal tl) := by
            have : exactTotal tl ≤ (1 + (2 : ℚ) ^ (-53 : Int)) * exactTotal tl := by
              have hpos : (0 : ℚ) ≤ 2 ^ (-53 : Int) * exactTotal tl :=
                mul_nonneg (two_zpow_pos _).le ih2
              linarith
            simp only [F64.toRat]
            linarith
          calc T ≤ (1 + 2 ^ (-53 : Int)) ^ tl.length * (r + exactTotal tl) := ih4
            _ ≤ (1 + 2 ^ (-53 : Int)) ^ tl.length *
                ((1 + 2 ^ (-53 : Int)) * (t + (F64.fin q).toRat + exactTotal tl)) :=
                mul_le_mul_of_nonneg_left h1 hp
            _ = (1 + 2 ^ (-53 : Int)) ^ tl.length * (1 + 2 ^ (-53 : Int)) *
                (t + ((F64.fin q).toRat + exactTotal tl)) := by ring
    | pinf =>
      have : F64.add (.fin t) .pinf = .pinf := rfl
      rw [this] at h
      rcases sumWeights64_not_fin tl .pinf _ (Or.inl rfl) h with h1 | h1 <;>
        exact F64.noConfusion h1
    | ninf => simp [F64.lt] at hneg
    | nan =>
      have : F64.add (.fin t) .nan = .nan := rfl
      rw [this] at h
      rcases sumWeights64_not_fin tl .nan _ (Or.inr rfl) h with h1 | h1 <;>
        exact F64.noConfusion h1

theorem one_add_pow_le (u : ℚ) (hu : 0 ≤ u) (k : Nat) (hk : 2 * (k : ℚ) * u ≤ 1) :
    (1 + u) ^ k ≤ 1 + 2 * (k : ℚ) * u := by
  induction k with
  | zero => simp
  | succ n ih =>
    have hn : 2 * (n : ℚ) * u ≤ 1 := by
      push_cast at hk
      nlinarith
    have ih := ih hn
    rw [pow_succ]
    push_cast
    have h1 : (1 + u) ^ n * (1 + u) ≤ (1 + 2 * (n : ℚ) * u) * (1 + u) :=
      mul_le_mul_of_nonneg_right ih (by linarith)
    have h2 : 2 * (n : ℚ) * u * u ≤ u := by
      have := mul_le_mul_of_nonneg_right hn hu
      linarith
    nlinarith

/-- With at most `2^32` entries the finite `float64` total is within the
fraction `2^-20` of the exact one. -/
theorem sumWeights64_near (d : List (String × F64)) (T : ℚ) (hlen : d.length ≤ 2 ^ 32)
    (hf : ∀ e ∈ d, IsFloat64 e.2) (h : sumWeights64 d (.fin 0) = .ok (.fin T)) :
    (∀ e ∈ d, ∃ q : ℚ, e.2 = .fin q ∧ 0 ≤ q ∧ OnGrid q) ∧ 0 ≤ exactTotal d ∧
    (1 - 1 / 2 ^ 20) * exactTotal d ≤ T ∧ T ≤ (1 + 1 / 2 ^ 20) * exactTotal d := by
  obtain ⟨h1, h2, h3, h4⟩ := sumWeights64_fin d 0 T (le_refl _) onGrid_zero hf h
  rw [zero_add] at h3 h4
  have hk : (d.length : ℚ) ≤ 2 ^ 32 := by exact_mod_cast hlen
  have hu : (2 : ℚ) ^ (-53 : Int) = 1 / 2 ^ 53 := by norm_num
  have hu0 : (0 : ℚ) ≤ 2 ^ (-53 : Int) := (two_zpow_pos _).le
  have hu2 : -2 ≤ -(2 : ℚ) ^ (-53 : Int) := by
    rw [hu]
    norm_num
  have hku : 2 * (d.length : ℚ) * 2 ^ (-53 : Int) ≤ 1 / 2 ^ 20 := by
    rw [hu]
    have : 2 * (d.length : ℚ) * (1 / 2 ^ 53) ≤ 2 * 2 ^ 32 * (1 / 2 ^ 53) := by
      apply mul_le_mul_of_nonneg_right _ (by norm_num)
      linarith
    refine le_trans this ?_
    norm_num
  have hb := one_add_mul_le_pow hu2 d.length
  have hc := one_add_pow_le (2 ^ (-53 : Int)) hu0 d.length (le_trans hku (by norm_num))
  have hnn : (0 : ℚ) ≤ (d.length : ℚ) * 2 ^ (-53 : Int) := mul_nonneg (Nat.cast_nonneg _) hu0
  have hsub : (1 + -(2 : ℚ) ^ (-53 : Int)) = 1 - 2 ^ (-53 : Int) := by ring
  rw [hsub] at hb
  generalize (2 : ℚ) ^ (-53 : Int) = u at h3 h4 hku hb hc hnn
  refine ⟨h1, h2, ?_, ?_⟩
  · have hb2 : (1 - 1 / 2 ^ 20 : ℚ) ≤ (1 - u) ^ d.length := by linarith
    exact le_trans (mul_le_mul_of_nonneg_right hb2 h2) h3
  · have hb2 : (1 + u) ^ d.length ≤ (1 + 1 / 2 ^ 20 : ℚ) := by linarith
    exact le_trans h4 (mul_le_mul_of_nonneg_right hb2 h2)

/-! ## Slots of one entry -/

/-- A number from 0 to below `2^1023` rounds to a finite value that is not
negative, off by the relative error `2^-53` and the absolute error `2^-1075`
at most. -/
theorem round_nonneg_fin (x : ℚ) (hx : 0 ≤ x) (hlt : x < 2 ^ (1023 : Int)) :
    ∃ r : ℚ, F64.round x = .fin r ∧ 0 ≤ r ∧ |r - x| ≤ x / 2 ^ 53 + 1 / 2 ^ 100 := by
  rcases eq_or_lt_of_le hx with h0 | h0
  · refine ⟨0, ?_, le_refl _, ?_⟩
    · rw [← h0]
      exact round_zero
    · rw [← h0]
      norm_num
  · obtain ⟨r, hr, hr0, -, herr, -⟩ := round_pos_fin x h0 hlt
    refine ⟨r, hr, hr0, le_trans herr ?_⟩
    have h1 : (2 : ℚ) ^ (-53 : Int) * x = x / 2 ^ 53 := by
      have : (2 : ℚ) ^ (-53 : Int) = 1 / 2 ^ 53 := by norm_num
      rw [this]
      ring
    have h2 : (2 : ℚ) ^ (-1075 : Int) ≤ 1 / 2 ^ 100 := by
      have : (1 : ℚ) / 2 ^ 100 = 2 ^ (-100 : Int) := by norm_num
      rw [this]
      exact two_zpow_le (by norm_num)
    rw [h1]
    linarith

theorem goInt64_of_small (t : Target) (y : ℚ) (hy : 0 ≤ y) (hlt : y < 2 ^ 62) :
    goInt64 t (.fin y) = ⌊y⌋ := by
  have hg : goInt y = ⌊y⌋ := by simp [goInt, hy]
  have h0 : (0 : Int) ≤ ⌊y⌋ := Int.floor_nonneg.mpr hy
  have h1 : ⌊y⌋ < 2 ^ 63 := by
    have : ⌊y⌋ < 2 ^ 62 := by
      rw [Int.floor_lt]
      exact_mod_cast hlt
    omega
  simp only [goInt64, hg]
  rw [if_pos ⟨by omega, h1⟩]

/-- The slots of an entry of weight `q`, the `float64` total `T` being within
the fraction `2^-20` of the exact total `S`: the truncation of a number close
to `1/2 + 1000 * q / S`. -/
theorem slotsFor64_near (t : Target) (q S T : ℚ) (hS : 0 < S) (hq : 0 ≤ q) (hqS : q ≤ S)
    (hlo : (1 - 1 / 2 ^ 20) * S ≤ T) (hhi : T ≤ (1 + 1 / 2 ^ 20) * S) :
    ∃ y : ℚ, 0 ≤ y ∧ slotsFor64 t (F64.div (.fin q) (.fin T)) = ⌊y⌋ ∧
      |y - (1 / 2 + 1000 * (q / S))| ≤ q / S / 2 ^ 9 + 1 / 2 ^ 50 := by
  have hT : 0 < T := by
    have : (0 : ℚ) < (1 - 1 / 2 ^ 20) * S := mul_pos (by norm_num) hS
    linarith
  have hbig : (2000 : ℚ) < 2 ^ (1023 : Int) := by
    have h1 : (2000 : ℚ) < 2 ^ (11 : Int) := by norm_num
    exact lt_trans h1 (two_zpow_lt (by norm_num))
  -- the exact ratio and the ratio to the float64 total
  obtain ⟨a, ha⟩ : ∃ a : ℚ, a = q / S := ⟨_, rfl⟩
  obtain ⟨r0, hr0⟩ : ∃ r0 : ℚ, r0 = q / T := ⟨_, rfl⟩
  have haS : a * S = q := by rw [ha]; field_simp
  have hrT : r0 * T = q := by rw [hr0]; field_simp
  have ha0 : 0 ≤ a := by rw [ha]; exact div_nonneg hq hS.le
  have ha1 : a ≤ 1 := by rw [ha]; exact (div_le_one hS).mpr hqS
  have hr00 : 0 ≤ r0 := by rw [hr0]; exact div_nonneg hq hT.le
  have hr_hi : r0 ≤ (1 + 1 / 2 ^ 19) * a := by
    have h1 : r0 * T ≤ (1 + 1 / 2 ^ 19) * a * T := by
      rw [hrT, ← haS]
      have : S ≤ (1 + 1 / 2 ^ 19) * T := by nlinarith
      have := mul_le_mul_of_nonneg_left this ha0
      linarith
    exact le_of_mul_le_mul_right h1 hT
  have hr_lo : (1 - 1 / 2 ^ 20) * a ≤ r0 := by
    have h1 : (1 - 1 / 2 ^ 20) * a * T ≤ r0 * T := by
      rw [hrT, ← haS]
      have : (1 - 1 / 2 ^ 20) * T ≤ S := by nlinarith
      have := mul_le_mul_of_nonneg_left this ha0
      linarith
    exact le_of_mul_le_mul_right h1 hT
  -- the stored weight
  have hdiv : F64.div (.fin q) (.fin T) = F64.round (q / T) := by
    simp [F64.div, hT.ne.symm]
  obtain ⟨w, hw, hw0, hwerr⟩ := round_nonneg_fin (q / T) (by rw [← hr0]; exact hr00)
    (by rw [← hr0]; linarith)
  rw [← hr0] at hwerr
  have hwerr := abs_le.mp hwerr
  rw [hdiv, hw]
  by_cases hfused : t.fused = true
  · -- one rounding
    obtain ⟨y, hy, hy0, hyerr⟩ := round_nonneg_fin (w * 1000 + 1 / 2) (by linarith)
      (by linarith [hwerr.2])
    have hyerr := abs_le.mp hyerr
    refine ⟨y, hy0, ?_, ?_⟩
    · simp only [slotsFor64, hfused, if_true, F64.fma, hy]
      exact goInt64_of_small t y hy0 (by linarith [hyerr.2, hwerr.2])
    · rw [← ha, abs_le]
      constructor
      · linarith [hyerr.1, hwerr.1]
      · linarith [hyerr.2, hwerr.2]
  · -- two roundings
    obtain ⟨p, hp, hp0, hperr⟩ := round_nonneg_fin (w * 1000) (by linarith)
      (by linarith [hwerr.2])
    have hperr := abs_le.mp hperr
    obtain ⟨y, hy, hy0, hyerr⟩ := round_nonneg_fin (1 / 2 + p) (by linarith)
      (by linarith [hperr.2, hwerr.2])
    have hyerr := abs_le.mp hyerr
    refine ⟨y, hy0, ?_, ?_⟩
    · simp only [slotsFor64, hfused, F64.mul, F64.add, hp, hy]
      exact goInt64_of_small t y hy0 (by linarith [hyerr.2, hperr.2, hwerr.2])
    · rw [← ha, abs_le]
      constructor
      · linarith [hyerr.1, hperr.1, hwerr.1, hperr.2, hwerr.2]
      · linarith [hyerr.2, hperr.2, hwerr.2]

/-! ## The sequence built in float64 -/

theorem length_materialize64 (t : Target) (l : List (String × F64)) :
    (materialize64 t l).length = (l.map (fun e => (slotsFor64 t e.2).toNat)).sum := by
  induction l with
  | nil => simp [materialize64]
  | cons hd tl ih =>
    obtain ⟨op, dist⟩ := hd
    simp [materialize64, ih]

/-- The order in which the entries are visited permutes the slots. -/
theorem materialize64_perm (t : Target) (l1 l2 : List (String × F64)) (h : l1.Perm l2) :
    (materialize64 t l1).Perm (materialize64 t l2) := by
  induction h with
  | nil => exact List.Perm.refl _
  | cons x _ ih =>
    obtain ⟨op, dist⟩ := x
    simp only [materialize64]
    exact List.Perm.append_left _ ih
  | swap x y l =>
    obtain ⟨op1, d1⟩ := x
    obtain ⟨op2, d2⟩ := y
    simp only [materialize64]
    rw [← List.append_assoc, ← List.append_assoc]
    exact List.Perm.append_right _ List.perm_append_comm
  | trans _ _ ih1 ih2 => exact ih1.trans ih2

/-- With pairwise distinct keys, an operation type fills as many slots as the
weight of its entry gives. -/
theorem count_materialize64 (t : Target) (l : List (String × F64))
    (hnd : (l.map Prod.fst).Nodup) (op : String) (w : F64) (h : (op, w) ∈ l) :
    (materialize64 t l).count op = (slotsFor64 t w).toNat := by
  induction l with
  | nil => simp at h
  | cons hd tl ih =>
    obtain ⟨k, v⟩ := hd
    simp only [List.map_cons, List.nodup_cons] at hnd
    have hzero : ∀ (l2 : List (String × F64)), op ∉ l2.map Prod.fst →
        (materialize64 t l2).count op = 0 := by
      intro l2
      induction l2 with
      | nil => simp [materialize64]
      | cons hd2 tl2 ih2 =>
        obtain ⟨k2, v2⟩ := hd2
        intro hno
        simp only [List.map_cons, List.mem_cons, not_or] at hno
        rw [materialize64, List.count_append, List.count_replicate, ih2 hno.2]
        have : ¬ k2 = op := fun h => hno.1 h.symm
        simp [this]
    rw [materialize64, List.count_append, List.count_replicate]
    rcases List.mem_cons.mp h with heq | hmem
    · have h1 : k = op := by
        have := congrArg Prod.fst heq
        exact this.symm
      have h2 : v = w := by
        have := congrArg Prod.snd heq
        exact this.symm
      subst h1
      subst h2
      rw [hzero tl hnd.1]
      simp
    · have hne : ¬ k = op := by
        intro hk
        apply hnd.1
        rw [hk]
        exact List.mem_map_of_mem Prod.fst hmem
      rw [ih hnd.2 hmem]
      simp [hne]

theorem toRat_le_exactTotal (d : List (String × F64))
    (hnn : ∀ e ∈ d, ∃ q : ℚ, e.2 = .fin q ∧ 0 ≤ q) :
    ∀ e ∈ d, e.2.toRat ≤ exactTotal d := by
  induction d with
  | nil => intro e he; simp at he
  | cons hd tl ih =>
    obtain ⟨k, v⟩ := hd
    have htl : 0 ≤ exactTotal tl := by
      unfold exactTotal
      apply List.sum_nonneg
      intro x hx
      obtain ⟨e, he, rfl⟩ := List.mem_map.mp hx
      obtain ⟨q, hq, hq0⟩ := hnn e (List.mem_cons_of_mem _ he)
      rw [hq]
      exact hq0
    have hv : 0 ≤ v.toRat := by
      obtain ⟨q, hq, hq0⟩ := hnn (k, v) (List.mem_cons_self _ _)
      simp only at hq
      rw [hq]
      exact hq0
    intro e he
    rw [exactTotal_cons]
    rcases List.mem_cons.mp he with rfl | he
    · simp only
      linarith
    · have := ih (fun e he => hnn e (List.mem_cons_of_mem _ he)) e he
      linarith

/-- The number of slots of a run of entries, each rounded on its own: within
half a slot per entry of `1000` times their share of the exact total, up to
the rounding errors. -/
theorem length_materialize64_bounds (t : Target) (S T : ℚ) (hS : 0 < S)
    (hlo : (1 - 1 / 2 ^ 20) * S ≤ T) (hhi : T ≤ (1 + 1 / 2 ^ 20) * S)
    (l : List (String × F64)) (hl : ∀ e ∈ l, ∃ q : ℚ, e.2 = .fin q ∧ 0 ≤ q ∧ q ≤ S) :
    ((materialize64 t (l.map (fun e => (e.1, F64.div e.2 (.fin T))))).length : ℚ) ≤
      (l.length : ℚ) / 2 + (1000 + 1 / 2 ^ 9) * (exactTotal l / S) + (l.length : ℚ) / 2 ^ 50 ∧
    -(l.length : ℚ) / 2 + (1000 - 1 / 2 ^ 9) * (exactTotal l / S) - (l.length : ℚ) / 2 ^ 50 ≤
      ((materialize64 t (l.map (fun e => (e.1, F64.div e.2 (.fin T))))).length : ℚ) := by
  induction l with
  | nil => simp [materialize64, exactTotal]
  | cons hd tl ih =>
    obtain ⟨op, v⟩ := hd
    obtain ⟨ih1, ih2⟩ := ih (fun e he => hl e (List.mem_cons_of_mem _ he))
    obtain ⟨q, hv, hq0, hqS⟩ := hl (op, v) (List.mem_cons_self _ _)
    simp only at hv
    subst hv
    obtain ⟨y, hy0, hslots, hy⟩ := slotsFor64_near t q S T hS hq0 hqS hlo hhi
    have hy := abs_le.mp hy
    have hfl0 : (0 : Int) ≤ ⌊y⌋ := Int.floor_nonneg.mpr hy0
    have hcast : (((slotsFor64 t (F64.div (.fin q) (.fin T))).toNat : ℕ) : ℚ) = ((⌊y⌋ : ℤ) : ℚ) := by
      rw [hslots]
      have : (((⌊y⌋).toNat : ℕ) : ℤ) = ⌊y⌋ := Int.toNat_of_nonneg hfl0
      exact_mod_cast this
    have hle : ((⌊y⌋ : ℤ) : ℚ) ≤ y := Int.floor_le _
    have hlt : y - 1 < ((⌊y⌋ : ℤ) : ℚ) := Int.sub_one_lt_floor _
    have hlen : ((materialize64 t (((op, F64.fin q) :: tl).map
          (fun e => (e.1, F64.div e.2 (.fin T))))).length : ℚ) =
        ((⌊y⌋ : ℤ) : ℚ) +
          ((materialize64 t (tl.map (fun e => (e.1, F64.div e.2 (.fin T))))).length : ℚ) := by
      simp [materialize64, hcast]
    have hsum : exactTotal ((op, F64.fin q) :: tl) / S = q / S + exactTotal tl / S := by
      rw [exactTotal_cons, add_div]
      rfl
    rw [hlen, hsum]
    simp only [List.length_cons, Nat.cast_add, Nat.cast_one]
    constructor
    · linarith [hy.2]
    · linarith [hy.1]

/-- What a successful `Generate` has checked and what it leaves. -/
theorem Generate64_ok_inv (sh order : Shuffle) (t : Target) (m m1 : MixedDistribution64)
    (allocObjs : Int) (h : Generate64 sh order t m allocObjs = .ok m1) :
    F64.lt (weight64 m.Distribution "PUT") (weight64 m.Distribution "DELETE") = false ∧
    ∃ total : F64, sumWeights64 m.Distribution (.fin 0) = .ok total ∧ total ≠ .fin 0 ∧
      m1 = ⟨m.Distribution.map (fun e => (e.1, F64.div e.2 total)),
        sh.apply (materialize64 t
          (order.apply (m.Distribution.map (fun e => (e.1, F64.div e.2 total))))),
        [], m.current⟩ := by
  unfold Generate64 at h
  split_ifs at h with hdel
  refine ⟨by simpa using hdel, ?_⟩
  unfold normalize64 at h
  cases hs : sumWeights64 m.Distribution (.fin 0) with
  | error e => simp [hs] at h
  | ok total =>
    simp only [hs] at h
    split_ifs at h with h0
    simp only [Except.ok.injEq] at h
    exact ⟨total, rfl, h0, h.symm⟩

/-- The distributions `Generate` accepts. -/
theorem Generate64_ok_of_valid (sh order : Shuffle) (t : Target) (m : MixedDistribution64)
    (allocObjs : Int) (total : F64)
    (hdel : F64.lt (weight64 m.Distribution "PUT") (weight64 m.Distribution "DELETE") = false)
    (hsum : sumWeights64 m.Distribution (.fin 0) = .ok total) (h0 : total ≠ .fin 0) :
    Generate64 sh order t m allocObjs =
      .ok ⟨m.Distribution.map (fun e => (e.1, F64.div e.2 total)),
        sh.apply (materialize64 t
          (order.apply (m.Distribution.map (fun e => (e.1, F64.div e.2 total))))),
        [], m.current⟩ := by
  unfold Generate64
  rw [if_neg (by simp [hdel])]
  unfold normalize64
  simp only [hsum, if_neg h0]

/-- The number of slots after a successful `Generate` with a finite total. -/
theorem length_Generate64 (sh order : Shuffle) (t : Target) (m m1 : MixedDistribution64)
    (allocObjs : Int) (T : ℚ)
    (hf : ∀ e ∈ m.Distribution, IsFloat64 e.2)
    (hlen : m.Distribution.length ≤ 2 ^ 32)
    (hfin : sumWeights64 m.Distribution (.fin 0) = .ok (.fin T))
    (h : Generate64 sh order t m allocObjs = .ok m1) :
    (1000 : ℚ) - (m.Distribution.length : ℚ) / 2 ≤ (m1.ops.length : ℚ) ∧
    (m1.ops.length : ℚ) ≤ 1000 + (m.Distribution.length : ℚ) / 2 := by
  obtain ⟨-, total, hsum, h0, rfl⟩ := Generate64_ok_inv sh order t m m1 allocObjs h
  rw [hfin] at hsum
  simp only [Except.ok.injEq] at hsum
  subst hsum
  obtain ⟨hnn, hS0, hlo, hhi⟩ := sumWeights64_near m.Distribution T hlen hf hfin
  have hT0 : T ≠ 0 := fun hT => h0 (by rw [hT])
  have hS : 0 < exactTotal m.Distribution := by
    rcases eq_or_lt_of_le hS0 with hz | hz
    · exfalso
      rw [← hz] at hlo hhi
      apply hT0
      linarith
    · exact hz
  have hle := toRat_le_exactTotal m.Distribution
    (fun e he => by
      obtain ⟨q, hq, hq0, -⟩ := hnn e he
      exact ⟨q, hq, hq0⟩)
  obtain ⟨hup, hdown⟩ := length_materialize64_bounds t (exactTotal m.Distribution) T hS hlo hhi
    m.Distribution (fun e he => by
      obtain ⟨q, hq, hq0, -⟩ := hnn e he
      refine ⟨q, hq, hq0, ?_⟩
      have := hle e he
      rw [hq] at this
      exact this)
  rw [div_self hS.ne.symm] at hup hdown
  have hlenops : (sh.apply (materialize64 t (order.apply
      (m.Distribution.map (fun e => (e.1, F64.div e.2 (.fin T))))))).length =
      (materialize64 t (m.Distribution.map (fun e => (e.1, F64.div e.2 (.fin T))))).length := by
    rw [length_Shuffle_apply]
    exact (materialize64_perm t _ _ (Shuffle_apply_perm order _)).length_eq
  simp only [hlenops]
  set L := (materialize64 t (m.Distribution.map (fun e => (e.1, F64.div e.2 (.fin T))))).length
    with hL
  have hk : (m.Distribution.length : ℚ) ≤ 2 ^ 32 := by exact_mod_cast hlen
  have hk0 : (0 : ℚ) ≤ (m.Distribution.length : ℚ) := Nat.cast_nonneg _
  -- twice the length and the number of entries are whole numbers
  have h1 : (2 * L : ℤ) < 2000 + m.Distribution.length + 1 := by
    have : ((2 * L : ℤ) : ℚ) < ((2000 + m.Distribution.length + 1 : ℤ) : ℚ) := by
      push_cast
      linarith
    exact_mod_cast this
  have h2 : (2000 : ℤ) - m.Distribution.length - 1 < 2 * L := by
    have : ((2000 - m.Distribution.length - 1 : ℤ) : ℚ) < ((2 * L : ℤ) : ℚ) := by
      push_cast
      linarith
    exact_mod_cast this
  have h3 : ((2 * L : ℤ) : ℚ) ≤ ((2000 + m.Distribution.length : ℤ) : ℚ) := by
    exact_mod_cast (by omega : (2 * L : ℤ) ≤ 2000 + m.Distribution.length)
  have h4 : ((2000 - m.Distribution.length : ℤ) : ℚ) ≤ ((2 * L : ℤ) : ℚ) := by
    exact_mod_cast (by omega : (2000 : ℤ) - m.Distribution.length ≤ 2 * L)
  push_cast at h3 h4
  constructor
  · linarith
  · linarith

/-! ## Examples in float64 -/

/-- A whole number from 1 to below `2^53` is a `float64` value. -/
theorem round_small_int (q : ℚ) (n : Int) (hq : q = n) (h0 : 0 < n) (h1 : n < 2 ^ 53) :
    F64.round q = .fin q := by
  refine round_exact q n 52 (by rw [hq]; exact_mod_cast h0) (by norm_num) (by norm_num)
    (by rw [hq]; norm_num) ?_
  rw [hq]
  have : ((n : Int) : ℚ) < ((2 ^ 53 : Int) : ℚ) := by exact_mod_cast h1
  refine lt_of_lt_of_le this ?_
  norm_num

theorem round_half : F64.round (1 / 2) = .fin (1 / 2) :=
  round_exact (1 / 2) (2 ^ 52) (-1) (by norm_num) (by norm_num) (by norm_num) (by norm_num)
    (by norm_num)

/-- A weight of 0 gets no slot. -/
theorem slotsFor64_zero (t : Target) : slotsFor64 t (.fin 0) = 0 := by
  have h : ∀ x : F64, x = .fin (1 / 2) → goInt64 t x = 0 := by
    intro x hx
    rw [hx, goInt64_of_small t (1 / 2) (by norm_num) (by norm_num)]
    rw [Int.floor_eq_iff]
    norm_num
  unfold slotsFor64
  split_ifs
  · apply h
    simp only [F64.fma]
    norm_num
    exact round_half
  · apply h
    simp only [F64.mul, F64.add]
    norm_num [round_zero]
    exact round_half

theorem sum_threeWay64 : sumWeights64 threeWay64.Distribution (.fin 0) = .ok (.fin 3) := by
  have r1 : F64.round 1 = .fin 1 := round_small_int 1 1 (by norm_num) (by norm_num) (by norm_num)
  have r2 : F64.round 2 = .fin 2 := round_small_int 2 2 (by norm_num) (by norm_num) (by norm_num)
  have r3 : F64.round 3 = .fin 3 := round_small_int 3 3 (by norm_num) (by norm_num) (by norm_num)
  simp only [threeWay64, sumWeights64, F64.lt, F64.add]
  norm_num [r1, r2, r3]

theorem isFloat64_threeWay64 : ∀ e ∈ threeWay64.Distribution, IsFloat64 e.2 := by
  have r1 : F64.round 1 = .fin 1 := round_small_int 1 1 (by norm_num) (by norm_num) (by norm_num)
  intro e he
  simp only [threeWay64, List.mem_cons, List.mem_singleton, List.not_mem_nil, or_false] at he
  rcases he with rfl | rfl | rfl <;> exact r1

/-- A third of the total gets 333 slots. -/
theorem slotsFor64_third (t : Target) : slotsFor64 t (F64.div (.fin 1) (.fin 3)) = 333 := by
  obtain ⟨y, hy0, hs, hy⟩ := slotsFor64_near t 1 3 3 (by norm_num) (by norm_num) (by norm_num)
    (by norm_num) (by norm_num)
  rw [hs, Int.floor_eq_iff]
  have hy := abs_le.mp hy
  norm_num at hy ⊢
  constructor <;> linarith [hy.1, hy.2]

/-! ## The cursor on the float64 state -/

/-- One `getOp` call with the cursor at `c` inside the sequence. -/
theorem getOp64_at (m : MixedDistribution64) (c : Nat) (hc : m.current = (c : Int))
    (hlt : c < m.ops.length) :
    getOp64 m = some (m.ops.getD c "",
      { m with current := (((c + 1) % m.ops.length : Nat) : Int) }) := by
  unfold getOp64
  have hneg : ¬ ((c : Int) < 0) := by omega
  have hmod : Int.tmod ((c : Int) + 1) (m.ops.length : Int) =
      (((c + 1) % m.ops.length : Nat) : Int) := by
    have : ((c : Int) + 1) = ((c + 1 : Nat) : Int) := by push_cast; rfl
    rw [this, ← Int.ofNat_tmod]
  simp only [hc, hneg, if_false, Int.toNat_ofNat, List.getElem?_eq_getElem hlt, hmod,
    List.getD_eq_getElem _ _ hlt]

/-- Any number of `getOp` calls from cursor `c`. -/
theorem getOps64_from (j : Nat) : ∀ (m : MixedDistribution64) (c : Nat), m.current = (c : Int) →
    c < m.ops.length →
    getOps64 m j = some
      ((List.range j).map (fun i => m.ops.getD ((c + i) % m.ops.length) ""),
       { m with current := (((c + j) % m.ops.length : Nat) : Int) }) := by
  induction j with
  | zero =>
    intro m c hc hlt
    simp only [getOps64, List.range_zero, List.map_nil, Nat.add_zero, Nat.mod_eq_of_lt hlt, ← hc]
  | succ j ih =>
    intro m c hc hlt
    have hpos : 0 < m.ops.length := by omega
    have hnext : (c + 1) % m.ops.length < m.ops.length := Nat.mod_lt _ hpos
    rw [getOps64, getOp64_at m c hc hlt]
    simp only
    rw [ih { m with current := (((c + 1) % m.ops.length : Nat) : Int) }
      ((c + 1) % m.ops.length) rfl hnext]
    have hadd : ∀ i : Nat, c + 1 + i = c + (i + 1) := fun i => by omega
    simp only [Option.some.injEq, Prod.mk.injEq, List.range_succ_eq_map, List.map_cons,
      List.map_map, Nat.add_zero, Nat.mod_eq_of_lt hlt, true_and, Nat.mod_add_mod, hadd,
      Function.comp_def, Nat.succ_eq_add_one, and_self]

/-- A cursor outside the sequence makes `getOp` panic. -/
theorem getOp64_outside (m : MixedDistribution64)
    (h : m.current < 0 ∨ (m.ops.length : Int) ≤ m.current) : getOp64 m = none := by
  unfold getOp64
  rcases h with h | h
  · rw [if_pos h]
  · have h0 : ¬ m.current < 0 := by omega
    rw [if_neg h0]
    have : m.ops[m.current.toNat]? = none := by
      rw [List.getElem?_eq_none_iff]
      omega
    rw [this]

theorem floor_near (x y : ℚ) (h : |y - x| ≤ 1 / 2) : |⌊y⌋ - ⌊x⌋| ≤ 1 := by
  have h := abs_le.mp h
  rw [abs_le]
  constructor
  · have : ⌊x⌋ - 1 ≤ ⌊y⌋ := by
      rw [Int.le_floor]
      push_cast
      have := Int.floor_le x
      linarith [h.1]
    omega
  · have : ⌊y⌋ ≤ ⌊x⌋ + 1 := by
      have h1 : ⌊y⌋ ≤ ⌊x + 1⌋ := Int.floor_le_floor (by linarith [h.2])
      rw [Int.floor_add_one] at h1
      exact h1
    omega

/-! ## The length of the sequence -/

theorem lt_threeWay64 :
    F64.lt (weight64 threeWay64.Distribution "PUT") (weight64 threeWay64.Distribution "DELETE") =
      false := by
  simp [threeWay64, weight64, F64.lt]

/-- C2 (as stated, refuted): on three equally weighted operation types
`Generate` succeeds with 999 slots, not 1000, whatever the shuffle, the order
in which the map is visited and the implementation of the arithmetic. -/
theorem Generate64_threeWay_999 :
    ¬ ∃ (sh order : Shuffle) (t : Target),
      (Generate64 sh order t threeWay64 0).toOption.map (fun m => m.ops.length) ≠ some 999 := by
  rintro ⟨sh, order, t, h⟩
  apply h
  rw [Generate64_ok_of_valid sh order t threeWay64 0 (.fin 3) lt_threeWay64 sum_threeWay64
    (by simp)]
  simp only [Except.toOption, Option.map, length_Shuffle_apply]
  rw [(materialize64_perm t _ _ (Shuffle_apply_perm order _)).length_eq, length_materialize64]
  simp [threeWay64, slotsFor64_third]

/-- C2 (amended): for every distribution of `k` entries, at most `2^32`,
that `Generate` accepts and whose `float64` total is finite, the number of
slots of `m.ops` lies within half a slot per entry of 1000:
`1000 - k/2 ≤ len ≤ 1000 + k/2`. -/
theorem Generate64_ops_length_near_1000 (sh order : Shuffle) (t : Target)
    (m m1 : MixedDistribution64) (allocObjs : Int) (T : ℚ)
    (hf : ∀ e ∈ m.Distribution, IsFloat64 e.2)
    (hlen : m.Distribution.length ≤ 2 ^ 32)
    (hfin : sumWeights64 m.Distribution (.fin 0) = .ok (.fin T))
    (h : Generate64 sh order t m allocObjs = .ok m1) :
    (1000 : ℚ) - (m.Distribution.length : ℚ) / 2 ≤ (m1.ops.length : ℚ) ∧
    (m1.ops.length : ℚ) ≤ 1000 + (m.Distribution.length : ℚ) / 2 :=
  length_Generate64 sh order t m m1 allocObjs T hf hlen hfin h

/-- Witness for C2 (amended) on three equally weighted operation types. -/
theorem Generate64_ops_length_near_1000_witness :
    ∃ m1 : MixedDistribution64,
      Generate64 sameOrder sameOrder amd64 threeWay64 0 = .ok m1 ∧
      (1000 : ℚ) - (threeWay64.Distribution.length : ℚ) / 2 ≤ (m1.ops.length : ℚ) ∧
      (m1.ops.length : ℚ) ≤ 1000 + (threeWay64.Distribution.length : ℚ) / 2 :=
  ⟨_, Generate64_ok_of_valid sameOrder sameOrder amd64 threeWay64 0 (.fin 3) lt_threeWay64
      sum_threeWay64 (by simp),
    Generate64_ops_length_near_1000 sameOrder sameOrder amd64 threeWay64 _ 0 3
      isFloat64_threeWay64 (by simp [threeWay64]) sum_threeWay64
      (Generate64_ok_of_valid sameOrder sameOrder amd64 threeWay64 0 (.fin 3) lt_threeWay64
        sum_threeWay64 (by simp))⟩

/-! ## Beyond the largest float64 -/

theorem round_two_pow_1023 : F64.round (2 ^ 1023) = .fin (2 ^ 1023) :=
  round_exact (2 ^ 1023) (2 ^ 52) 1023 (by norm_num) (by norm_num) (by norm_num) (by norm_num)
    (by norm_num)

theorem round_two_pow_1024 : F64.round (2 ^ 1023 + 2 ^ 1023) = .pinf :=
  round_overflow _ (by norm_num)

theorem lt_two_pow_1023 : F64.lt (.fin (2 ^ 1023)) (.fin 0) = false := by
  simp only [F64.lt]
  exact decide_eq_false (by norm_num)

theorem sum_twoHuge : sumWeights64 twoHuge.Distribution (.fin 0) = .ok .pinf := by
  have h1 : F64.add (.fin 0) (.fin (2 ^ 1023)) = .fin (2 ^ 1023) := by
    simp only [F64.add, zero_add, round_two_pow_1023]
  have h2 : F64.add (.fin (2 ^ 1023)) (.fin (2 ^ 1023)) = .pinf := by
    simp only [F64.add, round_two_pow_1024]
  unfold twoHuge
  simp only [sumWeights64, lt_two_pow_1023, h1, h2]
  rfl

theorem lt_twoHuge :
    F64.lt (weight64 twoHuge.Distribution "PUT") (weight64 twoHuge.Distribution "DELETE") =
      false := by
  have h : weight64 twoHuge.Distribution "PUT" = .fin (2 ^ 1023) := by
    simp [twoHuge, weight64]
  have h2 : weight64 twoHuge.Distribution "DELETE" = .fin 0 := by
    simp [twoHuge, weight64]
  rw [h, h2]
  exact lt_two_pow_1023

/-- Entries of weight 0 fill no slot, in whatever order they are visited. -/
theorem ops_twoHuge (sh order : Shuffle) (t : Target) :
    sh.apply (materialize64 t (order.apply
      (twoHuge.Distribution.map (fun e => (e.1, F64.div e.2 .pinf))))) = [] := by
  have h0 : materialize64 t (twoHuge.Distribution.map (fun e => (e.1, F64.div e.2 .pinf))) = [] := by
    simp [twoHuge, materialize64, F64.div, slotsFor64_zero]
  have h1 := materialize64_perm t _ _ (Shuffle_apply_perm order
    (twoHuge.Distribution.map (fun e => (e.1, F64.div e.2 .pinf))))
  rw [h0] at h1
  rw [List.Perm.eq_nil h1]
  apply List.length_eq_zero.mp
  rw [length_Shuffle_apply]
  rfl

/-! ## A weight whose slots round down -/

theorem sum_get201put199 :
    sumWeights64 get201put199.Distribution (.fin 0) = .ok (.fin 400) := by
  have r1 : F64.round 201 = .fin 201 :=
    round_small_int 201 201 (by norm_num) (by norm_num) (by norm_num)
  have r2 : F64.round 400 = .fin 400 :=
    round_small_int 400 400 (by norm_num) (by norm_num) (by norm_num)
  simp only [get201put199, sumWeights64, F64.lt, F64.add]
  norm_num [r1, r2]

theorem lt_get201put199 :
    F64.lt (weight64 get201put199.Distribution "PUT")
      (weight64 get201put199.Distribution "DELETE") = false := by
  simp [get201put199, weight64, F64.lt]

/-- The quotient `201 / 400` in `float64`: just below the exact one. -/
theorem div_201_400 :
    F64.div (.fin 201) (.fin 400) = .fin (4526117625507348 / 2 ^ 53) := by
  have h := round_eq_of_near (201 / 400) 4526117625507348 (-1) (by norm_num) (by norm_num)
    (Or.inl (by norm_num)) (by norm_num) (by norm_num [abs_lt]) (by norm_num)
  simp only [F64.div]
  norm_num at h ⊢
  rw [h]

/-- With the weight `201 / 400`, `0.5 + dist*1000` is the `float64` just
below 503, fused or not: 502 slots. -/
theorem slotsFor64_201 (t : Target) : slotsFor64 t (F64.div (.fin 201) (.fin 400)) = 502 := by
  have hfl : goInt64 t (.fin (8848869580341247 / 2 ^ 44)) = 502 := by
    rw [goInt64_of_small t _ (by norm_num) (by norm_num), Int.floor_eq_iff]
    norm_num
  rw [div_201_400]
  unfold slotsFor64
  split_ifs
  · have h := round_eq_of_near (4526117625507348 / 2 ^ 53 * 1000 + 1 / 2) 8848869580341247 8
      (by norm_num) (by norm_num) (Or.inl (by norm_num)) (by norm_num) (by norm_num [abs_lt])
      (by norm_num)
    simp only [F64.fma]
    norm_num at h ⊢
    rw [h]
    norm_num at hfl
    exact hfl
  · have h1 := round_eq_of_near (4526117625507348 / 2 ^ 53 * 1000) 8840073487319039 8
      (by norm_num) (by norm_num) (Or.inl (by norm_num)) (by norm_num) (by norm_num [abs_lt])
      (by norm_num)
    have h2 := round_eq_of_near (1 / 2 + 8840073487319039 / 2 ^ 44) 8848869580341247 8
      (by norm_num) (by norm_num) (Or.inl (by norm_num)) (by norm_num) (by norm_num [abs_lt])
      (by norm_num)
    simp only [F64.mul, F64.add]
    norm_num at h1 h2 ⊢
    rw [h1]
    simp only [F64.mul, F64.add]
    norm_num
    rw [h2]
    norm_num at hfl
    exact hfl

/-! ## Slots per operation type in float64 -/

/-- The slots of an operation type after `Generate`, the keys being pairwise
distinct. -/
theorem count_Generate64 (sh order : Shuffle) (t : Target) (d : List (String × F64))
    (hnd : (d.map Prod.fst).Nodup) (total : F64) (op : String) (v : F64) (h : (op, v) ∈ d) :
    (sh.apply (materialize64 t
      (order.apply (d.map (fun e => (e.1, F64.div e.2 total)))))).count op =
      (slotsFor64 t (F64.div v total)).toNat := by
  rw [(Shuffle_apply_perm sh _).count_eq,
    (materialize64_perm t _ _ (Shuffle_apply_perm order _)).count_eq]
  apply count_materialize64
  · simpa [List.map_map, Function.comp_def] using hnd
  · exact List.mem_map.mpr ⟨(op, v), h, rfl⟩

/-- C18 (as stated, refuted): on two weights of `2^1023` `Generate` succeeds
with an empty sequence, on which `getOp` panics, whatever the shuffle, the
order in which the map is visited and the implementation of the arithmetic;
and on `{GET: 201, PUT: 199}` GET gets 502 slots, where
`floor(0.5 + 1000 * 201/400)` is 503. -/
theorem Generate64_overflow_empty_and_502 :
    (¬ ∃ (sh order : Shuffle) (t : Target),
      (Generate64 sh order t twoHuge 0).toOption.map
        (fun m => (m.ops, (getOp64 m).isSome)) ≠ some ([], false)) ∧
    (¬ ∃ (sh order : Shuffle) (t : Target),
      (Generate64 sh order t get201put199 0).toOption.map (fun m => m.ops.count "GET") ≠
        some 502) ∧
    ⌊(1 / 2 : ℚ) + 1000 * (201 / (201 + 199))⌋ = 503 := by
  refine ⟨?_, ?_, ?_⟩
  · rintro ⟨sh, order, t, h⟩
    apply h
    rw [Generate64_ok_of_valid sh order t twoHuge 0 .pinf lt_twoHuge sum_twoHuge (by simp)]
    simp only [Except.toOption, Option.map, ops_twoHuge]
    rfl
  · rintro ⟨sh, order, t, h⟩
    apply h
    rw [Generate64_ok_of_valid sh order t get201put199 0 (.fin 400) lt_get201put199
      sum_get201put199 (by simp)]
    simp only [Except.toOption, Option.map]
    rw [count_Generate64 sh order t get201put199.Distribution (by decide) (.fin 400) "GET"
      (.fin 201) (by simp [get201put199]), slotsFor64_201]
    rfl
  · rw [Int.floor_eq_iff]
    norm_num

/-- C18 (amended): after a successful `Generate` on a map of `k` entries, at
most `2^32`, whose `float64` total is finite, each operation type fills
`int(0.5 + w*1000)` slots of `m.ops`, computed in `float64` on its stored
weight `w`, which is `floor(0.5 + 1000 * v / total)` of exact arithmetic or one
beside it; the number of slots lies within `k / 2` of 1000; when the keys are
among PUT, GET, STAT and DELETE it lies between 998 and 1002, and with fewer
than 2000 entries the sequence is not empty. `Generate` leaves the cursor
where it was: from a cursor inside the sequence every run of `getOp` calls
succeeds, from one at or beyond its length `getOp` panics. -/
theorem Generate64_slots_per_type (sh order : Shuffle) (t : Target)
    (m m1 : MixedDistribution64) (allocObjs : Int) (T : ℚ)
    (hf : ∀ e ∈ m.Distribution, IsFloat64 e.2)
    (hnd : (m.Distribution.map Prod.fst).Nodup)
    (hlen : m.Distribution.length ≤ 2 ^ 32)
    (hfin : sumWeights64 m.Distribution (.fin 0) = .ok (.fin T))
    (h : Generate64 sh order t m allocObjs = .ok m1) :
    (∀ op v, (op, v) ∈ m.Distribution →
      (op, F64.div v (.fin T)) ∈ m1.Distribution ∧
      m1.ops.count op = (slotsFor64 t (F64.div v (.fin T))).toNat) ∧
    (∀ op q, (op, F64.fin q) ∈ m.Distribution →
      |(m1.ops.count op : Int) - ⌊(1 / 2 : ℚ) + 1000 * (q / exactTotal m.Distribution)⌋| ≤ 1) ∧
    ((1000 : ℚ) - (m.Distribution.length : ℚ) / 2 ≤ (m1.ops.length : ℚ) ∧
      (m1.ops.length : ℚ) ≤ 1000 + (m.Distribution.length : ℚ) / 2) ∧
    ((∀ e ∈ m.Distribution, e.1 ∈ ["PUT", "GET", "STAT", "DELETE"]) →
      998 ≤ m1.ops.length ∧ m1.ops.length ≤ 1002 ∧ m1.ops ≠ []) ∧
    (m.Distribution.length < 2000 → m1.ops ≠ []) ∧
    m1.current = m.current ∧
    (0 ≤ m.current → m.current < m1.ops.length →
      ∀ j : Nat, ∃ r, getOps64 m1 j = some r ∧ r.1.length = j) ∧
    ((m1.ops.length : Int) ≤ m.current → getOp64 m1 = none) := by
  have hbounds := length_Generate64 sh order t m m1 allocObjs T hf hlen hfin h
  obtain ⟨-, total, hsum, h0, hm1⟩ := Generate64_ok_inv sh order t m m1 allocObjs h
  rw [hfin] at hsum
  simp only [Except.ok.injEq] at hsum
  subst hsum
  have hcur : m1.current = m.current := by rw [hm1]
  have hdist : m1.Distribution = m.Distribution.map (fun e => (e.1, F64.div e.2 (.fin T))) := by
    rw [hm1]
  have hops : m1.ops = sh.apply (materialize64 t
      (order.apply (m.Distribution.map (fun e => (e.1, F64.div e.2 (.fin T)))))) := by
    rw [hm1]
  have hcount : ∀ op v, (op, v) ∈ m.Distribution →
      m1.ops.count op = (slotsFor64 t (F64.div v (.fin T))).toNat := by
    intro op v hv
    rw [hops]
    exact count_Generate64 sh order t m.Distribution hnd (.fin T) op v hv
  obtain ⟨hnn, hS0, hlo, hhi⟩ := sumWeights64_near m.Distribution T hlen hf hfin
  have hT0 : T ≠ 0 := fun hT => h0 (by rw [hT])
  have hS : 0 < exactTotal m.Distribution := by
    rcases eq_or_lt_of_le hS0 with hz | hz
    · exfalso
      rw [← hz] at hlo hhi
      apply hT0
      linarith
    · exact hz
  have hle := toRat_le_exactTotal m.Distribution
    (fun e he => by
      obtain ⟨q, hq, hq0, -⟩ := hnn e he
      exact ⟨q, hq, hq0⟩)
  refine ⟨?_, ?_, hbounds, ?_, ?_, hcur, ?_, ?_⟩
  · intro op v hv
    refine ⟨?_, hcount op v hv⟩
    rw [hdist]
    exact List.mem_map.mpr ⟨(op, v), hv, rfl⟩
  · intro op q hq
    obtain ⟨q1, hq1, hq0, -⟩ := hnn (op, .fin q) hq
    have hqS : q ≤ exactTotal m.Distribution := hle (op, .fin q) hq
    have hq0 : 0 ≤ q := by
      simp only [F64.fin.injEq] at hq1
      rw [hq1]
      exact hq0
    obtain ⟨y, hy0, hslots, hy⟩ :=
      slotsFor64_near t q (exactTotal m.Distribution) T hS hq0 hqS hlo hhi
    have hfl0 : (0 : Int) ≤ ⌊y⌋ := Int.floor_nonneg.mpr hy0
    rw [hcount op (.fin q) hq, hslots, Int.toNat_of_nonneg hfl0]
    apply floor_near
    refine le_trans hy ?_
    have h1 : q / exactTotal m.Distribution ≤ 1 := (div_le_one hS).mpr hqS
    have h2 : q / exactTotal m.Distribution / 2 ^ 9 ≤ 1 / 2 ^ 9 :=
      div_le_div_of_nonneg_right h1 (by norm_num)
    refine le_trans (add_le_add_right h2 _) ?_
    norm_num
  · intro hfour
    have hk : m.Distribution.length ≤ 4 := by
      have hsub : m.Distribution.map Prod.fst ⊆ ["PUT", "GET", "STAT", "DELETE"] := by
        intro k hk
        obtain ⟨e, he, rfl⟩ := List.mem_map.mp hk
        exact hfour e he
      have := (List.subperm_of_subset hnd hsub).length_le
      simpa using this
    have hkQ : (m.Distribution.length : ℚ) ≤ 4 := by exact_mod_cast hk
    have h998 : ((998 : Nat) : ℚ) ≤ (m1.ops.length : ℚ) := by
      push_cast
      linarith [hbounds.1]
    have h1002 : (m1.ops.length : ℚ) ≤ ((1002 : Nat) : ℚ) := by
      push_cast
      linarith [hbounds.2]
    have h998n : 998 ≤ m1.ops.length := by exact_mod_cast h998
    have h1002n : m1.ops.length ≤ 1002 := by exact_mod_cast h1002
    refine ⟨h998n, h1002n, ?_⟩
    intro hnil
    rw [hnil] at h998n
    simp at h998n
  · intro hk hnil
    have hkQ : (m.Distribution.length : ℚ) < 2000 := by exact_mod_cast hk
    have h1 := hbounds.1
    rw [hnil] at h1
    simp only [List.length_nil, Nat.cast_zero] at h1
    linarith
  · intro hc0 hc1 j
    obtain ⟨c, hc⟩ : ∃ c : Nat, m.current = (c : Int) := ⟨m.current.toNat, by omega⟩
    have hc2 : m1.current = (c : Int) := by rw [hcur, hc]
    have hc3 : c < m1.ops.length := by omega
    refine ⟨_, getOps64_from j m1 c hc2 hc3, ?_⟩
    simp
  · intro hout
    apply getOp64_outside
    right
    rw [hcur]
    exact hout

theorem sum_fourTypes64 : sumWeights64 fourTypes64.Distribution (.fin 0) = .ok (.fin 100) := by
  have r1 : F64.round 45 = .fin 45 := round_small_int 45 45 (by norm_num) (by norm_num) (by norm_num)
  have r2 : F64.round 75 = .fin 75 := round_small_int 75 75 (by norm_num) (by norm_num) (by norm_num)
  have r3 : F64.round 90 = .fin 90 := round_small_int 90 90 (by norm_num) (by norm_num) (by norm_num)
  have r4 : F64.round 100 = .fin 100 :=
    round_small_int 100 100 (by norm_num) (by norm_num) (by norm_num)
  simp only [fourTypes64, sumWeights64, F64.lt, F64.add]
  norm_num [r1, r2, r3, r4]

theorem isFloat64_fourTypes64 : ∀ e ∈ fourTypes64.Distribution, IsFloat64 e.2 := by
  intro e he
  simp only [fourTypes64, List.mem_cons, List.mem_singleton, List.not_mem_nil, or_false] at he
  rcases he with rfl | rfl | rfl | rfl
  · exact round_small_int 45 45 (by norm_num) (by norm_num) (by norm_num)
  · exact round_small_int 30 30 (by norm_num) (by norm_num) (by norm_num)
  · exact round_small_int 15 15 (by norm_num) (by norm_num) (by norm_num)
  · exact round_small_int 10 10 (by norm_num) (by norm_num) (by norm_num)

theorem lt_fourTypes64 :
    F64.lt (weight64 fourTypes64.Distribution "PUT")
      (weight64 fourTypes64.Distribution "DELETE") = false := by
  simp [fourTypes64, weight64, F64.lt]
  norm_num

/-- Witness for C18 (amended): the four operation types with the weights 45,
30, 15 and 10. -/
theorem Generate64_slots_per_type_witness :
    ∃ m1 : MixedDistribution64,
      Generate64 sameOrder sameOrder amd64 fourTypes64 0 = .ok m1 ∧
      (∀ op v, (op, v) ∈ fourTypes64.Distribution →
        (op, F64.div v (.fin 100)) ∈ m1.Distribution ∧
        m1.ops.count op = (slotsFor64 amd64 (F64.div v (.fin 100))).toNat) ∧
      998 ≤ m1.ops.length ∧ m1.ops.length ≤ 1002 ∧ m1.ops ≠ [] ∧
      ∀ j : Nat, ∃ r, getOps64 m1 j = some r ∧ r.1.length = j := by
  have hok := Generate64_ok_of_valid sameOrder sameOrder amd64 fourTypes64 0 (.fin 100)
    lt_fourTypes64 sum_fourTypes64 (by simp)
  obtain ⟨h1, -, -, h4, -, -, h6, -⟩ := Generate64_slots_per_type sameOrder sameOrder amd64
    fourTypes64 _ 0 100 isFloat64_fourTypes64 (by decide) (by simp [fourTypes64])
    sum_fourTypes64 hok
  obtain ⟨h7, h8, h9⟩ := h4 (by decide)
  have hc : fourTypes64.current = 0 := rfl
  exact ⟨_, hok, h1, h7, h8, h9, h6 (by decide)
    (by rw [hc]; exact_mod_cast Nat.lt_of_lt_of_le (by decide : 0 < 998) h7)⟩

/-! ## The verdict of Generate in float64 -/

/-- The first loop of `normalize` fails exactly on a negative weight. -/
theorem sumWeights64_error_iff (d : List (String × F64)) :
    ∀ acc : F64, (∃ err, sumWeights64 d acc = .error err) ↔
      ∃ e ∈ d, F64.lt e.2 (.fin 0) = true := by
  induction d with
  | nil =>
    intro acc
    simp [sumWeights64]
  | cons hd tl ih =>
    obtain ⟨op, dist⟩ := hd
    intro acc
    simp only [sumWeights64]
    by_cases hneg : F64.lt dist (.fin 0) = true
    · simp only [hneg, if_true]
      exact ⟨fun _ => ⟨(op, dist), List.mem_cons_self _ _, hneg⟩, fun _ => ⟨_, rfl⟩⟩
    · simp only [hneg, if_false, Bool.false_eq_true]
      rw [ih]
      constructor
      · rintro ⟨e, he, h⟩
        exact ⟨e, List.mem_cons_of_mem _ he, h⟩
      · rintro ⟨e, he, h⟩
        rcases List.mem_cons.mp he with rfl | he
        · exact absurd h hneg
        · exact ⟨e, he, h⟩

/-- Weights that are all 0 total 0. -/
theorem sumWeights64_zeros (d : List (String × F64)) (h : ∀ e ∈ d, e.2 = .fin 0) :
    sumWeights64 d (.fin 0) = .ok (.fin 0) := by
  induction d with
  | nil => rfl
  | cons hd tl ih =>
    obtain ⟨op, dist⟩ := hd
    have h0 : dist = .fin 0 := h (op, dist) (List.mem_cons_self _ _)
    subst h0
    have hlt : F64.lt (.fin 0) (.fin 0) = false := by simp [F64.lt]
    have hadd : F64.add (.fin 0) (.fin 0) = .fin 0 := by
      simp only [F64.add, add_zero, round_zero]
    simp only [sumWeights64, hlt, hadd, Bool.false_eq_true, if_false]
    exact ih (fun e he => h e (List.mem_cons_of_mem _ he))

/-- A `float64` total of 0 comes from weights that are all 0: no sum of
`float64` values rounds to 0 unless it is 0. -/
theorem sumWeights64_zero_inv (d : List (String × F64)) (hf : ∀ e ∈ d, IsFloat64 e.2)
    (h : sumWeights64 d (.fin 0) = .ok (.fin 0)) : ∀ e ∈ d, e.2 = .fin 0 := by
  obtain ⟨h1, h2, h3, -⟩ := sumWeights64_fin d 0 0 (le_refl _) onGrid_zero hf h
  have hpow : (0 : ℚ) < (1 - 2 ^ (-53 : Int)) ^ d.length := pow_pos (by norm_num) _
  have hS : exactTotal d = 0 := by
    rw [zero_add] at h3
    have : exactTotal d ≤ 0 := by
      by_contra hc
      push_neg at hc
      have := mul_pos hpow hc
      linarith
    exact le_antisymm this h2
  have hle := toRat_le_exactTotal d (fun e he => by
    obtain ⟨q, hq, hq0, -⟩ := h1 e he
    exact ⟨q, hq, hq0⟩)
  intro e he
  obtain ⟨q, hq, hq0, -⟩ := h1 e he
  have := hle e he
  rw [hq, hS] at this
  have hq00 : q = 0 := le_antisymm this hq0
  rw [hq, hq00]

/-- The verdict of `Generate` is the same in `float64` as in exact
arithmetic: an error exactly when the DELETE weight is greater than the PUT
weight, or a weight is negative, or all weights are 0, the empty distribution
included. A NaN is neither greater nor negative nor 0. -/
theorem Generate64_error_iff (sh order : Shuffle) (t : Target) (m : MixedDistribution64)
    (allocObjs : Int) (hf : ∀ e ∈ m.Distribution, IsFloat64 e.2) :
    (∃ err, Generate64 sh order t m allocObjs = .error err) ↔
      F64.lt (weight64 m.Distribution "PUT") (weight64 m.Distribution "DELETE") = true ∨
      (∃ e ∈ m.Distribution, F64.lt e.2 (.fin 0) = true) ∨
      (∀ e ∈ m.Distribution, e.2 = .fin 0) := by
  unfold Generate64
  by_cases hdel : F64.lt (weight64 m.Distribution "PUT") (weight64 m.Distribution "DELETE") = true
  · simp only [hdel, if_true, true_or, iff_true]
    exact ⟨_, rfl⟩
  · simp only [hdel, if_false, false_or, Bool.false_eq_true]
    unfold normalize64
    cases hs : sumWeights64 m.Distribution (.fin 0) with
    | error e =>
      simp only
      have := (sumWeights64_error_iff m.Distribution (.fin 0)).mp ⟨e, hs⟩
      exact ⟨fun _ => Or.inl this, fun _ => ⟨e, rfl⟩⟩
    | ok total =>
      simp only
      have hnoneg : ¬ ∃ e ∈ m.Distribution, F64.lt e.2 (.fin 0) = true := by
        intro h
        obtain ⟨err, herr⟩ := (sumWeights64_error_iff m.Distribution (.fin 0)).mpr h
        rw [hs] at herr
        exact Except.noConfusion herr
      by_cases h0 : total = .fin 0
      · subst h0
        simp only [if_true]
        exact ⟨fun _ => Or.inr (sumWeights64_zero_inv m.Distribution hf hs), fun _ => ⟨_, rfl⟩⟩
      · simp only [h0, if_false]
        constructor
        · rintro ⟨err, herr⟩
          exact Except.noConfusion herr
        · rintro (h | h)
          · exact absurd h hnoneg
          · exfalso
            apply h0
            have := sumWeights64_zeros m.Distribution h
            rw [hs] at this
            simp only [Except.ok.injEq] at this
            exact this

/-! ## DELETE against PUT in float64 -/

theorem roundHalfEven_le_floor_add_one (x : ℚ) : roundHalfEven x ≤ ⌊x⌋ + 1 := by
  unfold roundHalfEven
  split_ifs <;> omega

/-- Rounding to the nearest integer keeps the order. -/
theorem roundHalfEven_mono (x y : ℚ) (h : x ≤ y) : roundHalfEven x ≤ roundHalfEven y := by
  have hfl : ⌊x⌋ ≤ ⌊y⌋ := Int.floor_le_floor h
  rcases lt_or_eq_of_le hfl with hlt | heq
  · have h1 := roundHalfEven_le_floor_add_one x
    have h2 := floor_le_roundHalfEven y
    omega
  · unfold roundHalfEven
    rw [← heq]
    split_ifs <;> first | omega | (exfalso; linarith)

/-- Rounding to a `float64` keeps the order of numbers that are not
negative. -/
theorem round_mono (a b ra rb : ℚ) (ha : 0 ≤ a) (hab : a ≤ b)
    (hra : F64.round a = .fin ra) (hrb : F64.round b = .fin rb) : ra ≤ rb := by
  have hb : 0 ≤ b := le_trans ha hab
  have hrb0 : 0 ≤ rb := by
    rcases eq_or_lt_of_le hb with h0 | h0
    · rw [← h0, round_zero] at hrb
      injection hrb with h
      rw [← h]
    · rcases round_pos_cases b h0 with h1 | ⟨r, hr, hr0, -⟩
      · rw [h1] at hrb
        exact F64.noConfusion hrb
      · rw [hr] at hrb
        injection hrb with h
        rw [← h]
        exact hr0
  rcases eq_or_lt_of_le ha with h0 | h0
  · rw [← h0, round_zero] at hra
    injection hra with h
    rw [← h]
    exact hrb0
  · have hb0 : 0 < b := lt_of_lt_of_le h0 hab
    obtain ⟨ea, ma, hea, hma, hmaeq, hloa, hhia, -, hra2⟩ := round_spec a h0
    obtain ⟨eb, mb, heb, hmb, hmbeq, hlob, hhib, -, hrb2⟩ := round_spec b hb0
    have hra3 : ra = (ma : ℚ) * 2 ^ (ea - 52) := by
      rw [hra2] at hra
      split_ifs at hra
      injection hra with h
      exact h.symm
    have hrb3 : rb = (mb : ℚ) * 2 ^ (eb - 52) := by
      rw [hrb2] at hrb
      split_ifs at hrb
      injection hrb with h
      exact h.symm
    have hsa : (0 : ℚ) < 2 ^ (ea - 52) := two_zpow_pos _
    have hsb : (0 : ℚ) < 2 ^ (eb - 52) := two_zpow_pos _
    have hexp : ea ≤ eb := by
      by_contra hc
      push_neg at hc
      have h1 : (2 : ℚ) ^ ea ≤ a := by
        rcases hloa with h | ⟨h, -⟩
        · exact h
        · omega
      have h2 : (2 : ℚ) ^ (eb + 1) ≤ 2 ^ ea := two_zpow_le (by omega)
      linarith
    rcases lt_or_eq_of_le hexp with hlt | heq
    · -- different binades
      have h52 : (((2 : Int) ^ 52 : Int) : ℚ) = 2 ^ (52 : Int) := by norm_num
      have h53 : (((2 : Int) ^ 53 : Int) : ℚ) = 2 ^ (53 : Int) := by norm_num
      have hma2 : ma ≤ 2 ^ 53 := by
        rw [hmaeq]
        refine le_trans (roundHalfEven_le_floor_add_one _) ?_
        have : ⌊a / 2 ^ (ea - 52)⌋ < 2 ^ 53 := by
          rw [Int.floor_lt, div_lt_iff₀ hsa, h53, ← two_zpow_split]
          have : (53 : Int) + (ea - 52) = ea + 1 := by ring
          rw [this]
          exact hhia
        omega
      have hb2 : (2 : ℚ) ^ eb ≤ b := by
        rcases hlob with h | ⟨h, -⟩
        · exact h
        · omega
      have hmb2 : (2 : Int) ^ 52 ≤ mb := by
        rw [hmbeq]
        refine le_trans ?_ (floor_le_roundHalfEven _)
        rw [Int.le_floor, le_div_iff₀ hsb, h52, ← two_zpow_split]
        have : (52 : Int) + (eb - 52) = eb := by ring
        rw [this]
        exact hb2
      have h1 : ra ≤ 2 ^ (ea + 1) := by
        rw [hra3]
        have : (ma : ℚ) * 2 ^ (ea - 52) ≤ (((2 : Int) ^ 53 : Int) : ℚ) * 2 ^ (ea - 52) :=
          mul_le_mul_of_nonneg_right (by exact_mod_cast hma2) hsa.le
        refine le_trans this ?_
        rw [h53, ← two_zpow_split]
        exact two_zpow_le (by omega)
      have h2 : (2 : ℚ) ^ eb ≤ rb := by
        rw [hrb3]
        have : (((2 : Int) ^ 52 : Int) : ℚ) * 2 ^ (eb - 52) ≤ (mb : ℚ) * 2 ^ (eb - 52) :=
          mul_le_mul_of_nonneg_right (by exact_mod_cast hmb2) hsb.le
        refine le_trans ?_ this
        rw [h52, ← two_zpow_split]
        exact two_zpow_le (by omega)
      have h3 : (2 : ℚ) ^ (ea + 1) ≤ 2 ^ eb := two_zpow_le (by omega)
      linarith
    · -- the same binade
      subst heq
      rw [hra3, hrb3]
      apply mul_le_mul_of_nonneg_right _ hsa.le
      have : ma ≤ mb := by
        rw [hmaeq, hmbeq]
        exact roundHalfEven_mono _ _ (div_le_div_of_nonneg_right hab hsa.le)
      exact_mod_cast this

/-- The number of slots grows with the weight, for weights from 0 to 3. -/
theorem slotsFor64_mono (t : Target) (a b : ℚ) (ha : 0 ≤ a) (hab : a ≤ b) (hb : b ≤ 3) :
    slotsFor64 t (.fin a) ≤ slotsFor64 t (.fin b) := by
  have hbig : (4000 : ℚ) < 2 ^ (1023 : Int) := by
    have h1 : (4000 : ℚ) < 2 ^ (12 : Int) := by norm_num
    exact lt_trans h1 (two_zpow_lt (by norm_num))
  have hb0 : 0 ≤ b := le_trans ha hab
  have ha3 : a ≤ 3 := le_trans hab hb
  unfold slotsFor64
  split_ifs with hfused
  · obtain ⟨ya, hya, hya0, hyaerr⟩ := round_nonneg_fin (a * 1000 + 1 / 2) (by linarith)
      (by linarith)
    obtain ⟨yb, hyb, hyb0, hyberr⟩ := round_nonneg_fin (b * 1000 + 1 / 2) (by linarith)
      (by linarith)
    have hmono := round_mono _ _ ya yb (by linarith) (by linarith) hya hyb
    have hyaerr := abs_le.mp hyaerr
    have hyberr := abs_le.mp hyberr
    simp only [F64.fma, hya, hyb]
    rw [goInt64_of_small t ya hya0 (by linarith [hyaerr.2]),
      goInt64_of_small t yb hyb0 (by linarith [hyberr.2])]
    exact Int.floor_le_floor hmono
  · obtain ⟨pa, hpa, hpa0, hpaerr⟩ := round_nonneg_fin (a * 1000) (by linarith) (by linarith)
    obtain ⟨pb, hpb, hpb0, hpberr⟩ := round_nonneg_fin (b * 1000) (by linarith) (by linarith)
    have hpmono := round_mono _ _ pa pb (by linarith) (by linarith) hpa hpb
    have hpaerr := abs_le.mp hpaerr
    have hpberr := abs_le.mp hpberr
    obtain ⟨ya, hya, hya0, hyaerr⟩ := round_nonneg_fin (1 / 2 + pa) (by linarith)
      (by linarith [hpaerr.2])
    obtain ⟨yb, hyb, hyb0, hyberr⟩ := round_nonneg_fin (1 / 2 + pb) (by linarith)
      (by linarith [hpberr.2])
    have hmono := round_mono _ _ ya yb (by linarith) (by linarith) hya hyb
    have hyaerr := abs_le.mp hyaerr
    have hyberr := abs_le.mp hyberr
    simp only [F64.mul, F64.add, hpa, hpb, hya, hyb]
    rw [goInt64_of_small t ya hya0 (by linarith [hyaerr.2, hpaerr.2]),
      goInt64_of_small t yb hyb0 (by linarith [hyberr.2, hpberr.2])]
    exact Int.floor_le_floor hmono

theorem count_materialize64_absent (t : Target) (op : String) :
    ∀ l : List (String × F64), op ∉ l.map Prod.fst → (materialize64 t l).count op = 0 := by
  intro l
  induction l with
  | nil => simp [materialize64]
  | cons hd tl ih =>
    obtain ⟨k, v⟩ := hd
    intro hno
    simp only [List.map_cons, List.mem_cons, not_or] at hno
    rw [materialize64, List.count_append, List.count_replicate, ih hno.2]
    have : ¬ k = op := fun h => hno.1 h.symm
    simp [this]

theorem weight64_cons (k : String) (w : F64) (rest : List (String × F64)) (op : String) :
    weight64 ((k, w) :: rest) op = if k = op then w else weight64 rest op := by
  unfold weight64
  by_cases h : k = op
  · simp [h]
  · simp [h]

/-- With pairwise distinct keys, the weight read under a key is that of its
entry; under a key that is absent it is 0. -/
theorem weight64_of_mem (d : List (String × F64)) (hnd : (d.map Prod.fst).Nodup)
    (op : String) :
    (∀ v, (op, v) ∈ d → weight64 d op = v) ∧ (op ∉ d.map Prod.fst → weight64 d op = .fin 0) := by
  induction d with
  | nil => simp [weight64]
  | cons hd tl ih =>
    obtain ⟨k, w⟩ := hd
    simp only [List.map_cons, List.nodup_cons] at hnd
    obtain ⟨ih1, ih2⟩ := ih hnd.2
    rw [weight64_cons]
    constructor
    · intro v hv
      rcases List.mem_cons.mp hv with h | h
      · have h1 : op = k := congrArg Prod.fst h
        have h2 : v = w := congrArg Prod.snd h
        simp [h1, h2]
      · have hne : k ≠ op := by
          intro hk
          apply hnd.1
          rw [hk]
          exact List.mem_map_of_mem Prod.fst h
        simp only [hne, if_false]
        exact ih1 v h
    · intro hno
      simp only [List.map_cons, List.mem_cons, not_or] at hno
      have hne : ¬ k = op := fun h => hno.1 h.symm
      simp only [hne, if_false]
      exact ih2 hno.2

/-- In `float64` too, with a finite total, `Generate` gives DELETE no more
slots than PUT: the quotient by the common total, the product, the sum and
the truncation all keep the order. -/
theorem Generate64_delete_le_put (sh order : Shuffle) (t : Target)
    (m m1 : MixedDistribution64) (allocObjs : Int) (T : ℚ)
    (hf : ∀ e ∈ m.Distribution, IsFloat64 e.2)
    (hnd : (m.Distribution.map Prod.fst).Nodup)
    (hlen : m.Distribution.length ≤ 2 ^ 32)
    (hfin : sumWeights64 m.Distribution (.fin 0) = .ok (.fin T))
    (h : Generate64 sh order t m allocObjs = .ok m1) :
    m1.ops.count "DELETE" ≤ m1.ops.count "PUT" := by
  obtain ⟨hdel, total, hsum, h0, hm1⟩ := Generate64_ok_inv sh order t m m1 allocObjs h
  rw [hfin] at hsum
  simp only [Except.ok.injEq] at hsum
  subst hsum
  have hops : m1.ops = sh.apply (materialize64 t
      (order.apply (m.Distribution.map (fun e => (e.1, F64.div e.2 (.fin T)))))) := by
    rw [hm1]
  obtain ⟨hnn, hS0, hlo, hhi⟩ := sumWeights64_near m.Distribution T hlen hf hfin
  have hT0 : T ≠ 0 := fun hT => h0 (by rw [hT])
  have hS : 0 < exactTotal m.Distribution := by
    rcases eq_or_lt_of_le hS0 with hz | hz
    · exfalso
      rw [← hz] at hlo hhi
      apply hT0
      linarith
    · exact hz
  have hT : 0 < T := by
    have : (0 : ℚ) < (1 - 1 / 2 ^ 20) * exactTotal m.Distribution := mul_pos (by norm_num) hS
    linarith
  have hle := toRat_le_exactTotal m.Distribution
    (fun e he => by
      obtain ⟨q, hq, hq0, -⟩ := hnn e he
      exact ⟨q, hq, hq0⟩)
  by_cases hD : "DELETE" ∈ m.Distribution.map Prod.fst
  · obtain ⟨eD, heD, hkD⟩ := List.mem_map.mp hD
    obtain ⟨qD, hqD, hqD0, -⟩ := hnn eD heD
    have hmemD : ("DELETE", F64.fin qD) ∈ m.Distribution := by
      rw [← hkD, ← hqD]
      exact heD
    have hwD : weight64 m.Distribution "DELETE" = .fin qD :=
      (weight64_of_mem m.Distribution hnd "DELETE").1 _ hmemD
    have hcD : m1.ops.count "DELETE" = (slotsFor64 t (F64.div (.fin qD) (.fin T))).toNat := by
      rw [hops]
      exact count_Generate64 sh order t m.Distribution hnd (.fin T) "DELETE" _ hmemD
    have hdivD : F64.div (.fin qD) (.fin T) = F64.round (qD / T) := by
      simp [F64.div, hT0]
    by_cases hP : "PUT" ∈ m.Distribution.map Prod.fst
    · obtain ⟨eP, heP, hkP⟩ := List.mem_map.mp hP
      obtain ⟨qP, hqP, hqP0, -⟩ := hnn eP heP
      have hmemP : ("PUT", F64.fin qP) ∈ m.Distribution := by
        rw [← hkP, ← hqP]
        exact heP
      have hwP : weight64 m.Distribution "PUT" = .fin qP :=
        (weight64_of_mem m.Distribution hnd "PUT").1 _ hmemP
      have hcP : m1.ops.count "PUT" = (slotsFor64 t (F64.div (.fin qP) (.fin T))).toNat := by
        rw [hops]
        exact count_Generate64 sh order t m.Distribution hnd (.fin T) "PUT" _ hmemP
      have hdivP : F64.div (.fin qP) (.fin T) = F64.round (qP / T) := by
        simp [F64.div, hT0]
      have hqq : qD ≤ qP := by
        rw [hwD, hwP] at hdel
        simp only [F64.lt, decide_eq_false_iff_not, not_lt] at hdel
        exact hdel
      have hqPS : qP ≤ exactTotal m.Distribution := hle _ hmemP
      have hratio : qP / T ≤ 2 := by
        rw [div_le_iff₀ hT]
        nlinarith
      have hbig : (2 : ℚ) < 2 ^ (1023 : Int) := by
        have h1 : (2 : ℚ) < 2 ^ (2 : Int) := by norm_num
        exact lt_trans h1 (two_zpow_lt (by norm_num))
      have hdiv_le : qD / T ≤ qP / T := div_le_div_of_nonneg_right hqq hT.le
      obtain ⟨wD, hwD2, hwD0, -⟩ := round_nonneg_fin (qD / T) (div_nonneg hqD0 hT.le)
        (by linarith)
      obtain ⟨wP, hwP2, hwP0, hwPerr⟩ := round_nonneg_fin (qP / T) (div_nonneg hqP0 hT.le)
        (by linarith)
      have hwmono := round_mono _ _ wD wP (div_nonneg hqD0 hT.le) hdiv_le hwD2 hwP2
      have hwPerr := abs_le.mp hwPerr
      rw [hcD, hcP, hdivD, hdivP, hwD2, hwP2]
      exact Int.toNat_le_toNat (slotsFor64_mono t wD wP hwD0 hwmono (by linarith [hwPerr.2]))
    · have hwP : weight64 m.Distribution "PUT" = .fin 0 :=
        (weight64_of_mem m.Distribution hnd "PUT").2 hP
      have hqD00 : qD = 0 := by
        rw [hwD, hwP] at hdel
        simp only [F64.lt, decide_eq_false_iff_not, not_lt] at hdel
        exact le_antisymm hdel hqD0
      rw [hcD, hdivD, hqD00, zero_div, round_zero, slotsFor64_zero]
      exact Nat.zero_le _
  · have : m1.ops.count "DELETE" = 0 := by
      rw [hops, (Shuffle_apply_perm sh _).count_eq,
        (materialize64_perm t _ _ (Shuffle_apply_perm order _)).count_eq]
      apply count_materialize64_absent
      simpa [List.map_map, Function.comp_def] using hD
    rw [this]
    exact Nat.zero_le _

/-! ## Worker iterations -/

theorem append_ne_empty (a b : String) (ha : a ≠ "") : a ++ b ≠ "" := by
  intro h
  apply ha
  have h2 := congrArg String.length h
  rw [String.length_append] at h2
  have h3 : a.length = 0 := by
    have : ("" : String).length = 0 := rfl
    omega
  apply String.ext
  exact List.length_eq_zero.mp h3

theorem downloadSizeMsg_ne (want got : Int) : downloadSizeMsg want got ≠ "" :=
  append_ne_empty _ _ (append_ne_empty _ _ (append_ne_empty _ _ (by decide)))

theorem shortUploadMsg_ne (want got : Int) : shortUploadMsg want got ≠ "" :=
  append_ne_empty _ _ (append_ne_empty _ _ (append_ne_empty _ _ (by decide)))

theorem statSizeMsg_ne (want got : Int) : statSizeMsg want got ≠ "" :=
  append_ne_empty _ _ (append_ne_empty _ _ (append_ne_empty _ _ (by decide)))

/-- A `getOp` call moves the cursor and nothing else. -/
theorem getOp_keeps (m m1 : MixedDistribution) (operation : String)
    (h : getOp m = some (operation, m1)) :
    m1.objects = m.objects ∧ m1.ops = m.ops ∧ m1.Distribution = m.Distribution := by
  unfold getOp at h
  split_ifs at h
  split at h
  · cases h
  · simp only [Option.some.injEq, Prod.mk.injEq] at h
    obtain ⟨-, rfl⟩ := h
    exact ⟨rfl, rfl, rfl⟩

/-- On a non-empty buffer `Object` returns the object with the drawn size, the
given name and a reader. -/
theorem Object_some (src : circularPartialCompressibleSrc) (size : Int) (name : String)
    (hbuf : src.buf ≠ []) :
    ∃ rd src1, src.Object size name =
      some (⟨some rd, name, src.obj.ContentType, size⟩, src1) := by
  have hlen : src.buf.length ≠ 0 := fun h => hbuf (List.length_eq_zero.mp h)
  refine ⟨⟨src.buf, src.pos, wrap64 (src.pos + size), size⟩,
    ⟨src.buf, ⟨some ⟨src.buf, src.pos, wrap64 (src.pos + size), size⟩, name,
      src.obj.ContentType, size⟩, Int.tmod (wrap64 (src.pos + size)) src.buf.length⟩, ?_⟩
  simp only [circularPartialCompressibleSrc.Object, hlen, if_false]

/-- The record of the GET branch carries an error exactly on failure. -/
theorem getRecord_Err (i : Nat) (obj : Object) (x : Outcome) (htext : ErrorsHaveText x) :
    (getRecord i obj x).OpType = "GET" ∧
    ((getRecord i obj x).Err ≠ "" ↔ opFailed "GET" x obj.Size) := by
  unfold getRecord
  cases hx : x.err with
  | some msg =>
    exact ⟨rfl, by simp [opFailed, hx, htext.1 msg hx]⟩
  | none =>
    cases hc : x.copyErr with
    | some msg =>
      have hmsg : msg ≠ "" := htext.2 msg hc
      exact ⟨by simp [setErr, newOp, hx, hc, hmsg],
        by simp [opFailed, hx, hc, setErr, newOp, hmsg]⟩
    | none =>
      by_cases hn : x.n = obj.Size
      · exact ⟨by simp [setErr, newOp, hx, hc, hn],
          by simp [opFailed, hx, hc, setErr, newOp, hn]⟩
      · exact ⟨by simp [setErr, newOp, hx, hc, hn],
          by simp [opFailed, hx, hc, setErr, newOp, hn, downloadSizeMsg_ne]⟩

/-- The record of the PUT branch carries an error exactly on failure, that is,
unless the upload returned no error and wrote the declared size. -/
theorem putRecord_Err (i : Nat) (obj : Object) (x : Outcome) (htext : ErrorsHaveText x) :
    (putRecord i obj x).OpType = "PUT" ∧
    ((putRecord i obj x).Err ≠ "" ↔ opFailed "PUT" x obj.Size) ∧
    ((putRecord i obj x).Err = "" ↔ x.err = none ∧ x.n = obj.Size) := by
  unfold putRecord
  cases hx : x.err with
  | some msg =>
    have hmsg : msg ≠ "" := htext.1 msg hx
    by_cases hn : x.n = obj.Size
    · exact ⟨by simp [setErr, newOp, hx, hn], by simp [opFailed, hx, setErr, newOp, hn, hmsg],
        by simp [setErr, newOp, hx, hn, hmsg]⟩
    · exact ⟨by simp [setErr, newOp, hx, hn, hmsg], by simp [opFailed, hx, setErr, newOp, hn, hmsg],
        by simp [setErr, newOp, hx, hn, hmsg]⟩
  | none =>
    by_cases hn : x.n = obj.Size
    · exact ⟨by simp [setErr, newOp, hx, hn], by simp [opFailed, hx, setErr, newOp, hn],
        by simp [setErr, newOp, hx, hn]⟩
    · exact ⟨by simp [setErr, newOp, hx, hn],
        by simp [opFailed, hx, setErr, newOp, hn, shortUploadMsg_ne],
        by simp [setErr, newOp, hx, hn, shortUploadMsg_ne]⟩

/-- The record of the DELETE branch carries an error exactly on failure. -/
theorem deleteRecord_Err (i : Nat) (obj : Object) (x : Outcome) (htext : ErrorsHaveText x)
    (declared : Int) :
    (deleteRecord i obj x).OpType = "DELETE" ∧
    ((deleteRecord i obj x).Err ≠ "" ↔ opFailed "DELETE" x declared) := by
  unfold deleteRecord
  cases hx : x.err with
  | some msg => exact ⟨rfl, by simp [opFailed, hx, setErr, newOp, htext.1 msg hx]⟩
  | none => exact ⟨rfl, by simp [opFailed, hx, setErr, newOp]⟩

/-- The record of the STAT branch carries an error exactly on failure. -/
theorem statRecord_Err (i : Nat) (obj : Object) (x : Outcome) (htext : ErrorsHaveText x) :
    (statRecord i obj x).OpType = "STAT" ∧
    ((statRecord i obj x).Err ≠ "" ↔ opFailed "STAT" x obj.Size) := by
  unfold statRecord
  cases hx : x.err with
  | some msg =>
    have hmsg : msg ≠ "" := htext.1 msg hx
    exact ⟨by simp [setErr, newOp, hx, hmsg], by simp [opFailed, hx, setErr, newOp, hmsg]⟩
  | none =>
    by_cases hn : x.n = obj.Size
    · exact ⟨by simp [setErr, newOp, hx, hn], by simp [opFailed, hx, setErr, newOp, hn]⟩
    · exact ⟨by simp [setErr, newOp, hx, hn],
        by simp [opFailed, hx, setErr, newOp, hn, statSizeMsg_ne]⟩

/-- When the errors handed in from outside carry a non-empty text: in one
iteration of a `Start` worker whose operation type is GET, PUT, DELETE or STAT
(the pool holding an object to pick, the source a buffer to draw from, so that
the iteration does not panic), exactly one record is sent to the collector; it
carries the operation type, and its `Err` is set exactly when the storage call,
or the body copy of GET, returned an error or the size differs from the
declared one. -/
theorem Start_sends_one_record (i : Nat) (m m1 : MixedDistribution)
    (src : circularPartialCompressibleSrc) (x : Outcome) (operation : String)
    (hop : getOp m = some (operation, m1))
    (hin : operation = "GET" ∨ operation = "PUT" ∨ operation = "DELETE" ∨ operation = "STAT")
    (hpool : operation ≠ "PUT" → m.objects ≠ [])
    (hbuf : operation = "PUT" → src.buf ≠ [])
    (htext : ErrorsHaveText x) :
    ∃ events m2 src2 r, startIteration i m src x = .finished events m2 src2 ∧
      sent events = [r] ∧ r.OpType = operation ∧
      (r.Err ≠ "" ↔ opFailed operation x (declaredSize operation m1 x)) := by
  have hobjs : operation ≠ "PUT" → m1.objects ≠ [] := by
    intro h
    rw [(getOp_keeps m m1 _ hop).1]
    exact hpool h
  rcases hin with rfl | rfl | rfl | rfl
  · obtain ⟨e, -, hrand⟩ := (randomObj_cases m1 x.first).2 (hobjs (by decide))
    have hds : declaredSize "GET" m1 x = e.2.Size := by simp [declaredSize, hrand]
    obtain ⟨h1, h2⟩ := getRecord_Err i e.2 x htext
    refine ⟨[.acquire, .send (getRecord i e.2 x), .release], m1, src, getRecord i e.2 x, ?_,
      rfl, h1, by rw [hds]; exact h2⟩
    simp only [startIteration, hop, if_true, hrand]
  · obtain ⟨rd, src1, hO⟩ := Object_some src x.size x.name (hbuf rfl)
    have hds : declaredSize "PUT" m1 x = x.size := by simp [declaredSize]
    have hne : ¬ ("PUT" = "GET") := by decide
    obtain ⟨h1, h2, -⟩ := putRecord_Err i ⟨some rd, x.name, src.obj.ContentType, x.size⟩ x htext
    refine ⟨[.acquire, .release,
        .send (putRecord i ⟨some rd, x.name, src.obj.ContentType, x.size⟩ x)],
      (if (putRecord i ⟨some rd, x.name, src.obj.ContentType, x.size⟩ x).Err = "" then
        addObj m1 ⟨some rd, x.name, src.obj.ContentType, x.size⟩ else m1),
      src1, putRecord i ⟨some rd, x.name, src.obj.ContentType, x.size⟩ x, ?_, rfl,
      h1, by rw [hds]; exact h2⟩
    simp only [startIteration, hop, hne, if_false, if_true, hO]
  · obtain ⟨e, -, hdel⟩ := deleteRandomObj_nonempty m1 x.first (hobjs (by decide))
    have hne1 : ¬ ("DELETE" = "GET") := by decide
    have hne2 : ¬ ("DELETE" = "PUT") := by decide
    obtain ⟨h1, h2⟩ := deleteRecord_Err i e.2 x htext (declaredSize "DELETE" m1 x)
    refine ⟨[.acquire, .release, .send (deleteRecord i e.2 x)],
      ⟨m1.Distribution, m1.ops, m1.objects.filter (fun y => y.1 != e.1), m1.current⟩,
      src, deleteRecord i e.2 x, ?_, rfl, h1, h2⟩
    simp only [startIteration, hop, hne1, hne2, if_false, if_true, hdel]
  · obtain ⟨e, -, hrand⟩ := (randomObj_cases m1 x.first).2 (hobjs (by decide))
    have hds : declaredSize "STAT" m1 x = e.2.Size := by simp [declaredSize, hrand]
    have hne1 : ¬ ("STAT" = "GET") := by decide
    have hne2 : ¬ ("STAT" = "PUT") := by decide
    have hne3 : ¬ ("STAT" = "DELETE") := by decide
    obtain ⟨h1, h2⟩ := statRecord_Err i e.2 x htext
    refine ⟨[.acquire, .send (statRecord i e.2 x), .release], m1, src, statRecord i e.2 x, ?_,
      rfl, h1, by rw [hds]; exact h2⟩
    simp only [startIteration, hop, hne1, hne2, hne3, if_false, if_true, hrand]

/-- An instance: a PUT whose upload writes one byte of two. -/
theorem Start_sends_one_record_witness :
    ∃ events m2 src2 r, startIteration 0 putOnly srcABC uploadShort = .finished events m2 src2 ∧
      sent events = [r] ∧ r.OpType = "PUT" ∧
      (r.Err ≠ "" ↔ opFailed "PUT" uploadShort
        (declaredSize "PUT" { putOnly with current := 0 } uploadShort)) :=
  Start_sends_one_record 0 putOnly { putOnly with current := 0 } srcABC uploadShort "PUT"
    rfl (by decide) (by decide) (by decide) ⟨by decide, by decide⟩

/-- C12 (the code at the failing input): a PUT iteration of `Start` whose
upload writes the declared two bytes and returns an error with the empty text
sends one record, and its `Err` is empty, as after a success, although the
storage call returned an error. The same holds in the four branches for every
worker, object and outcome: `Err` holds the text of the error, and the empty
text is what stands for no error. -/
theorem Start_records_no_error_without_text :
    sent (startIteration 0 putOnly srcABC uploadEmptyErr).events =
      [⟨"PUT", 0, 2, "x.crnd", 1, "http://host", ""⟩] ∧
    uploadEmptyErr.err = some "" ∧
    opFailed "PUT" uploadEmptyErr (declaredSize "PUT" putOnly uploadEmptyErr) ∧
    sent (startIteration 0 putOnly srcABC uploadTwo).events =
      sent (startIteration 0 putOnly srcABC uploadEmptyErr).events ∧
    ∀ (i : Nat) (obj : Object) (x : Outcome),
      (getRecord i obj { x with err := some "" }).Err = "" ∧
      (getRecord i obj { x with err := none, copyErr := some "", n := obj.Size }).Err = "" ∧
      (putRecord i obj { x with err := some "", n := obj.Size }).Err = "" ∧
      (deleteRecord i obj { x with err := some "" }).Err = "" ∧
      (statRecord i obj { x with err := some "", n := obj.Size }).Err = "" := by
  refine ⟨by decide, rfl, ?_, by decide, ?_⟩
  · simp [opFailed, uploadEmptyErr]
  · intro i obj x
    simp [getRecord, putRecord, deleteRecord, statRecord, setErr, newOp]

/-- C14 (the code at failing inputs): an iteration of a `Prepare` worker
whose upload returns an error, or writes fewer bytes than declared, ends with
one client acquired and none released; only the successful upload releases it.
The PUT branch of `Start` releases the client on the same two outcomes. -/
theorem Prepare_keeps_client_on_error :
    (prepareIteration putOnly srcABC uploadFails).map
        (fun r => (acquired r.events, released r.events, r.err)) =
      some (1, 0, some "upload error: connection refused") ∧
    (prepareIteration putOnly srcABC uploadShort).map
        (fun r => (acquired r.events, released r.events, r.err)) =
      some (1, 0, some "short upload. want: 2, got 1") ∧
    (prepareIteration putOnly srcABC uploadTwo).map
        (fun r => (acquired r.events, released r.events, r.err)) = some (1, 1, none) ∧
    (acquired (startIteration 0 putOnly srcABC uploadFails).events,
      released (startIteration 0 putOnly srcABC uploadFails).events) = (1, 1) ∧
    (acquired (startIteration 0 putOnly srcABC uploadShort).events,
      released (startIteration 0 putOnly srcABC uploadShort).events) = (1, 1) := by
  decide

/-- C16 (the code at the failing input): after a successful PUT iteration of
`Start` the pool entry carries the reader that `Object` built; after the same
upload in `Prepare` it carries none. -/
theorem Start_PUT_keeps_reader :
    (startIteration 0 putOnly srcABC uploadTwo).pool =
      some [("x.crnd", ⟨some ⟨[10, 20, 30], 0, 2, 2⟩, "x.crnd", "application/octet-stream", 2⟩)] ∧
    (prepareIteration putOnly srcABC uploadTwo).map (fun r => r.m.objects) =
      some [("x.crnd", ⟨none, "x.crnd", "application/octet-stream", 2⟩)] := by
  decide

/-! ## Registration in the pool -/

/-- An entry of the pool after `addObj` is the added object's, or was there. -/
theorem mem_addObj (m : MixedDistribution) (o : Object) (e : String × Object)
    (he : e ∈ (addObj m o).objects) : e.1 = o.Name ∨ e ∈ m.objects := by
  unfold addObj at he
  split_ifs at he
  · simp only [List.mem_map] at he
    obtain ⟨y, hy, rfl⟩ := he
    split_ifs with hk
    · left
      simpa using hk
    · right
      exact hy
  · rcases List.mem_append.mp he with h | h
    · right
      exact h
    · left
      simp only [List.mem_singleton] at h
      rw [h]

/-- The pool after an iteration of a `Prepare` worker. -/
theorem prepareIteration_pool (m : MixedDistribution) (src : circularPartialCompressibleSrc)
    (x : Outcome) (r : PrepareResult) (h : prepareIteration m src x = some r) :
    (uploadOk x → ∃ o : Object, o.Name = x.name ∧ o.Size = x.size ∧ o.Reader = none ∧
      r.m = addObj m o) ∧
    (¬ uploadOk x → r.m = m) := by
  by_cases hbuf : src.buf = []
  · have hO : src.Object x.size x.name = none := by
      simp [circularPartialCompressibleSrc.Object, hbuf]
    simp [prepareIteration, hO] at h
  · obtain ⟨rd, src1, hO⟩ := Object_some src x.size x.name hbuf
    unfold prepareIteration at h
    simp only [hO] at h
    cases hx : x.err with
    | some msg =>
      simp only [hx, Option.some.injEq] at h
      subst h
      exact ⟨fun hok => by simp [uploadOk, hx] at hok, fun _ => rfl⟩
    | none =>
      simp only [hx] at h
      by_cases hn : x.n = x.size
      · simp only [hn, ne_eq, not_true_eq_false, if_false, Option.some.injEq] at h
        subst h
        exact ⟨fun _ => ⟨_, rfl, rfl, rfl, rfl⟩, fun hnot => absurd ⟨hx, hn⟩ hnot⟩
      · simp only [ne_eq, hn, not_false_eq_true, if_true, Option.some.injEq] at h
        subst h
        exact ⟨fun hok => absurd hok.2 hn, fun _ => rfl⟩

/-- The pool after an iteration of a `Start` worker that ran to its end. -/
theorem startIteration_pool (i : Nat) (m m1 m2 : MixedDistribution)
    (src src2 : circularPartialCompressibleSrc) (x : Outcome) (operation : String)
    (events : List Event) (htext : ErrorsHaveText x)
    (hop : getOp m = some (operation, m1))
    (h : startIteration i m src x = .finished events m2 src2) :
    (operation = "PUT" →
      (uploadOk x → ∃ o : Object, o.Name = x.name ∧ o.Size = x.size ∧ m2 = addObj m1 o) ∧
      (¬ uploadOk x → m2 = m1)) ∧
    (operation ≠ "PUT" → ∀ e ∈ m2.objects, e ∈ m.objects) := by
  have hkeep := (getOp_keeps m m1 _ hop).1
  unfold startIteration at h
  simp only [hop] at h
  by_cases hG : operation = "GET"
  · subst hG
    simp only [if_true] at h
    refine ⟨fun hp => absurd hp (by decide), fun _ => ?_⟩
    cases hr : randomObj m1 x.first with
    | none => simp [hr] at h
    | some p =>
      obtain ⟨obj, m3⟩ := p
      have hm3 : m3 = m1 := by
        unfold randomObj at hr
        split at hr
        · simp only [Option.some.injEq, Prod.mk.injEq] at hr
          exact hr.2.symm
        · cases hr
      simp only [hr, IterResult.finished.injEq] at h
      obtain ⟨-, rfl, -⟩ := h
      intro e he
      rw [hm3, hkeep] at he
      exact he
  · by_cases hP : operation = "PUT"
    · subst hP
      simp only [hG, if_false, if_true] at h
      refine ⟨fun _ => ?_, fun hp => absurd rfl hp⟩
      cases hO : src.Object x.size x.name with
      | none => simp [hO] at h
      | some p =>
        obtain ⟨obj, src1⟩ := p
        have hobj : obj.Name = x.name ∧ obj.Size = x.size := by
          unfold circularPartialCompressibleSrc.Object at hO
          split_ifs at hO
          simp only [Option.some.injEq, Prod.mk.injEq] at hO
          obtain ⟨rfl, -⟩ := hO
          exact ⟨rfl, rfl⟩
        simp only [hO, IterResult.finished.injEq] at h
        obtain ⟨-, rfl, -⟩ := h
        have herr := (putRecord_Err i obj x htext).2.2
        rw [hobj.2] at herr
        constructor
        · intro hok
          have : (putRecord i obj x).Err = "" := herr.mpr hok
          exact ⟨obj, hobj.1, hobj.2, by simp only [this, if_true]⟩
        · intro hnot
          have : ¬ (putRecord i obj x).Err = "" := fun h => hnot (herr.mp h)
          simp only [this, if_false]
    · refine ⟨fun hp => absurd hp hP, fun _ => ?_⟩
      simp only [hG, hP, if_false] at h
      by_cases hD : operation = "DELETE"
      · subst hD
        simp only [if_true] at h
        cases hd : deleteRandomObj m1 x.first with
        | none => simp [hd] at h
        | some p =>
          obtain ⟨obj, m3⟩ := p
          simp only [hd, IterResult.finished.injEq] at h
          obtain ⟨-, rfl, -⟩ := h
          unfold deleteRandomObj at hd
          split at hd
          · simp only [Option.some.injEq, Prod.mk.injEq] at hd
            obtain ⟨-, rfl⟩ := hd
            intro e he
            rw [← hkeep]
            exact List.mem_of_mem_filter he
          · cases hd
      · simp only [hD, if_false] at h
        by_cases hS : operation = "STAT"
        · subst hS
          simp only [if_true] at h
          cases hr : randomObj m1 x.first with
          | none => simp [hr] at h
          | some p =>
            obtain ⟨obj, m3⟩ := p
            have hm3 : m3 = m1 := by
              unfold randomObj at hr
              split at hr
              · simp only [Option.some.injEq, Prod.mk.injEq] at hr
                exact hr.2.symm
              · cases hr
            simp only [hr, IterResult.finished.injEq] at h
            obtain ⟨-, rfl, -⟩ := h
            intro e he
            rw [hm3, hkeep] at he
            exact he
        · simp only [hS, if_false, IterResult.finished.injEq] at h
          obtain ⟨-, rfl, -⟩ := h
          intro e he
          rw [hkeep] at he
          exact he

/-- One step of a run keeps every pool entry among the uploaded names. -/
theorem runStep_uploaded (st st2 : RunState) (s : Step) (htext : ErrorsHaveText s.outcome)
    (hinv : ∀ e ∈ st.m.objects, e.1 ∈ st.uploaded) (h : runStep st s = some st2) :
    ∀ e ∈ st2.m.objects, e.1 ∈ st2.uploaded := by
  cases s with
  | prepare x =>
    unfold runStep at h
    cases hp : prepareIteration st.m st.src x with
    | none => simp [hp] at h
    | some r =>
      simp only [hp, Option.some.injEq] at h
      subst h
      obtain ⟨h1, h2⟩ := prepareIteration_pool st.m st.src x r hp
      intro e he
      by_cases hok : uploadOk x
      · obtain ⟨o, hname, -, -, hm⟩ := h1 hok
        simp only [hok, if_true]
        simp only [hm] at he
        rcases mem_addObj st.m o e he with hk | hold
        · rw [hk, hname]
          exact List.mem_cons_self _ _
        · exact List.mem_cons_of_mem _ (hinv e hold)
      · simp only [hok, if_false]
        simp only [h2 hok] at he
        exact hinv e he
  | start i x =>
    unfold runStep at h
    cases hs : startIteration i st.m st.src x with
    | panicked ev => simp [hs] at h
    | finished ev m2 src2 =>
      simp only [hs, Option.some.injEq] at h
      subst h
      cases hop : getOp st.m with
      | none => simp [startIteration, hop] at hs
      | some p =>
        obtain ⟨operation, m1⟩ := p
        obtain ⟨hput, hother⟩ :=
          startIteration_pool i st.m m1 m2 st.src src2 x operation ev htext hop hs
        have hkeep := (getOp_keeps st.m m1 _ hop).1
        intro e he
        simp only [Option.map_some', Option.some.injEq] at he ⊢
        by_cases hP : operation = "PUT"
        · obtain ⟨h1, h2⟩ := hput hP
          by_cases hok : uploadOk x
          · obtain ⟨o, hname, -, hm⟩ := h1 hok
            simp only [hP, hok, and_self, if_true]
            simp only [hm] at he
            rcases mem_addObj m1 o e he with hk | hold
            · rw [hk, hname]
              exact List.mem_cons_self _ _
            · rw [hkeep] at hold
              exact List.mem_cons_of_mem _ (hinv e hold)
          · simp only [hok, and_false, if_false]
            simp only [h2 hok, hkeep] at he
            exact hinv e he
        · simp only [hP, false_and, if_false]
          exact hinv e (hother hP e he)

/-- When the errors handed in from outside carry a non-empty text: an
iteration of a `Prepare` worker, and the PUT branch of a `Start` iteration, add
the generated object to the pool when the upload returned no error and wrote
exactly the declared number of bytes, and leave the pool as it was otherwise;
so in every state a run reaches, each pool entry bears the name of an object
whose upload succeeded in full. The part on `Prepare` needs no such
condition. -/
theorem addObj_only_after_full_upload (st0 : RunState) (steps : List Step)
    (htext : ∀ s ∈ steps, ErrorsHaveText s.outcome)
    (hinit : ∀ e ∈ st0.m.objects, e.1 ∈ st0.uploaded) :
    (∀ st, run st0 steps = some st → ∀ e ∈ st.m.objects, e.1 ∈ st.uploaded) ∧
    (∀ (m : MixedDistribution) (src : circularPartialCompressibleSrc) (x : Outcome)
      (r : PrepareResult), prepareIteration m src x = some r →
      (uploadOk x → ∃ o : Object, o.Name = x.name ∧ o.Size = x.size ∧ o.Reader = none ∧
        r.m = addObj m o) ∧
      (¬ uploadOk x → r.m = m)) ∧
    (∀ (i : Nat) (m m1 m2 : MixedDistribution) (src src2 : circularPartialCompressibleSrc)
      (x : Outcome) (events : List Event), ErrorsHaveText x →
      getOp m = some ("PUT", m1) → startIteration i m src x = .finished events m2 src2 →
      (uploadOk x → ∃ o : Object, o.Name = x.name ∧ o.Size = x.size ∧ m2 = addObj m1 o) ∧
      (¬ uploadOk x → m2 = m1)) := by
  refine ⟨?_, prepareIteration_pool, ?_⟩
  · induction steps generalizing st0 with
    | nil =>
      intro st h
      simp only [run, Option.some.injEq] at h
      subst h
      exact hinit
    | cons s rest ih =>
      intro st h
      unfold run at h
      cases hs : runStep st0 s with
      | none => simp [hs] at h
      | some st1 =>
        simp only [hs] at h
        exact ih st1 (fun t ht => htext t (List.mem_cons_of_mem _ ht))
          (runStep_uploaded st0 st1 s (htext s (List.mem_cons_self _ _)) hinit hs) st h
  · intro i m m1 m2 src src2 x events hx hop h
    exact (startIteration_pool i m m1 m2 src src2 x "PUT" events hx hop h).1 rfl

/-- An instance: an upload in `Prepare`, then a failed and a short PUT in
`Start`; the pool ends with the one object that was uploaded in full. -/
theorem addObj_only_after_full_upload_witness :
    ∃ st, run freshRun threeSteps = some st ∧
      st.m.objects.map Prod.fst = ["x.crnd"] ∧
      ∀ e ∈ st.m.objects, e.1 ∈ st.uploaded :=
  ⟨_, rfl, by decide,
    (addObj_only_after_full_upload freshRun threeSteps (by decide) (by decide)).1 _ rfl⟩

/-- C15 (the code at the failing input): a PUT iteration of `Start` whose
upload returns an error with the empty text registers the object in the pool,
because the branch tests `op.Err == ""`; the iteration of `Prepare` given the
same outcome tests `err != nil` and leaves the pool empty. The run made of that
one `Start` iteration ends with `x.crnd` in the pool and no upload that
succeeded. -/
theorem Start_PUT_registers_after_error :
    uploadEmptyErr.err = some "" ∧ ¬ uploadOk uploadEmptyErr ∧
    (startIteration 0 putOnly srcABC uploadEmptyErr).pool =
      some [("x.crnd", ⟨some ⟨[10, 20, 30], 0, 2, 2⟩, "x.crnd", "application/octet-stream", 2⟩)] ∧
    (prepareIteration putOnly srcABC uploadEmptyErr).map (fun r => (r.m.objects, r.err)) =
      some ([], some "upload error: ") ∧
    (run freshRun [.start 0 uploadEmptyErr]).map
        (fun st => (st.m.objects.map Prod.fst, st.uploaded)) = some (["x.crnd"], []) := by
  decide

end Bench

end Warp
